import Mathlib

/-!
# Verification of the involta-test document service

This file gives a shallow embedding, in Lean 4, of the core of the
`fedorovmatvey/involta-test` repository and proves (or refutes) the frozen
claims about it.

The embedded code:

* `internal/service/service.go` — `processDocument`,
  `processDocumentsParallel`, `Service.Update`, `Service.List`;
* `internal/cache` — the TTL cache (`Get`, `Set`, `Delete`, `Clear`,
  `Size`, `cleanup`, `evictRandom`);
* `internal/model/document.go` — the data model, `PaginationParams.Validate`
  and `PaginationParams.GetOffset`.

`processDocument` calls Go's `sort.Slice`, whose behaviour (pdqsort, from
`sort/zsortfunc.go` of the Go standard library, Go ≥ 1.19) is embedded
faithfully below, because the claims about item ordering (descending sort,
stability of ties) are decided by that exact algorithm.  All loops are
written as structurally recursive functions on an explicit fuel argument so
that the kernel can evaluate them on concrete inputs; every entry point is
given fuel that is proven (or immediately seen) to be sufficient.

Go machine integers that participate only in comparisons are modelled as
`Int`/`Nat`; the one place where 64-bit wrap-around is semantically visible
(`xorshift`, and `GetOffset` for absurdly large pages) uses an explicit
`% 2 ^ 64` / two's-complement wrap.
-/

namespace InvoltaTest

/-! ## Go slices as lists

A Go slice whose elements are being sorted in place is modelled as a
`List α` together with index reads (`geti`) and index swaps (`swp`).
`geti` is total via `Inhabited`; the embedded algorithms only ever read
in bounds, which the theorems make explicit where it matters. -/

/-- Read element `i` of a slice (Go `data[i]`). -/
def geti {α : Type} [Inhabited α] (l : List α) (i : Nat) : α :=
  l.getD i default

/-- Swap elements `i` and `j` of a slice (Go `data.Swap(i, j)`). -/
def swp {α : Type} [Inhabited α] (l : List α) (i j : Nat) : List α :=
  (l.set i (geti l j)).set j (geti l i)

namespace GoSort

variable {α : Type} [Inhabited α]

/-! ## Go's `sort.Slice` (pdqsort), from `sort/zsortfunc.go`

Function names follow the Go source (`insertionSort_func` becomes
`insertionSort`, and so on).  Loops become fuel-recursive functions; each
`...Go` wrapper supplies sufficient fuel. -/

/-- Inner loop of Go `insertionSort_func`:
`for j := i; j > a && data.Less(j, j-1); j-- { data.Swap(j, j-1) }`. -/
def insertionInner (less : α → α → Bool) (a : Nat) : List α → Nat → List α
  | l, 0 => l
  | l, j + 1 =>
    if a < j + 1 ∧ less (geti l (j + 1)) (geti l j) = true then
      insertionInner less a (swp l (j + 1) j) j
    else l

/-- Outer loop of Go `insertionSort_func`: `for i := a + 1; i < b; i++`. -/
def insertionOuter (less : α → α → Bool) (a b : Nat) : Nat → List α → Nat → List α
  | 0, l, _ => l
  | fuel + 1, l, i =>
    if i < b then insertionOuter less a b fuel (insertionInner less a l i) (i + 1)
    else l

/-- Go `insertionSort_func(data, a, b)`: insertion-sorts `data[a:b]`. -/
def insertionSort (less : α → α → Bool) (l : List α) (a b : Nat) : List α :=
  insertionOuter less a b b l (a + 1)

/-- Go `siftDown_func(data, lo, hi, first)`: the sift-down loop of heapsort.
The `root` argument is Go's loop variable (initialised to `lo`). -/
def siftDown (less : α → α → Bool) : Nat → List α → Nat → Nat → Nat → List α
  | 0, l, _, _, _ => l
  | fuel + 1, l, root, hi, first =>
    let child := 2 * root + 1
    if child ≥ hi then l
    else
      let child :=
        if child + 1 < hi ∧ less (geti l (first + child)) (geti l (first + child + 1)) = true
        then child + 1 else child
      if less (geti l (first + root)) (geti l (first + child)) = false then l
      else siftDown less fuel (swp l (first + root) (first + child)) child hi first

/-- Heap-construction loop of Go `heapSort_func`:
`for i := (hi - 1) / 2; i >= 0; i--`; counter `i + 1` processes index `i`. -/
def heapBuild (less : α → α → Bool) (hi first : Nat) : Nat → List α → List α
  | 0, l => l
  | i + 1, l => heapBuild less hi first i (siftDown less hi l i hi first)

/-- Pop loop of Go `heapSort_func`:
`for i := hi - 1; i >= 0; i-- { data.Swap(first, first+i); siftDown(data, lo, i, first) }`;
counter `i + 1` processes index `i`. -/
def heapPop (less : α → α → Bool) (first : Nat) : Nat → List α → List α
  | 0, l => l
  | i + 1, l =>
    heapPop less first i (siftDown less (i + 1) (swp l first (first + i)) 0 i first)

/-- Go `heapSort_func(data, a, b)`. -/
def heapSort (less : α → α → Bool) (l : List α) (a b : Nat) : List α :=
  let hi := b - a
  heapPop less a hi (heapBuild less hi a ((hi - 1) / 2 + 1) l)

/-- One step of Go's `xorshift` random generator (`uint64` state):
`*r ^= *r << 13; *r ^= *r >> 7; *r ^= *r << 17`. -/
def xorshiftNext (r : Nat) : Nat :=
  let r := (r ^^^ (r <<< 13)) % 2 ^ 64
  let r := r ^^^ (r >>> 7)
  (r ^^^ (r <<< 17)) % 2 ^ 64

/-- Go `nextPowerOfTwo(length) = 1 << bits.Len(uint(length))`. -/
def nextPowerOfTwo (length : Nat) : Nat :=
  1 <<< (Nat.log2 length + 1)

/-- Go `breakPatterns_func(data, a, b)`: swaps three elements around the
middle of `data[a:b]` with pseudo-random others (only when `b - a ≥ 8`). -/
def breakPatterns (l : List α) (a b : Nat) : List α :=
  let length := b - a
  if length ≥ 8 then
    let modulus := nextPowerOfTwo length
    let idx := a + (length / 4) * 2 - 1
    let step := fun (st : Nat × List α) (i : Nat) =>
      let random := xorshiftNext st.1
      let other := random % modulus
      let other := if other ≥ length then other - length else other
      (random, swp st.2 (idx - 1 + i) (a + other))
    (((List.range 3).foldl step (length, l))).2
  else l

/-- Sortedness hints of Go's `choosePivot_func`. -/
inductive Hint : Type
  | increasing
  | decreasing
  | unknown
deriving DecidableEq, Repr, Inhabited

/-- Go `order2_func(data, a, b, &swaps)`: returns `(x, y, swaps')` with
`data[x] ≤ data[y]`, incrementing `swaps` if it had to exchange them. -/
def order2 (less : α → α → Bool) (l : List α) (a b swaps : Nat) : Nat × Nat × Nat :=
  if less (geti l b) (geti l a) = true then (b, a, swaps + 1) else (a, b, swaps)

/-- Go `median_func(data, a, b, c, &swaps)`: index of the median of three. -/
def median (less : α → α → Bool) (l : List α) (a b c swaps : Nat) : Nat × Nat :=
  let r1 := order2 less l a b swaps
  let r2 := order2 less l r1.2.1 c r1.2.2
  let r3 := order2 less l r1.1 r2.1 r2.2.2
  (r3.2.1, r3.2.2)

/-- Go `medianAdjacent_func(data, a, &swaps)`: median of `a-1, a, a+1`. -/
def medianAdjacent (less : α → α → Bool) (l : List α) (a swaps : Nat) : Nat × Nat :=
  median less l (a - 1) a (a + 1) swaps

/-- Go `choosePivot_func(data, a, b)`: pivot index and sortedness hint. -/
def choosePivot (less : α → α → Bool) (l : List α) (a b : Nat) : Nat × Hint :=
  let length := b - a
  let i := a + length / 4 * 1
  let j := a + length / 4 * 2
  let k := a + length / 4 * 3
  let st :=
    if length ≥ 8 then
      let st0 :=
        if length ≥ 50 then
          let r1 := medianAdjacent less l i 0
          let r2 := medianAdjacent less l j r1.2
          let r3 := medianAdjacent less l k r2.2
          (r1.1, r2.1, r3.1, r3.2)
        else (i, j, k, 0)
      let rm := median less l st0.1 st0.2.1 st0.2.2.1 st0.2.2.2
      (rm.1, rm.2)
    else (j, 0)
  if st.2 = 0 then (st.1, Hint.increasing)
  else if st.2 = 12 then (st.1, Hint.decreasing)
  else (st.1, Hint.unknown)

/-- Go `reverseRange_func(data, a, b)`: `i, j := a, b-1; for i < j { swap; i++; j-- }`. -/
def reverseRangeLoop : Nat → List α → Nat → Nat → List α
  | 0, l, _, _ => l
  | fuel + 1, l, i, j => if i < j then reverseRangeLoop fuel (swp l i j) (i + 1) (j - 1) else l

/-- Go `reverseRange_func(data, a, b)`. -/
def reverseRange (l : List α) (a b : Nat) : List α :=
  reverseRangeLoop b l a (b - 1)

/-- Scan loop `for i < b && !data.Less(i, i-1) { i++ }` of Go
`partialInsertionSort_func`; returns the final `i`. -/
def partScan (less : α → α → Bool) (l : List α) (b : Nat) : Nat → Nat → Nat
  | 0, i => i
  | fuel + 1, i =>
    if i < b ∧ less (geti l i) (geti l (i - 1)) = false then partScan less l b fuel (i + 1)
    else i

/-- Left-shift loop of Go `partialInsertionSort_func`:
`for j := i - 1; j >= 1; j-- { if !data.Less(j, j-1) { break }; data.Swap(j, j-1) }`.
The argument is the loop variable `j` itself (structural recursion on `j`). -/
def partShiftLeft (less : α → α → Bool) : List α → Nat → List α
  | l, 0 => l
  | l, j + 1 =>
    if less (geti l (j + 1)) (geti l j) = false then l
    else partShiftLeft less (swp l (j + 1) j) j

/-- Right-shift loop of Go `partialInsertionSort_func`:
`for j := i + 1; j < b; j++ { if !data.Less(j, j-1) { break }; data.Swap(j, j-1) }`. -/
def partShiftRight (less : α → α → Bool) (b : Nat) : Nat → List α → Nat → List α
  | 0, l, _ => l
  | fuel + 1, l, j =>
    if j < b then
      if less (geti l j) (geti l (j - 1)) = false then l
      else partShiftRight less b fuel (swp l j (j - 1)) (j + 1)
    else l

/-- Outer (`maxSteps = 5`) loop of Go `partialInsertionSort_func`.
Returns the slice and the boolean result. -/
def partInsertionLoop (less : α → α → Bool) (a b : Nat) : Nat → List α → Nat → List α × Bool
  | 0, l, _ => (l, false)
  | steps + 1, l, i =>
    let i := partScan less l b (b - i) i
    if i = b then (l, true)
    else if b - a < 50 then (l, false)
    else
      let l := swp l i (i - 1)
      let l := if i - a ≥ 2 then partShiftLeft less l (i - 1) else l
      let l := if b - i ≥ 2 then partShiftRight less b (b - (i + 1)) l (i + 1) else l
      partInsertionLoop less a b steps l i

/-- Go `partialInsertionSort_func(data, a, b)`: partially sorts the slice,
returning `true` if it ends up sorted. -/
def partInsertionSort (less : α → α → Bool) (l : List α) (a b : Nat) : List α × Bool :=
  partInsertionLoop less a b 5 l (a + 1)

/-- Scan `for i <= j && data.Less(i, a) { i++ }` of Go `partition_func`. -/
def scanLtUp (less : α → α → Bool) (l : List α) (a j : Nat) : Nat → Nat → Nat
  | 0, i => i
  | fuel + 1, i =>
    if i ≤ j ∧ less (geti l i) (geti l a) = true then scanLtUp less l a j fuel (i + 1)
    else i

/-- Scan `for i <= j && !data.Less(j, a) { j-- }` of Go `partition_func`. -/
def scanGeDown (less : α → α → Bool) (l : List α) (a i : Nat) : Nat → Nat → Nat
  | 0, j => j
  | fuel + 1, j =>
    if i ≤ j ∧ less (geti l j) (geti l a) = false then scanGeDown less l a i fuel (j - 1)
    else j

/-- Main loop of Go `partition_func` (after the unrolled first round):
scan up, scan down, stop when the cursors cross, otherwise swap and repeat.
Returns the slice and the final cursors `(i, j)`. -/
def partitionLoop (less : α → α → Bool) (a : Nat) : Nat → List α → Nat → Nat → List α × Nat × Nat
  | 0, l, i, j => (l, i, j)
  | fuel + 1, l, i, j =>
    let i := scanLtUp less l a j (j + 1 - i) i
    let j := scanGeDown less l a i (j + 1 - i) j
    if i > j then (l, i, j)
    else partitionLoop less a fuel (swp l i j) (i + 1) (j - 1)

/-- Go `partition_func(data, a, b, pivot)`: one quicksort partition of
`data[a:b]`; returns `(data', newpivot, alreadyPartitioned)`. -/
def partition (less : α → α → Bool) (l : List α) (a b pivot : Nat) :
    List α × Nat × Bool :=
  let l := swp l a pivot
  let i := a + 1
  let j := b - 1
  let i := scanLtUp less l a j (j + 1 - i) i
  let j := scanGeDown less l a i (j + 1 - i) j
  if i > j then (swp l j a, j, true)
  else
    let r := partitionLoop less a b (swp l i j) (i + 1) (j - 1)
    (swp r.1 r.2.2 a, r.2.2, false)

/-- Scan `for i <= j && !data.Less(a, i) { i++ }` of Go `partitionEqual_func`. -/
def scanEqUp (less : α → α → Bool) (l : List α) (a j : Nat) : Nat → Nat → Nat
  | 0, i => i
  | fuel + 1, i =>
    if i ≤ j ∧ less (geti l a) (geti l i) = false then scanEqUp less l a j fuel (i + 1)
    else i

/-- Scan `for i <= j && data.Less(a, j) { j-- }` of Go `partitionEqual_func`. -/
def scanGtDown (less : α → α → Bool) (l : List α) (a i : Nat) : Nat → Nat → Nat
  | 0, j => j
  | fuel + 1, j =>
    if i ≤ j ∧ less (geti l a) (geti l j) = true then scanGtDown less l a i fuel (j - 1)
    else j

/-- Loop of Go `partitionEqual_func`; returns the slice and final `(i, j)`. -/
def partitionEqualLoop (less : α → α → Bool) (a : Nat) :
    Nat → List α → Nat → Nat → List α × Nat × Nat
  | 0, l, i, j => (l, i, j)
  | fuel + 1, l, i, j =>
    let i := scanEqUp less l a j (j + 1 - i) i
    let j := scanGtDown less l a i (j + 1 - i) j
    if i > j then (l, i, j)
    else partitionEqualLoop less a fuel (swp l i j) (i + 1) (j - 1)

/-- Go `partitionEqual_func(data, a, b, pivot)`: partitions `data[a:b]` into
elements equal to and greater than the pivot; returns `(data', newpivot)`. -/
def partitionEqual (less : α → α → Bool) (l : List α) (a b pivot : Nat) : List α × Nat :=
  let l := swp l a pivot
  let r := partitionEqualLoop less a b l (a + 1) (b - 1)
  (r.1, r.2.1)

/-- Go `pdqsort_func(data, a, b, limit)`.  The outer `for {}` loop and the
recursive calls are combined into one fuel-recursive function; the loop-local
variables `wasBalanced` and `wasPartitioned` are arguments (recursive calls
restart them at `true`, loop iterations thread them through). -/
def pdqsortLoop (less : α → α → Bool) :
    Nat → List α → Nat → Nat → Nat → Bool → Bool → List α
  | 0, l, _, _, _, _, _ => l
  | fuel + 1, l, a, b, limit, wasBalanced, wasPartitioned =>
    let length := b - a
    if length ≤ 12 then insertionSort less l a b
    else if limit = 0 then heapSort less l a b
    else
      let bl : Nat × List α :=
        if wasBalanced = false then (limit - 1, breakPatterns l a b) else (limit, l)
      let limit := bl.1
      let l := bl.2
      let ph := choosePivot less l a b
      let rev : List α × Nat × Hint :=
        if ph.2 = Hint.decreasing then
          (reverseRange l a b, (b - 1) - (ph.1 - a), Hint.increasing)
        else (l, ph.1, ph.2)
      let l := rev.1
      let pivot := rev.2.1
      let hint := rev.2.2
      let pis : List α × Bool :=
        if wasBalanced = true ∧ wasPartitioned = true ∧ hint = Hint.increasing then
          partInsertionSort less l a b
        else (l, false)
      if pis.2 = true then pis.1
      else
        let l := pis.1
        if 0 < a ∧ less (geti l (a - 1)) (geti l pivot) = false then
          let pe := partitionEqual less l a b pivot
          pdqsortLoop less fuel pe.1 pe.2 b limit wasBalanced wasPartitioned
        else
          let pr := partition less l a b pivot
          let l := pr.1
          let mid := pr.2.1
          let wasPartitioned := pr.2.2
          let wasBalanced := decide (min (mid - a) (b - mid) ≥ length / 8)
          if mid - a < b - mid then
            let l := pdqsortLoop less fuel l a mid limit true true
            pdqsortLoop less fuel l (mid + 1) b limit wasBalanced wasPartitioned
          else
            let l := pdqsortLoop less fuel l (mid + 1) b limit true true
            pdqsortLoop less fuel l a mid limit wasBalanced wasPartitioned

/-- Go `sort.Slice(x, less)`:
`pdqsort_func(lessSwap, 0, length, bits.Len(uint(length)))`.
`bits.Len n = Nat.log2 n + 1` for `n > 0` and `0` for `n = 0`. -/
def bitsLen (n : Nat) : Nat :=
  if n = 0 then 0 else Nat.log2 n + 1

/-- Go `sort.Slice` on a slice modelled as a list. -/
def sortSlice (less : α → α → Bool) (l : List α) : List α :=
  pdqsortLoop less (l.length + 1) l 0 l.length (bitsLen l.length) true true

/-! The body of `pdqsort_func` again, cut into named stages with the
recursive call abstracted as `rec`; `pdqsortLoop less (fuel + 1) ... =
pdqBody less (pdqsortLoop less fuel) ...` holds by `rfl`
(`pdqsortLoop_unfold` below), so the stages are definitionally the same
code, merely grouped for modular proofs. -/

/-- Tail of `pdqsort_func` from the `partitionEqual` test on. -/
def pdqStage4 (less : α → α → Bool)
    (rec : List α → Nat → Nat → Nat → Bool → Bool → List α)
    (l : List α) (a b limit pivot : Nat) (wasBalanced wasPartitioned : Bool) :
    List α :=
  if 0 < a ∧ less (geti l (a - 1)) (geti l pivot) = false then
    let pe := partitionEqual less l a b pivot
    rec pe.1 pe.2 b limit wasBalanced wasPartitioned
  else
    let pr := partition less l a b pivot
    let mid := pr.2.1
    let wasPartitioned := pr.2.2
    let wasBalanced := decide (min (mid - a) (b - mid) ≥ (b - a) / 8)
    if mid - a < b - mid then
      rec (rec pr.1 a mid limit true true) (mid + 1) b limit wasBalanced wasPartitioned
    else
      rec (rec pr.1 (mid + 1) b limit true true) a mid limit wasBalanced wasPartitioned

/-- `pdqsort_func` stage: the `partialInsertionSort` attempt. -/
def pdqStage3 (less : α → α → Bool)
    (rec : List α → Nat → Nat → Nat → Bool → Bool → List α)
    (l : List α) (a b limit pivot : Nat) (hint : Hint)
    (wasBalanced wasPartitioned : Bool) : List α :=
  let pis : List α × Bool :=
    if wasBalanced = true ∧ wasPartitioned = true ∧ hint = Hint.increasing then
      partInsertionSort less l a b
    else (l, false)
  if pis.2 = true then pis.1
  else pdqStage4 less rec pis.1 a b limit pivot wasBalanced wasPartitioned

/-- `pdqsort_func` stage: pivot choice and the reversal of decreasing runs. -/
def pdqStage2 (less : α → α → Bool)
    (rec : List α → Nat → Nat → Nat → Bool → Bool → List α)
    (l : List α) (a b limit : Nat) (wasBalanced wasPartitioned : Bool) : List α :=
  let ph := choosePivot less l a b
  let rev : List α × Nat × Hint :=
    if ph.2 = Hint.decreasing then
      (reverseRange l a b, (b - 1) - (ph.1 - a), Hint.increasing)
    else (l, ph.1, ph.2)
  pdqStage3 less rec rev.1 a b limit rev.2.1 rev.2.2 wasBalanced wasPartitioned

/-- One unfolding of the `pdqsort_func` body. -/
def pdqBody (less : α → α → Bool)
    (rec : List α → Nat → Nat → Nat → Bool → Bool → List α)
    (l : List α) (a b limit : Nat) (wasBalanced wasPartitioned : Bool) : List α :=
  if b - a ≤ 12 then insertionSort less l a b
  else if limit = 0 then heapSort less l a b
  else
    let bl : Nat × List α :=
      if wasBalanced = false then (limit - 1, breakPatterns l a b) else (limit, l)
    pdqStage2 less rec bl.2 a b bl.1 wasBalanced wasPartitioned

end GoSort

/-! ## Data model (`internal/model/document.go`) -/

/-- Go `model.SecondLevelItem`. -/
structure SecondLevelItem : Type where
  id : String
  type : String
  content : String
  status : String
  privateInfo : String
deriving DecidableEq, Repr, Inhabited

/-- Go `model.FirstLevelItem`.  `Sort` is a Go `int`; it only ever
participates in comparisons, so it is modelled as `Int`. -/
structure FirstLevelItem : Type where
  id : String
  name : String
  sort : Int
  value : String
  secondLevel : List SecondLevelItem
  metaData : String
deriving DecidableEq, Repr, Inhabited

/-- Go `model.Document`.  `time.Time` values are modelled as `Int`
timestamps.  `Items []FirstLevelItem` is a Go slice, which can be `nil` or
non-`nil`; the distinction is visible in `processDocument`
(`if doc.Items != nil`), so it is kept as an `Option`. -/
structure Document : Type where
  id : String
  title : String
  description : String
  createdAt : Int
  updatedAt : Int
  items : Option (List FirstLevelItem)
  internal : String
deriving DecidableEq, Repr, Inhabited

/-- Go `model.PaginationParams`. -/
structure PaginationParams : Type where
  page : Int
  perPage : Int
deriving DecidableEq, Repr, Inhabited

/-- Go `model.UpdateDocumentRequest`: pointer fields become `Option`s
(`nil` pointer ↦ `none`). -/
structure UpdateDocumentRequest : Type where
  title : Option String
  description : Option String
  items : Option (List FirstLevelItem)
deriving DecidableEq, Repr, Inhabited

/-- Go `PaginationParams.Validate` (`internal/model/document.go`): clamps
`Page` to at least 1 and `PerPage` into `[1, 100]` (with default 10 for
values below 1), mutating the receiver; modelled functionally. -/
def PaginationParams.Validate (p : PaginationParams) : PaginationParams :=
  let page := if p.page < 1 then 1 else p.page
  let perPage := if p.perPage < 1 then 10 else p.perPage
  let perPage := if perPage > 100 then 100 else perPage
  { page := page, perPage := perPage }

/-- Two's-complement wrap of an unbounded integer into a 64-bit Go `int`. -/
def int64wrap (z : Int) : Int :=
  (z + 2 ^ 63) % 2 ^ 64 - 2 ^ 63

/-- Go `PaginationParams.GetOffset`: `(p.Page - 1) * p.PerPage` in Go `int`
(64-bit) arithmetic. -/
def PaginationParams.GetOffset (p : PaginationParams) : Int :=
  int64wrap ((p.page - 1) * p.perPage)

/-- The `PaginationParams` value `Service.List` passes to `storage.List`:
`params.Validate()` mutates the local copy first (`service.go`, line 113). -/
def listStoreParams (params : PaginationParams) : PaginationParams :=
  params.Validate

/-! ## The item processor (`internal/service/service.go`) -/

/-- The comparison closure passed to `sort.Slice` in `processDocument`:
`processed.Items[i].Sort > processed.Items[j].Sort`. -/
def itemLess (x y : FirstLevelItem) : Bool :=
  decide (x.sort > y.sort)

/-- Go `Service.processDocument`: copies the document, gives the copy a
fresh `Items` slice (when the input's is non-`nil`) and sorts it in place
with `sort.Slice` by descending `Sort`.  `sort.Slice` on a `nil` slice is a
no-op, so a `none` items field stays `none`. -/
def processDocument (doc : Document) : Document :=
  { doc with items := doc.items.map (fun its => GoSort.sortSlice itemLess its) }

/-- The two error results of `processDocumentsParallel`:
`ctx.Err()` (cancellation) and the `"processing incomplete"` error. -/
inductive ProcError : Type
  | cancelled
  | incomplete
deriving DecidableEq, Repr

/-- Insertion into the Go map `processedMap` (`map[int]*model.Document`),
modelled as an association list (insertion order; replacing in place). -/
def natMapInsert (m : List (Nat × Document)) (k : Nat) (v : Document) :
    List (Nat × Document) :=
  if (m.lookup k).isSome then
    m.map (fun kv => if kv.1 = k then (k, v) else kv)
  else m ++ [(k, v)]

/-- Go `processDocumentsParallel`, after the fan-out has settled, as a
function of the scheduling outcome: whether `ctx.Err() != nil` held at the
final check (`cancelledAtEnd`), and which task indices delivered a result
into the channel (`delivered`; without cancellation the code delivers every
index).  Each delivered task `idx` contributes
`result{index: idx, doc: processDocument(documents[idx])}`.  A missing
index during assembly would be a nil-pointer dereference in Go; it is
modelled by `default` and is ruled out by the preceding length check
whenever `delivered` covers the input (proved where used). -/
def runParallel (documents : List Document) (cancelledAtEnd : Bool)
    (delivered : List Nat) : Except ProcError (List Document) :=
  if documents.length = 0 then Except.ok documents
  else if cancelledAtEnd then Except.error ProcError.cancelled
  else
    let processedMap := delivered.foldl
      (fun m idx => natMapInsert m idx (processDocument (geti documents idx))) []
    if processedMap.length ≠ documents.length then Except.error ProcError.incomplete
    else Except.ok ((List.range documents.length).map
      (fun i => ((processedMap.lookup i).getD default)))

/-- Go `Service.processDocumentsParallel(ctx, documents)`.  `cancelled`
says whether the context's cancellation signal has fired (before or during
the call); `ctx.Err()` is monotone, so this is also its value at the final
check.  When it has not fired, every admission-loop iteration admits its
task and every task's `select` takes the `default` branch and delivers, so
`delivered` is all of `0 .. len(documents)-1`. -/
def processDocumentsParallel (documents : List Document) (cancelled : Bool) :
    Except ProcError (List Document) :=
  runParallel documents cancelled
    (if cancelled then [] else List.range documents.length)

/-- Go `Service.Update`'s merge step (`internal/service/service.go`,
lines 82–91): replace exactly the fields whose request pointers are
non-nil, then stamp `UpdatedAt` with the current time.  The resulting
value is what `storage.Update` receives. -/
def updateMerge (doc : Document) (req : UpdateDocumentRequest) (now : Int) :
    Document :=
  let doc := match req.title with
    | some t => { doc with title := t }
    | none => doc
  let doc := match req.description with
    | some d => { doc with description := d }
    | none => doc
  let doc := match req.items with
    | some its => { doc with items := some its }
    | none => doc
  { doc with updatedAt := now }

/-! ## The TTL cache (`internal/cache/cache.go`) -/

/-- Go `cacheItem`. -/
structure CacheItem : Type where
  document : Document
  expiresAt : Int
deriving DecidableEq, Repr, Inhabited

/-- The Go map `map[string]*cacheItem` modelled as an association list with
(one binding per key for reachable states).  Lookup of the binding of
`id`. -/
def assocFind (id : String) : List (String × CacheItem) → Option CacheItem
  | [] => none
  | kv :: rest => if kv.1 = id then some kv.2 else assocFind id rest

/-- Map write `m[id] = v`: replaces the binding in place if present,
otherwise appends. -/
def assocSet (items : List (String × CacheItem)) (id : String) (v : CacheItem) :
    List (String × CacheItem) :=
  if (assocFind id items).isSome then
    items.map (fun kv => if kv.1 = id then (id, v) else kv)
  else items ++ [(id, v)]

/-- Map delete `delete(m, id)`. -/
def assocDelete (items : List (String × CacheItem)) (id : String) :
    List (String × CacheItem) :=
  items.filter (fun kv => decide (kv.1 ≠ id))

/-- Go `cache.Cache`: the map plus the configuration the claims are about.
The mutex, the cleanup ticker and the stop channel carry no map state and
are not modelled; `cleanup` is modelled as a function invoked at a sweep
time. -/
structure Cache : Type where
  items : List (String × CacheItem)
  ttl : Int
  capacity : Int
deriving DecidableEq, Repr, Inhabited

namespace Cache

/-- Go `cache.New(ttl, cleanupInterval, capacity)` (the map starts empty;
the background sweeper carries no state of its own). -/
def New (ttl capacity : Int) : Cache :=
  { items := [], ttl := ttl, capacity := capacity }

/-- Go `Cache.Get(id)` at wall-clock time `now`: returns the document and
the cache after the lookup (the expired path deletes the entry).  In this
sequential model the write-locked re-check re-reads the same entry at the
same time, so it is the single test `now > expiresAt` (Go
`time.Now().After(item.expiresAt)`, strict). -/
def Get (c : Cache) (id : String) (now : Int) : Option Document × Cache :=
  match assocFind id c.items with
  | none => (none, c)
  | some item =>
    if item.expiresAt < now then
      (none, { c with items := assocDelete c.items id })
    else (some item.document, c)

/-- Go `Cache.evictRandom`: deletes the first key an unordered map
traversal encounters; the model deletes the first binding of the
association list (one legitimate refinement of Go's arbitrary map order). -/
def evictRandom (items : List (String × CacheItem)) : List (String × CacheItem) :=
  match items with
  | [] => []
  | _ :: rest => rest

/-- Go `Cache.Set(id, doc)` at time `now`: evict one entry when inserting a
new key into a full map (`capacity > 0 && len(items) >= capacity`), then
write the entry with expiry `now + ttl`. -/
def Set (c : Cache) (id : String) (doc : Document) (now : Int) : Cache :=
  let items :=
    if assocFind id c.items = none ∧ 0 < c.capacity ∧
        c.capacity ≤ (c.items.length : Int) then
      evictRandom c.items
    else c.items
  { c with items := assocSet items id { document := doc, expiresAt := now + c.ttl } }

/-- Go `Cache.Delete(id)`. -/
def Delete (c : Cache) (id : String) : Cache :=
  { c with items := assocDelete c.items id }

/-- Go `Cache.Clear()`. -/
def Clear (c : Cache) : Cache :=
  { c with items := [] }

/-- Go `Cache.Size()`. -/
def Size (c : Cache) : Nat :=
  c.items.length

/-- Go `Cache.cleanup()` at sweep time `now`: a read pass collects the keys
of expired entries, then a write pass re-checks each key and deletes it if
(still) expired. -/
def cleanup (c : Cache) (now : Int) : Cache :=
  let keysToDelete :=
    (c.items.filter (fun kv => decide (kv.2.expiresAt < now))).map (fun kv => kv.1)
  if keysToDelete.length > 0 then
    { c with items := keysToDelete.foldl (fun its key =>
        match assocFind key its with
        | some item => if item.expiresAt < now then assocDelete its key else its
        | none => its) c.items }
  else c

end Cache

/-- One mutating cache operation, with the wall-clock time at which it
runs where relevant (claim C2's alphabet: `Set`, `Delete`, `Clear`). -/
inductive CacheOp : Type
  | set (id : String) (doc : Document) (now : Int)
  | delete (id : String)
  | clear
deriving DecidableEq, Repr

/-- Run one cache operation. -/
def applyOp (c : Cache) : CacheOp → Cache
  | CacheOp.set id doc now => Cache.Set c id doc now
  | CacheOp.delete id => Cache.Delete c id
  | CacheOp.clear => Cache.Clear c

/-- Run a sequence of cache operations from a given state. -/
def runOps (c : Cache) (ops : List CacheOp) : Cache :=
  ops.foldl applyOp c

/-! ## Aliasing model for `processDocument` (claim C7)

Go slices alias a backing array; `processDocument`'s whole point is that it
sorts a *copy* of the caller's `Items` backing array.  To state that, the
backing arrays live in an explicit store (`SliceHeap`) and a document's
`Items` field is a reference into it (`none` models a nil slice). -/

/-- A store of slice backing arrays; a reference is an index into `cells`. -/
structure SliceHeap : Type where
  cells : List (List FirstLevelItem)
deriving Repr, Inhabited

/-- Dereference a slice. -/
def SliceHeap.read (h : SliceHeap) (r : Nat) : List FirstLevelItem :=
  h.cells.getD r []

/-- Allocate a fresh backing array holding `l` (Go `make` + `copy`);
returns the new store and the fresh reference. -/
def SliceHeap.alloc (h : SliceHeap) (l : List FirstLevelItem) : SliceHeap × Nat :=
  ({ cells := h.cells ++ [l] }, h.cells.length)

/-- Overwrite the contents of a backing array in place. -/
def SliceHeap.write (h : SliceHeap) (r : Nat) (l : List FirstLevelItem) : SliceHeap :=
  { cells := h.cells.set r l }

/-- A document whose `Items` slice is a reference into a `SliceHeap`. -/
structure DocumentRef : Type where
  id : String
  title : String
  description : String
  createdAt : Int
  updatedAt : Int
  itemsRef : Option Nat
  internal : String
deriving DecidableEq, Repr, Inhabited

/-- Go `Service.processDocument` with slice aliasing explicit:
`processed := *doc` copies the struct (the `Items` reference included);
when `doc.Items != nil` a fresh backing array is allocated and the items
are copied into it (`make` + `copy`) and `processed.Items` is repointed at
it; `sort.Slice` then sorts that backing array in place.  On a nil slice
the copy is skipped and `sort.Slice` is a no-op. -/
def processDocumentRef (h : SliceHeap) (doc : DocumentRef) : SliceHeap × DocumentRef :=
  match doc.itemsRef with
  | none => (h, doc)
  | some r =>
    let ar := h.alloc (h.read r)
    let h2 := ar.1.write ar.2 (GoSort.sortSlice itemLess (ar.1.read ar.2))
    (h2, { doc with itemsRef := some ar.2 })

/-! ## Predicates the theorems are stated with -/

/-- Keys of the cache map are pairwise distinct (holds in every reachable
state; Go maps cannot hold a key twice). -/
def keysNodup (items : List (String × CacheItem)) : Prop :=
  (items.map Prod.fst).Nodup

/-- Items sorted by descending `Sort` key (adjacent condition). -/
def SortedDesc (l : List FirstLevelItem) : Prop :=
  l.Chain' (fun x y => y.sort ≤ x.sort)

/-- The comparator `sort.Slice` is called with, abstracted over the sort
key: `less x y` says `x` must come strictly before `y` (bigger key first).
`itemLess` is `lessK FirstLevelItem.sort`. -/
def lessK {α : Type} (key : α → Int) (x y : α) : Bool :=
  decide (key y < key x)

/-- The sub-slice `l[a:b]`. -/
def extract {α : Type} (l : List α) (a b : Nat) : List α :=
  (l.drop a).take (b - a)

/-- `l[a:b]` is sorted for the descending-`key` order (Go's post-condition
`!less(j, j-1)` for all `a < j < b`). -/
def SortedRange {α : Type} [Inhabited α] (key : α → Int) (l : List α) (a b : Nat) : Prop :=
  ∀ j, a < j → j < b → key (geti l j) ≤ key (geti l (j - 1))

/-- `l'` is `l` with only `l[a:b]` rearranged: same length, untouched
outside `[a, b)`, and (as a whole) a permutation of the original — which,
with the frame, makes the sub-slice a permutation of the original
sub-slice (`RangePerm.extract_perm`). -/
def RangePerm {α : Type} [Inhabited α] (a b : Nat) (l l' : List α) : Prop :=
  l'.length = l.length ∧ (∀ k, k < a ∨ b ≤ k → geti l' k = geti l k) ∧ l'.Perm l

/-- Sentinel invariant of pdqsort: when a sub-range `[a, b)` does not start
at the slice's beginning, the element just before it sorts before-or-equal
everything in the range (its key is an upper bound of the range's keys).
`partialInsertionSort`'s left shift relies on it to stop at `a`. -/
def LoSentinel {α : Type} [Inhabited α] (key : α → Int) (l : List α) (a b : Nat) : Prop :=
  0 < a → ∀ x ∈ extract l a b, key x ≤ key (geti l (a - 1))

/-- Binary-min-heap property (in `key` terms) for the heap region of size
`n` based at `first`, required only for parents `p ≥ i0`. -/
def HeapDown {α : Type} [Inhabited α] (key : α → Int) (l : List α) (first n i0 : Nat) : Prop :=
  ∀ p c, i0 ≤ p → (c = 2 * p + 1 ∨ c = 2 * p + 2) → c < n →
    key (geti l (first + p)) ≤ key (geti l (first + c))

/-! ## Concrete input refuting stability (claim C1)

Thirteen items (Go's pdqsort insertion-sorts ranges of at most 12 elements,
which is stable; at 13 it partitions).  The two items with equal `Sort` 7
sit at positions 0 and 1; the partition's initial `Swap(a, pivot)` and
cursor swaps carry position 0's item past position 1's. -/

/-- An item with only `id` and `sort` populated. -/
def mkItem (id : String) (sort : Int) : FirstLevelItem :=
  { id := id, name := "", sort := sort, value := "", secondLevel := [], metaData := "" }

/-- The 13-item document whose equal-`Sort` items come out reordered. -/
def stabDoc : Document :=
  { id := "doc-stab", title := "", description := "", createdAt := 0, updatedAt := 0,
    items := some
      [mkItem "i0" 7, mkItem "i1" 7, mkItem "i2" 11, mkItem "i3" 5, mkItem "i4" 9,
       mkItem "i5" 1, mkItem "i6" 12, mkItem "i7" 4, mkItem "i8" 8, mkItem "i9" 3,
       mkItem "i10" 10, mkItem "i11" 6, mkItem "i12" 13],
    internal := "" }

/-- Projection of a processor result to the `(id, Sort)` pairs of each
document's items, in order. -/
def projResult (r : Except ProcError (List Document)) :
    Option (List (List (String × Int))) :=
  match r with
  | Except.ok ds => some (ds.map (fun d => (d.items.getD []).map (fun it => (it.id, it.sort))))
  | Except.error _ => none

/-! # Theorems

## Association-list lemmas for the cache map -/

theorem assocFind_eq_none_iff (id : String) (items : List (String × CacheItem)) :
    assocFind id items = none ↔ id ∉ items.map Prod.fst := by
  induction items with
  | nil => simp [assocFind]
  | cons kv rest ih =>
    simp only [assocFind, List.map_cons, List.mem_cons]
    by_cases h : kv.1 = id
    · simp [h]
    · simp only [h, if_false, ih]
      constructor
      · intro hn hor
        rcases hor with h1 | h2
        · exact h h1.symm
        · exact hn h2
      · intro hn hm
        exact hn (Or.inr hm)

theorem assocFind_map_set (k id : String) (v : CacheItem)
    (items : List (String × CacheItem)) :
    assocFind k (items.map (fun kv => if kv.1 = id then (id, v) else kv)) =
      if k = id then (if (assocFind id items).isSome then some v else none)
      else assocFind k items := by
  induction items with
  | nil => by_cases h : k = id <;> simp [assocFind, h]
  | cons kv rest ih =>
    by_cases h1 : kv.1 = id
    · by_cases h2 : k = id
      · subst h2
        simp [assocFind, h1, ih]
      · have hik : ¬ id = k := fun hc => h2 hc.symm
        simp [assocFind, h1, h2, hik, ih]
    · by_cases h2 : kv.1 = k
      · have hk2 : ¬ k = id := by rw [← h2]; exact h1
        simp [assocFind, h1, h2, hk2]
      · simp [assocFind, h1, h2, ih]

theorem assocFind_append (k : String) (l1 l2 : List (String × CacheItem)) :
    assocFind k (l1 ++ l2) =
      match assocFind k l1 with
      | some v => some v
      | none => assocFind k l2 := by
  induction l1 with
  | nil => simp [assocFind]
  | cons kv rest ih =>
    by_cases h : kv.1 = k <;> simp [assocFind, h, ih]

theorem assocFind_assocSet_self (items : List (String × CacheItem)) (id : String)
    (v : CacheItem) : assocFind id (assocSet items id v) = some v := by
  unfold assocSet
  by_cases h : (assocFind id items).isSome
  · simp [h, assocFind_map_set]
  · rw [if_neg h, assocFind_append]
    have hnone : assocFind id items = none := Option.not_isSome_iff_eq_none.mp h
    simp [hnone, assocFind]

theorem assocFind_assocSet_ne (items : List (String × CacheItem)) (id k : String)
    (v : CacheItem) (h : k ≠ id) :
    assocFind k (assocSet items id v) = assocFind k items := by
  unfold assocSet
  by_cases hs : (assocFind id items).isSome
  · simp [hs, assocFind_map_set, h]
  · rw [if_neg hs, assocFind_append]
    have hik : ¬ id = k := fun hc => h hc.symm
    cases hf : assocFind k items
    · simp [assocFind, hik]
    · simp

theorem assocSet_length (items : List (String × CacheItem)) (id : String)
    (v : CacheItem) :
    (assocSet items id v).length =
      if (assocFind id items).isSome then items.length else items.length + 1 := by
  unfold assocSet
  by_cases h : (assocFind id items).isSome <;> simp [h]

theorem assocSet_keys_present (items : List (String × CacheItem)) (id : String)
    (v : CacheItem) (h : (assocFind id items).isSome) :
    (assocSet items id v).map Prod.fst = items.map Prod.fst := by
  unfold assocSet
  rw [if_pos h, List.map_map]
  apply List.map_congr_left
  intro kv _
  by_cases hk : kv.1 = id <;> simp [hk]

theorem assocSet_keys_absent (items : List (String × CacheItem)) (id : String)
    (v : CacheItem) (h : ¬ (assocFind id items).isSome) :
    (assocSet items id v).map Prod.fst = items.map Prod.fst ++ [id] := by
  unfold assocSet
  rw [if_neg h]
  simp

theorem assocFind_assocDelete_self (items : List (String × CacheItem)) (id : String) :
    assocFind id (assocDelete items id) = none := by
  rw [assocFind_eq_none_iff]
  intro hmem
  rcases List.mem_map.mp hmem with ⟨kv, hkv, hfst⟩
  rcases List.mem_filter.mp hkv with ⟨_, hne⟩
  exact (of_decide_eq_true hne) hfst

theorem assocFind_assocDelete_ne (items : List (String × CacheItem)) (id k : String)
    (h : k ≠ id) : assocFind k (assocDelete items id) = assocFind k items := by
  induction items with
  | nil => simp [assocDelete, assocFind]
  | cons kv rest ih =>
    unfold assocDelete at ih ⊢
    simp only [ne_eq, decide_not] at ih ⊢
    rw [List.filter_cons]
    by_cases hid : kv.1 = id
    · have hk1 : ¬ kv.1 = k := by rw [hid]; exact fun hc => h hc.symm
      rw [if_neg (by simp [hid]), ih]
      simp [assocFind, hk1]
    · rw [if_pos (by simp [hid])]
      by_cases hk : kv.1 = k <;> simp [assocFind, hk, ih]

theorem keysNodup_assocSet (items : List (String × CacheItem)) (id : String)
    (v : CacheItem) (h : keysNodup items) : keysNodup (assocSet items id v) := by
  by_cases hs : (assocFind id items).isSome
  · unfold keysNodup
    rw [assocSet_keys_present items id v hs]
    exact h
  · unfold keysNodup
    rw [assocSet_keys_absent items id v hs]
    have hnone : assocFind id items = none := by
      cases hf : assocFind id items
      · rfl
      · rw [hf] at hs; simp at hs
    have hnotmem := (assocFind_eq_none_iff id items).mp hnone
    rw [List.nodup_append]
    refine ⟨h, List.nodup_singleton id, ?_⟩
    intro a ha hb
    rw [List.mem_singleton] at hb
    subst hb
    exact hnotmem ha

theorem keysNodup_assocDelete (items : List (String × CacheItem)) (id : String)
    (h : keysNodup items) : keysNodup (assocDelete items id) := by
  unfold keysNodup at h ⊢
  exact List.Nodup.sublist ((List.filter_sublist items).map Prod.fst) h

theorem keysNodup_evictRandom (items : List (String × CacheItem))
    (h : keysNodup items) : keysNodup (Cache.evictRandom items) := by
  cases items with
  | nil => simpa [Cache.evictRandom] using h
  | cons kv rest =>
    unfold keysNodup at h ⊢
    simp only [Cache.evictRandom]
    exact (List.nodup_cons.mp (by simpa using h)).2

theorem assocFind_evictRandom_none (items : List (String × CacheItem)) (id : String)
    (h : assocFind id items = none) :
    assocFind id (Cache.evictRandom items) = none := by
  cases items with
  | nil => simpa [Cache.evictRandom] using h
  | cons kv rest =>
    simp only [Cache.evictRandom]
    by_cases hk : kv.1 = id
    · simp [assocFind, hk] at h
    · simpa [assocFind, hk] using h

theorem assocFind_mem (items : List (String × CacheItem)) (k : String)
    (item : CacheItem) (h : assocFind k items = some item) : (k, item) ∈ items := by
  induction items with
  | nil => simp [assocFind] at h
  | cons kv rest ih =>
    obtain ⟨k1, v1⟩ := kv
    by_cases hk : k1 = k
    · rw [assocFind, if_pos hk] at h
      have hv : v1 = item := by
        injection h
      rw [← hk, ← hv]
      exact List.mem_cons_self _ _
    · rw [assocFind, if_neg hk] at h
      exact List.mem_cons_of_mem _ (ih h)

theorem evictRandom_length (items : List (String × CacheItem)) :
    (Cache.evictRandom items).length = items.length - 1 := by
  cases items <;> simp [Cache.evictRandom]

/-! ## Per-operation cache facts -/

theorem applyOp_capacity (c : Cache) (op : CacheOp) :
    (applyOp c op).capacity = c.capacity := by
  cases op <;> rfl

theorem applyOp_ttl (c : Cache) (op : CacheOp) :
    (applyOp c op).ttl = c.ttl := by
  cases op <;> rfl

theorem Set_size_le (c : Cache) (id : String) (doc : Document) (now : Int)
    (hcap : 0 < c.capacity) (hle : (c.items.length : Int) ≤ c.capacity) :
    ((Cache.Set c id doc now).items.length : Int) ≤ c.capacity := by
  unfold Cache.Set
  by_cases hev : assocFind id c.items = none ∧ 0 < c.capacity ∧
      c.capacity ≤ (c.items.length : Int)
  · rw [if_pos hev]
    have hne : c.items.length ≠ 0 := by
      intro h0
      rw [h0] at hev
      omega
    have hfnone : assocFind id (Cache.evictRandom c.items) = none :=
      assocFind_evictRandom_none c.items id hev.1
    rw [assocSet_length]
    rw [hfnone]
    simp only [Option.isSome_none, Bool.false_eq_true, if_false]
    rw [evictRandom_length]
    omega
  · rw [if_neg hev]
    rw [assocSet_length]
    by_cases hs : (assocFind id c.items).isSome
    · rw [if_pos hs]
      exact hle
    · rw [if_neg hs]
      have hfnone : assocFind id c.items = none := Option.not_isSome_iff_eq_none.mp hs
      have hlt : ¬ c.capacity ≤ (c.items.length : Int) := by
        intro hc
        exact hev ⟨hfnone, hcap, hc⟩
      push_cast
      omega

theorem Set_keysNodup (c : Cache) (id : String) (doc : Document) (now : Int)
    (h : keysNodup c.items) : keysNodup (Cache.Set c id doc now).items := by
  unfold Cache.Set
  by_cases hev : assocFind id c.items = none ∧ 0 < c.capacity ∧
      c.capacity ≤ (c.items.length : Int)
  · rw [if_pos hev]
    exact keysNodup_assocSet _ _ _ (keysNodup_evictRandom c.items h)
  · rw [if_neg hev]
    exact keysNodup_assocSet _ _ _ h

theorem applyOp_keysNodup (c : Cache) (op : CacheOp) (h : keysNodup c.items) :
    keysNodup (applyOp c op).items := by
  cases op with
  | set id doc now => exact Set_keysNodup c id doc now h
  | delete id => exact keysNodup_assocDelete c.items id h
  | clear => simp [applyOp, Cache.Clear, keysNodup]

theorem runOps_keysNodup : ∀ (ops : List CacheOp) (c : Cache),
    keysNodup c.items → keysNodup (runOps c ops).items := by
  intro ops
  induction ops with
  | nil => intro c h; exact h
  | cons op rest ih =>
    intro c h
    exact ih (applyOp c op) (applyOp_keysNodup c op h)

theorem runOps_capacity : ∀ (ops : List CacheOp) (c : Cache),
    (runOps c ops).capacity = c.capacity := by
  intro ops
  induction ops with
  | nil => intro c; rfl
  | cons op rest ih =>
    intro c
    have h1 := ih (applyOp c op)
    rw [applyOp_capacity] at h1
    exact h1

theorem runOps_size_le : ∀ (ops : List CacheOp) (c : Cache), 0 < c.capacity →
    (c.items.length : Int) ≤ c.capacity →
    ((runOps c ops).items.length : Int) ≤ c.capacity := by
  intro ops
  induction ops with
  | nil => intro c _ h2; exact h2
  | cons op rest ih =>
    intro c h1 h2
    have hcap' : (applyOp c op).capacity = c.capacity := applyOp_capacity c op
    have hstep : ((applyOp c op).items.length : Int) ≤ c.capacity := by
      cases op with
      | set id doc now => exact Set_size_le c id doc now h1 h2
      | delete id =>
        refine le_trans ?_ h2
        have := List.length_filter_le (fun kv => decide (kv.1 ≠ id)) c.items
        simp only [applyOp, Cache.Delete, assocDelete]
        exact_mod_cast this
      | clear =>
        simp only [applyOp, Cache.Clear, List.length_nil, Nat.cast_zero]
        omega
    have := ih (applyOp c op) (by rw [hcap']; exact h1) (by rw [hcap']; exact hstep)
    rw [hcap'] at this
    exact this

/-- Eviction-and-insert facts of `Set` on a new key at capacity, for any
state with pairwise-distinct keys.  The head binding is the evicted one. -/
theorem Set_evicts_one (c : Cache) (id : String) (doc : Document) (now : Int)
    (hnodup : keysNodup c.items) (hfind : assocFind id c.items = none)
    (hcap : 0 < c.capacity) (hfull : (c.items.length : Int) = c.capacity) :
    (Cache.Set c id doc now).items.length = c.items.length ∧
    ∃ k, (assocFind k c.items).isSome ∧
      assocFind k (Cache.Set c id doc now).items = none := by
  have hev : assocFind id c.items = none ∧ 0 < c.capacity ∧
      c.capacity ≤ (c.items.length : Int) := ⟨hfind, hcap, le_of_eq hfull.symm⟩
  have hlenpos : 0 < c.items.length := by
    by_contra h0
    have : c.items.length = 0 := by omega
    rw [this] at hfull
    omega
  obtain ⟨kv, rest, hitems⟩ : ∃ kv rest, c.items = kv :: rest := by
    cases hlist : c.items with
    | nil => rw [hlist] at hlenpos; simp at hlenpos
    | cons kv rest => exact ⟨kv, rest, rfl⟩
  have hfindrest : assocFind id rest = none := by
    have := assocFind_evictRandom_none c.items id hfind
    rw [hitems] at this
    exact this
  have hsetitems : (Cache.Set c id doc now).items =
      rest ++ [(id, { document := doc, expiresAt := now + c.ttl })] := by
    unfold Cache.Set
    rw [if_pos hev, hitems]
    show assocSet rest id _ = _
    unfold assocSet
    rw [hfindrest]
    simp
  constructor
  · rw [hsetitems, hitems]
    have : rest.length + 1 = (kv :: rest).length := by simp
    simp
  · refine ⟨kv.1, ?_, ?_⟩
    · rw [hitems]
      simp [assocFind]
    · rw [hsetitems, assocFind_append]
      have hnotin : kv.1 ∉ rest.map Prod.fst := by
        rw [hitems] at hnodup
        unfold keysNodup at hnodup
        rw [List.map_cons, List.nodup_cons] at hnodup
        exact hnodup.1
      have hrest : assocFind kv.1 rest = none := (assocFind_eq_none_iff _ _).mpr hnotin
      have hkne : ¬ id = kv.1 := by
        intro hc
        rw [assocFind_eq_none_iff, hitems] at hfind
        apply hfind
        rw [hc]
        simp
      rw [hrest]
      simp [assocFind, hkne]

/-- Claim C2 — for every sequence of `Set`/`Delete`/`Clear` operations on a
cache built with `capacity > 0`, the resident count never exceeds the
capacity; a `Set` of a new key at capacity evicts exactly one resident
entry (count stays at capacity and some previously resident key is gone);
a `Set` of an already-present key evicts nothing (all other keys keep their
bindings and the count is unchanged). -/
theorem claim2_capacity_invariant (ttl capacity : Int) (ops : List CacheOp)
    (hcap : 0 < capacity) :
    ((Cache.Size (runOps (Cache.New ttl capacity) ops) : Int) ≤ capacity) ∧
    (∀ id doc now,
      assocFind id (runOps (Cache.New ttl capacity) ops).items = none →
      (Cache.Size (runOps (Cache.New ttl capacity) ops) : Int) = capacity →
      (Cache.Size (Cache.Set (runOps (Cache.New ttl capacity) ops) id doc now) : Int)
          = capacity ∧
      ∃ k, (assocFind k (runOps (Cache.New ttl capacity) ops).items).isSome ∧
        assocFind k (Cache.Set (runOps (Cache.New ttl capacity) ops) id doc now).items
          = none) ∧
    (∀ id doc now k,
      (assocFind id (runOps (Cache.New ttl capacity) ops).items).isSome → k ≠ id →
      assocFind k (Cache.Set (runOps (Cache.New ttl capacity) ops) id doc now).items =
        assocFind k (runOps (Cache.New ttl capacity) ops).items ∧
      Cache.Size (Cache.Set (runOps (Cache.New ttl capacity) ops) id doc now) =
        Cache.Size (runOps (Cache.New ttl capacity) ops)) := by
  have hcapc : (runOps (Cache.New ttl capacity) ops).capacity = capacity :=
    runOps_capacity ops (Cache.New ttl capacity)
  have hnodup : keysNodup (runOps (Cache.New ttl capacity) ops).items :=
    runOps_keysNodup ops (Cache.New ttl capacity) (by simp [Cache.New, keysNodup])
  refine ⟨?_, ?_, ?_⟩
  · exact runOps_size_le ops (Cache.New ttl capacity) hcap (by simp [Cache.New]; omega)
  · intro id doc now hfind hfull
    have := Set_evicts_one (runOps (Cache.New ttl capacity) ops) id doc now hnodup hfind
      (by rw [hcapc]; exact hcap) (by rw [hcapc]; exact hfull)
    refine ⟨?_, this.2⟩
    unfold Cache.Size
    rw [this.1]
    exact hfull
  · intro id doc now k hsome hkne
    have hnotnone : ¬ (assocFind id (runOps (Cache.New ttl capacity) ops).items = none
        ∧ 0 < (runOps (Cache.New ttl capacity) ops).capacity
        ∧ (runOps (Cache.New ttl capacity) ops).capacity ≤
            ((runOps (Cache.New ttl capacity) ops).items.length : Int)) := by
      intro hc
      rw [hc.1] at hsome
      simp at hsome
    constructor
    · show assocFind k (Cache.Set _ id doc now).items = _
      unfold Cache.Set
      rw [if_neg hnotnone]
      exact assocFind_assocSet_ne _ id k _ hkne
    · show (Cache.Set _ id doc now).items.length = _
      unfold Cache.Set
      rw [if_neg hnotnone]
      rw [assocSet_length]
      rw [if_pos hsome]
      rfl

/-- Witness for C2: capacity 1, two inserts of different keys; the bound
holds with the hypothesis `0 < 1` discharged concretely. -/
theorem claim2_capacity_invariant_witness :
    (0 : Int) < 1 ∧
    ((Cache.Size (runOps (Cache.New 0 1)
      [CacheOp.set "a" default 0, CacheOp.set "b" default 0]) : Int) ≤ 1) :=
  ⟨by decide,
   (claim2_capacity_invariant 0 1
     [CacheOp.set "a" default 0, CacheOp.set "b" default 0] (by decide)).1⟩

theorem Get_eq_of_find_none (c : Cache) (id : String) (now : Int)
    (hfind : assocFind id c.items = none) : Cache.Get c id now = (none, c) := by
  unfold Cache.Get
  rw [hfind]

theorem Get_eq_of_find_some (c : Cache) (id : String) (now : Int) (item : CacheItem)
    (hfind : assocFind id c.items = some item) :
    Cache.Get c id now =
      if item.expiresAt < now then (none, { c with items := assocDelete c.items id })
      else (some item.document, c) := by
  unfold Cache.Get
  rw [hfind]

/-- Claim C3 — `Get` returns not-found when the key is absent or the entry
has expired; the expired path removes the entry; and a returned document
always comes from an entry whose expiry has not passed. -/
theorem claim3_get_expiry (c : Cache) (id : String) (now : Int) :
    (assocFind id c.items = none → Cache.Get c id now = (none, c)) ∧
    (∀ item, assocFind id c.items = some item → item.expiresAt < now →
      (Cache.Get c id now).1 = none ∧
      assocFind id (Cache.Get c id now).2.items = none) ∧
    (∀ doc, (Cache.Get c id now).1 = some doc →
      ∃ item, assocFind id c.items = some item ∧ doc = item.document ∧
        now ≤ item.expiresAt) := by
  refine ⟨?_, ?_, ?_⟩
  · intro hnone
    exact Get_eq_of_find_none c id now hnone
  · intro item hfind hexp
    rw [Get_eq_of_find_some c id now item hfind, if_pos hexp]
    exact ⟨rfl, assocFind_assocDelete_self c.items id⟩
  · intro doc hdoc
    cases hfind : assocFind id c.items with
    | none =>
      rw [Get_eq_of_find_none c id now hfind] at hdoc
      simp at hdoc
    | some item =>
      rw [Get_eq_of_find_some c id now item hfind] at hdoc
      by_cases hexp : item.expiresAt < now
      · rw [if_pos hexp] at hdoc
        simp at hdoc
      · rw [if_neg hexp] at hdoc
        refine ⟨item, rfl, ?_, by omega⟩
        injection hdoc with h1
        exact h1.symm

/-- Witness for C3: a cache holding `"k"` expired at time 0, looked up at
time 5 — not-found and the entry is removed. -/
theorem claim3_get_expiry_witness :
    (Cache.Get { items := [("k", { document := default, expiresAt := 0 })], ttl := 1, capacity := 0 } "k" 5).1 = none ∧
    assocFind "k" (Cache.Get { items := [("k", { document := default, expiresAt := 0 })], ttl := 1, capacity := 0 } "k" 5).2.items = none :=
  (claim3_get_expiry { items := [("k", { document := default, expiresAt := 0 })], ttl := 1, capacity := 0 } "k" 5).2.1
    { document := default, expiresAt := 0 } (by decide) (by decide)

/-- Claim C4 — with `ttl = 0`, a `Set` at time `t` followed by a `Get` of
the same key at any later time `t'` returns not-found (the entry expired
the moment it was written). -/
theorem claim4_zero_ttl (c : Cache) (id : String) (doc : Document) (t t' : Int)
    (httl : c.ttl = 0) (ht : t < t') :
    (Cache.Get (Cache.Set c id doc t) id t').1 = none := by
  have hfind : assocFind id (Cache.Set c id doc t).items =
      some { document := doc, expiresAt := t + c.ttl } := by
    unfold Cache.Set
    exact assocFind_assocSet_self _ id _
  rw [Get_eq_of_find_some _ id t' _ hfind, if_pos (show t + c.ttl < t' by rw [httl]; omega)]

/-- Witness for C4 at `ttl = 0`, `t = 3`, `t' = 4` on the empty cache. -/
theorem claim4_zero_ttl_witness :
    (Cache.Get (Cache.Set (Cache.New 0 0) "k" default 3) "k" 4).1 = none :=
  claim4_zero_ttl (Cache.New 0 0) "k" default 3 4 (by decide) (by decide)

/-! ## Cleanup-sweep lemmas (claim C8) -/

/-- Reduction of one write-pass step of `cleanup` when the re-check misses. -/
theorem cleanupStep_none (now : Int) (k1 : String) (its : List (String × CacheItem))
    (hf : assocFind k1 its = none) :
    (match assocFind k1 its with
      | some item => if item.expiresAt < now then assocDelete its k1 else its
      | none => its) = its := by
  rw [hf]

/-- Reduction of one write-pass step of `cleanup` when the re-check hits. -/
theorem cleanupStep_some (now : Int) (k1 : String) (its : List (String × CacheItem))
    (item : CacheItem) (hf : assocFind k1 its = some item) :
    (match assocFind k1 its with
      | some item => if item.expiresAt < now then assocDelete its k1 else its
      | none => its) = if item.expiresAt < now then assocDelete its k1 else its := by
  rw [hf]

/-- One write-pass step of `cleanup` for a key other than `k` does not
change `k`'s binding. -/
theorem cleanupStep_find_other (now : Int) (k k1 : String)
    (its : List (String × CacheItem)) (hne : k1 ≠ k) :
    assocFind k (match assocFind k1 its with
      | some item => if item.expiresAt < now then assocDelete its k1 else its
      | none => its) = assocFind k its := by
  cases hf : assocFind k1 its with
  | none => rfl
  | some item =>
    show assocFind k (if item.expiresAt < now then assocDelete its k1 else its) =
      assocFind k its
    by_cases hexp : item.expiresAt < now
    · rw [if_pos hexp]
      exact assocFind_assocDelete_ne its k1 k (fun hc => hne hc.symm)
    · rw [if_neg hexp]

/-- The write pass never resurrects a missing binding. -/
theorem cleanupFold_find_none (now : Int) (k : String) :
    ∀ (ks : List String) (its : List (String × CacheItem)),
      assocFind k its = none →
      assocFind k (ks.foldl (fun its key =>
        match assocFind key its with
        | some item => if item.expiresAt < now then assocDelete its key else its
        | none => its) its) = none := by
  intro ks
  induction ks with
  | nil => intro its h; exact h
  | cons k1 rest ih =>
    intro its h
    rw [List.foldl_cons]
    apply ih
    by_cases hne : k1 = k
    · subst hne
      show assocFind k1 (match assocFind k1 its with
        | some item => if item.expiresAt < now then assocDelete its k1 else its
        | none => its) = none
      rw [cleanupStep_none now k1 its h]
      exact h
    · show assocFind k (match assocFind k1 its with
        | some item => if item.expiresAt < now then assocDelete its k1 else its
        | none => its) = none
      rw [cleanupStep_find_other now k k1 its hne]
      exact h

/-- The write pass keeps every unexpired binding intact. -/
theorem cleanupFold_find_unexpired (now : Int) (k : String) (item : CacheItem)
    (hexp : ¬ item.expiresAt < now) :
    ∀ (ks : List String) (its : List (String × CacheItem)),
      assocFind k its = some item →
      assocFind k (ks.foldl (fun its key =>
        match assocFind key its with
        | some item => if item.expiresAt < now then assocDelete its key else its
        | none => its) its) = some item := by
  intro ks
  induction ks with
  | nil => intro its h; exact h
  | cons k1 rest ih =>
    intro its h
    rw [List.foldl_cons]
    apply ih
    by_cases hne : k1 = k
    · subst hne
      show assocFind k1 (match assocFind k1 its with
        | some item => if item.expiresAt < now then assocDelete its k1 else its
        | none => its) = some item
      rw [cleanupStep_some now k1 its item h, if_neg hexp]
      exact h
    · show assocFind k (match assocFind k1 its with
        | some item => if item.expiresAt < now then assocDelete its k1 else its
        | none => its) = some item
      rw [cleanupStep_find_other now k k1 its hne]
      exact h

/-- The write pass deletes `k`'s binding when `k` is in the collected list
and its entry is expired. -/
theorem cleanupFold_find_expired (now : Int) (k : String) :
    ∀ (ks : List String) (its : List (String × CacheItem)) (item : CacheItem),
      k ∈ ks → assocFind k its = some item → item.expiresAt < now →
      assocFind k (ks.foldl (fun its key =>
        match assocFind key its with
        | some item => if item.expiresAt < now then assocDelete its key else its
        | none => its) its) = none := by
  intro ks
  induction ks with
  | nil => intro its item hmem; simp at hmem
  | cons k1 rest ih =>
    intro its item hmem hfind hexp
    rw [List.foldl_cons]
    by_cases hne : k1 = k
    · subst hne
      have hstep : (match assocFind k1 its with
          | some item => if item.expiresAt < now then assocDelete its k1 else its
          | none => its) = assocDelete its k1 := by
        rw [cleanupStep_some now k1 its item hfind, if_pos hexp]
      show assocFind k1 (List.foldl _ (match assocFind k1 its with
          | some item => if item.expiresAt < now then assocDelete its k1 else its
          | none => its) rest) = none
      rw [hstep]
      apply cleanupFold_find_none
      exact assocFind_assocDelete_self its k1
    · have hmem' : k ∈ rest := by
        rcases List.mem_cons.mp hmem with h1 | h2
        · exact absurd h1.symm hne
        · exact h2
      refine ih _ item hmem' ?_ hexp
      show assocFind k (match assocFind k1 its with
        | some item => if item.expiresAt < now then assocDelete its k1 else its
        | none => its) = some item
      rw [cleanupStep_find_other now k k1 its hne]
      exact hfind

/-- Claim C8 — one run of the cleanup sweep at time `now` removes exactly
the entries whose expiry has passed: an expired entry is gone afterwards
(no `Get` needed), an unexpired entry is untouched. -/
theorem claim8_cleanup_sweep (c : Cache) (now : Int) (k : String) (item : CacheItem)
    (hfind : assocFind k c.items = some item) :
    (item.expiresAt < now → assocFind k (Cache.cleanup c now).items = none) ∧
    (¬ item.expiresAt < now → assocFind k (Cache.cleanup c now).items = some item) := by
  constructor
  · intro hexp
    have hmemitems : (k, item) ∈ c.items := assocFind_mem c.items k item hfind
    have hmemfilter : (k, item) ∈ c.items.filter (fun kv => decide (kv.2.expiresAt < now)) :=
      List.mem_filter.mpr ⟨hmemitems, by simpa using hexp⟩
    have hmemkeys : k ∈ (c.items.filter
        (fun kv => decide (kv.2.expiresAt < now))).map (fun kv => kv.1) :=
      List.mem_map.mpr ⟨(k, item), hmemfilter, rfl⟩
    have hlen : 0 < ((c.items.filter
        (fun kv => decide (kv.2.expiresAt < now))).map (fun kv => kv.1)).length :=
      List.length_pos.mpr (List.ne_nil_of_mem hmemkeys)
    unfold Cache.cleanup
    rw [if_pos hlen]
    exact cleanupFold_find_expired now k _ c.items item hmemkeys hfind hexp
  · intro hexp
    unfold Cache.cleanup
    by_cases hlen : 0 < ((c.items.filter
        (fun kv => decide (kv.2.expiresAt < now))).map (fun kv => kv.1)).length
    · rw [if_pos hlen]
      exact cleanupFold_find_unexpired now k item hexp _ c.items hfind
    · rw [if_neg hlen]
      exact hfind

/-- Witness for C8: a two-entry cache swept at time 5; the entry expired at
3 disappears, the one expiring at 9 stays. -/
theorem claim8_cleanup_sweep_witness :
    assocFind "old" (Cache.cleanup { items := [("old", { document := default, expiresAt := 3 }), ("new", { document := default, expiresAt := 9 })], ttl := 1, capacity := 0 } 5).items = none :=
  (claim8_cleanup_sweep { items := [("old", { document := default, expiresAt := 3 }), ("new", { document := default, expiresAt := 9 })], ttl := 1, capacity := 0 } 5 "old" { document := default, expiresAt := 3 }
    (by decide)).1 (by decide)

/-! ## Claim C9: pagination clamping -/

/-- `int64wrap` is the identity on values representable in a Go `int`. -/
theorem int64wrap_eq_self (z : Int) (hlo : -(2 ^ 63) ≤ z) (hhi : z < 2 ^ 63) :
    int64wrap z = z := by
  unfold int64wrap
  have h1 : 0 ≤ z + 2 ^ 63 := by omega
  have h2 : z + 2 ^ 63 < 2 ^ 64 := by omega
  rw [Int.emod_eq_of_lt h1 (by omega)]
  omega

/-- A clamped-pagination offset does not overflow a Go `int` for any page
number up to `2 ^ 56`. -/
theorem offset_no_wrap (x y : Int) (hx1 : 1 ≤ x) (hx2 : x ≤ 2 ^ 56)
    (hy1 : 1 ≤ y) (hy2 : y ≤ 100) :
    int64wrap ((x - 1) * y) = (x - 1) * y := by
  have h0 : 0 ≤ (x - 1) * y := mul_nonneg (by omega) (by omega)
  have h1 : (x - 1) * y ≤ (2 ^ 56 - 1) * 100 :=
    mul_le_mul (by omega) hy2 (by omega) (by omega)
  apply int64wrap_eq_self
  · linarith
  · linarith

/-- Claim C9 — `Service.List` validates its pagination parameters before
querying the store: the page is clamped to at least 1 (inputs below 1
become 1), the page size is clamped into `[1, 100]` (below 1 becomes 10,
above 100 becomes 100), and the offset the store computes from the
validated parameters is `(Page - 1) * PerPage` (exactly, for every page
number up to `2 ^ 56`; beyond that Go's 64-bit multiplication would wrap). -/
theorem claim9_pagination_clamp (p : PaginationParams) (hpage : p.page ≤ 2 ^ 56) :
    1 ≤ (listStoreParams p).page ∧
    (p.page < 1 → (listStoreParams p).page = 1) ∧
    (1 ≤ p.page → (listStoreParams p).page = p.page) ∧
    1 ≤ (listStoreParams p).perPage ∧ (listStoreParams p).perPage ≤ 100 ∧
    (p.perPage < 1 → (listStoreParams p).perPage = 10) ∧
    (100 < p.perPage → (listStoreParams p).perPage = 100) ∧
    (1 ≤ p.perPage → p.perPage ≤ 100 → (listStoreParams p).perPage = p.perPage) ∧
    (listStoreParams p).GetOffset =
      ((listStoreParams p).page - 1) * (listStoreParams p).perPage := by
  have hpage' : (listStoreParams p).page = if p.page < 1 then 1 else p.page := rfl
  have hper' : (listStoreParams p).perPage =
      if (if p.perPage < 1 then 10 else p.perPage) > 100 then 100
      else (if p.perPage < 1 then 10 else p.perPage) := rfl
  refine ⟨?_, ?_, ?_, ?_, ?_, ?_, ?_, ?_, ?_⟩
  · rw [hpage']; split_ifs <;> omega
  · intro h; rw [hpage']; split_ifs <;> omega
  · intro h; rw [hpage']; split_ifs <;> omega
  · rw [hper']; split_ifs <;> omega
  · rw [hper']; split_ifs <;> omega
  · intro h; rw [hper']; split_ifs <;> omega
  · intro h; rw [hper']; split_ifs <;> omega
  · intro h1 h2; rw [hper']; split_ifs <;> omega
  · show PaginationParams.GetOffset (listStoreParams p) = _
    unfold PaginationParams.GetOffset
    rw [hpage', hper']
    split_ifs <;> apply offset_no_wrap <;> omega

/-- Witness for C9 at `page = 0, perPage = 200`: clamped to `1, 100` with
offset `0`. -/
theorem claim9_pagination_clamp_witness :
    ((0 : Int) ≤ 2 ^ 56) ∧ (listStoreParams { page := 0, perPage := 200 }).GetOffset =
      ((listStoreParams { page := 0, perPage := 200 }).page - 1) *
        (listStoreParams { page := 0, perPage := 200 }).perPage :=
  ⟨by decide,
   (claim9_pagination_clamp { page := 0, perPage := 200 } (by decide)).2.2.2.2.2.2.2.2⟩

/-! ## Claim C10: partial update merge -/

/-- Claim C10 — `Service.Update` merges partially: exactly the fields with
non-nil request pointers are replaced, the rest keep their stored values,
and `UpdatedAt` is stamped with the current time before the store write
(the merged value is what `storage.Update` receives). -/
theorem claim10_update_merge (doc : Document) (req : UpdateDocumentRequest) (now : Int) :
    (updateMerge doc req now).title = req.title.getD doc.title ∧
    (updateMerge doc req now).description = req.description.getD doc.description ∧
    (req.items = none → (updateMerge doc req now).items = doc.items) ∧
    (∀ its, req.items = some its → (updateMerge doc req now).items = some its) ∧
    (updateMerge doc req now).updatedAt = now ∧
    (updateMerge doc req now).id = doc.id ∧
    (updateMerge doc req now).createdAt = doc.createdAt ∧
    (updateMerge doc req now).internal = doc.internal := by
  unfold updateMerge
  cases req.title <;> cases req.description <;> cases hit : req.items <;>
    simp [hit]

/-- Witness for C10: a request setting only the title. -/
theorem claim10_update_merge_witness :
    ({ title := some "t2", description := none, items := none } :
        UpdateDocumentRequest).items = none ∧
    (updateMerge default { title := some "t2", description := none, items := none } 7).items
      = (default : Document).items :=
  ⟨rfl, (claim10_update_merge default
    { title := some "t2", description := none, items := none } 7).2.2.1 rfl⟩

/-! ## Claims C5 and C6: processor error paths -/

/-- Claim C5 — if, after all tasks have settled without cancellation, the
collected result count differs from the input count, the call returns the
"processing incomplete" error and no document sequence. -/
theorem claim5_incomplete_error (documents : List Document) (delivered : List Nat)
    (hne : documents.length ≠ 0)
    (hmis : (delivered.foldl
        (fun m idx => natMapInsert m idx (processDocument (geti documents idx)))
        []).length ≠ documents.length) :
    runParallel documents false delivered = Except.error ProcError.incomplete := by
  unfold runParallel
  rw [if_neg hne, if_neg (by simp), if_pos hmis]

/-- Witness for C5: one document, no delivered result. -/
theorem claim5_incomplete_error_witness :
    runParallel [default] false [] = Except.error ProcError.incomplete :=
  claim5_incomplete_error [default] [] (by decide) (by decide)

/-- Counterexample to claim C6 as stated: with the cancellation signal
already fired and an *empty* input list, the call does not return a
cancellation failure — the empty-input early return
(`if len(documents) == 0 { return documents, nil }`) runs before any
context check, so it returns success. -/
theorem claim6_counterexample :
    processDocumentsParallel [] true = Except.ok [] ∧
    ∀ e, processDocumentsParallel [] true ≠ Except.error e := by
  constructor
  · rfl
  · intro e h
    rw [show processDocumentsParallel [] true = Except.ok [] from rfl] at h
    exact Except.noConfusion h

/-- Claim C6 (amended) — for a nonempty input, if the cancellation signal
has fired before or during the call (so `ctx.Err() != nil` at the final
check; `ctx.Err()` is monotone), the call returns the cancellation error
and no document sequence, whichever tasks delivered results. -/
theorem claim6_cancelled_error (documents : List Document) (delivered : List Nat)
    (hne : documents ≠ []) :
    runParallel documents true delivered = Except.error ProcError.cancelled := by
  unfold runParallel
  rw [if_neg (by simpa using hne), if_pos rfl]

/-- Witness for C6 (amended): one document, cancelled before the call. -/
theorem claim6_cancelled_error_witness :
    runParallel [default] true [] = Except.error ProcError.cancelled :=
  claim6_cancelled_error [default] [] (by simp)

/-! ## Claim C7: `processDocument` does not mutate its input -/

/-- Claim C7 — `processDocument` never mutates the caller's document: the
caller's `Items` backing array is unchanged by the call (same contents,
same order), the returned document carries a *fresh* backing array (a
reference that did not exist before, distinct from the caller's), holding
the sorted copy, and every scalar field is copied unchanged.  A document
with a nil `Items` slice is returned as-is with no store change. -/
theorem claim7_no_mutation (h : SliceHeap) (doc : DocumentRef) :
    (∀ r, doc.itemsRef = some r → r < h.cells.length →
      (processDocumentRef h doc).1.read r = h.read r ∧
      (processDocumentRef h doc).2.itemsRef = some h.cells.length ∧
      h.cells.length ≠ r ∧
      (processDocumentRef h doc).1.read h.cells.length =
        GoSort.sortSlice itemLess (h.read r) ∧
      (processDocumentRef h doc).2.id = doc.id ∧
      (processDocumentRef h doc).2.title = doc.title ∧
      (processDocumentRef h doc).2.description = doc.description ∧
      (processDocumentRef h doc).2.createdAt = doc.createdAt ∧
      (processDocumentRef h doc).2.updatedAt = doc.updatedAt ∧
      (processDocumentRef h doc).2.internal = doc.internal) ∧
    (doc.itemsRef = none → processDocumentRef h doc = (h, doc)) := by
  constructor
  · intro r href hr
    have hproc : processDocumentRef h doc =
        ((h.alloc (h.read r)).1.write (h.alloc (h.read r)).2
          (GoSort.sortSlice itemLess ((h.alloc (h.read r)).1.read (h.alloc (h.read r)).2)),
         { doc with itemsRef := some (h.alloc (h.read r)).2 }) := by
      unfold processDocumentRef
      rw [href]
    have hfreshread : (h.alloc (h.read r)).1.read (h.alloc (h.read r)).2 = h.read r := by
      unfold SliceHeap.alloc SliceHeap.read
      simp
    have hne : h.cells.length ≠ r := fun hc => absurd hr (by rw [← hc]; omega)
    refine ⟨?_, ?_, hne, ?_, ?_, ?_, ?_, ?_, ?_, ?_⟩
    · rw [hproc]
      unfold SliceHeap.write SliceHeap.read SliceHeap.alloc
      simp only
      unfold SliceHeap.read at hfreshread
      rw [List.getD_eq_getElem?_getD, List.getElem?_set_ne (by simpa using hne)]
      rw [List.getElem?_append_left hr]
      rw [List.getD_eq_getElem?_getD]
    · simp [hproc, SliceHeap.alloc]
    · rw [hproc]
      unfold SliceHeap.write SliceHeap.read SliceHeap.alloc
      simp only
      unfold SliceHeap.read SliceHeap.alloc at hfreshread
      simp only at hfreshread
      rw [hfreshread]
      rw [List.getD_eq_getElem?_getD, List.getElem?_set_self (by simp)]
      simp
    all_goals simp [hproc]
  · intro hnone
    unfold processDocumentRef
    rw [hnone]

/-- Witness for C7: a one-slice store and a document pointing at it. -/
theorem claim7_no_mutation_witness :
    ({ id := "d", title := "", description := "", createdAt := 0, updatedAt := 0, itemsRef := some 0, internal := "" } : DocumentRef).itemsRef = some 0 ∧
    (0 < ({ cells := [[mkItem "a" 1, mkItem "b" 2]] } : SliceHeap).cells.length) ∧
    (processDocumentRef { cells := [[mkItem "a" 1, mkItem "b" 2]] } { id := "d", title := "", description := "", createdAt := 0, updatedAt := 0, itemsRef := some 0, internal := "" }).1.read 0 =
      SliceHeap.read { cells := [[mkItem "a" 1, mkItem "b" 2]] } 0 :=
  ⟨rfl, by decide,
   ((claim7_no_mutation { cells := [[mkItem "a" 1, mkItem "b" 2]] }
      { id := "d", title := "", description := "", createdAt := 0, updatedAt := 0, itemsRef := some 0, internal := "" }).1
     0 rfl (by decide)).1⟩

/-! ## Toolbox for the `sort.Slice` verification: reads, swaps, ranges -/

section SortToolbox

variable {α : Type} [Inhabited α]

theorem geti_eq_getElem (l : List α) (i : Nat) (h : i < l.length) : geti l i = l[i] := by
  unfold geti
  rw [List.getD_eq_getElem?_getD, List.getElem?_eq_getElem h]
  rfl

theorem length_swp (l : List α) (i j : Nat) : (swp l i j).length = l.length := by
  simp [swp]

theorem geti_swp_other (l : List α) (i j k : Nat) (hki : k ≠ i) (hkj : k ≠ j) :
    geti (swp l i j) k = geti l k := by
  unfold geti
  rw [List.getD_eq_getElem?_getD, List.getD_eq_getElem?_getD]
  unfold swp
  rw [List.getElem?_set_ne (Ne.symm hkj), List.getElem?_set_ne (Ne.symm hki)]

theorem geti_swp_left (l : List α) (i j : Nat) (hi : i < l.length) (hj : j < l.length) :
    geti (swp l i j) i = geti l j := by
  by_cases hij : i = j
  · subst hij
    unfold swp geti
    rw [List.getD_eq_getElem?_getD, List.getD_eq_getElem?_getD,
      List.getElem?_set_self (by simpa using hi)]
    rw [List.getElem?_eq_getElem hi]
    rfl
  · unfold swp geti
    rw [List.getD_eq_getElem?_getD, List.getD_eq_getElem?_getD,
      List.getElem?_set_ne (fun hc => hij hc.symm),
      List.getElem?_set_self hi]
    rfl

theorem geti_swp_right (l : List α) (i j : Nat) (hi : i < l.length) (hj : j < l.length) :
    geti (swp l i j) j = geti l i := by
  unfold swp geti
  rw [List.getD_eq_getElem?_getD, List.getD_eq_getElem?_getD,
    List.getElem?_set_self (by simpa using hj)]
  rfl

theorem cons_set_perm : ∀ (t : List α) (m : Nat) (x : α), m < t.length →
    ((t.getD m default) :: (t.set m x)).Perm (x :: t) := by
  intro t
  induction t with
  | nil => intro m x h; simp at h
  | cons y t' ih =>
    intro m x h
    cases m with
    | zero =>
      show (y :: (x :: t')).Perm (x :: y :: t')
      exact List.Perm.swap x y t'
    | succ m =>
      have hm : m < t'.length := by simpa using h
      show ((t'.getD m default) :: (y :: (t'.set m x))).Perm (x :: y :: t')
      refine List.Perm.trans (List.Perm.swap y (t'.getD m default) (t'.set m x)) ?_
      refine List.Perm.trans (List.Perm.cons y (ih m x hm)) ?_
      exact List.Perm.swap x y t'

theorem swp_perm (l : List α) : ∀ (i j : Nat), i < l.length → j < l.length →
    (swp l i j).Perm l := by
  induction l with
  | nil => intro i j hi; simp at hi
  | cons x t ih =>
    intro i j hi hj
    cases i with
    | zero =>
      cases j with
      | zero =>
        show (swp (x :: t) 0 0).Perm (x :: t)
        unfold swp geti
        simp
      | succ m =>
        have hm : m < t.length := by simpa using hj
        have heq : swp (x :: t) 0 (m + 1) = (t.getD m default) :: (t.set m x) := by
          unfold swp geti
          simp
        rw [heq]
        exact cons_set_perm t m x hm
    | succ n =>
      cases j with
      | zero =>
        have hn : n < t.length := by simpa using hi
        have heq : swp (x :: t) (n + 1) 0 = (t.getD n default) :: (t.set n x) := by
          unfold swp geti
          simp
        rw [heq]
        exact cons_set_perm t n x hn
      | succ m =>
        have heq : swp (x :: t) (n + 1) (m + 1) = x :: swp t n m := by
          unfold swp geti
          simp
        rw [heq]
        exact List.Perm.cons x (ih n m (by simpa using hi) (by simpa using hj))

theorem rangePerm_refl (a b : Nat) (l : List α) : RangePerm a b l l :=
  ⟨rfl, fun _ _ => rfl, List.Perm.refl l⟩

theorem rangePerm_trans {a b : Nat} {l1 l2 l3 : List α}
    (h12 : RangePerm a b l1 l2) (h23 : RangePerm a b l2 l3) : RangePerm a b l1 l3 :=
  ⟨h23.1.trans h12.1, fun k hk => (h23.2.1 k hk).trans (h12.2.1 k hk),
   h23.2.2.trans h12.2.2⟩

theorem rangePerm_swp (a b : Nat) (l : List α) (i j : Nat)
    (hai : a ≤ i) (hib : i < b) (haj : a ≤ j) (hjb : j < b) (hb : b ≤ l.length) :
    RangePerm a b l (swp l i j) := by
  refine ⟨length_swp l i j, ?_, swp_perm l i j (by omega) (by omega)⟩
  intro k hk
  rcases hk with hk | hk
  · exact geti_swp_other l i j k (by omega) (by omega)
  · exact geti_swp_other l i j k (by omega) (by omega)

theorem rangePerm_mono {a b a' b' : Nat} {l l' : List α}
    (h : RangePerm a' b' l l') (ha : a ≤ a') (hb : b' ≤ b) : RangePerm a b l l' := by
  refine ⟨h.1, ?_, h.2.2⟩
  intro k hk
  refine h.2.1 k ?_
  rcases hk with hk | hk
  · exact Or.inl (by omega)
  · exact Or.inr (by omega)

theorem extract_getElem? (l : List α) (a b m : Nat) :
    (extract l a b)[m]? = if m < b - a then l[a + m]? else none := by
  unfold extract
  rw [List.getElem?_take]
  by_cases h : m < b - a
  · rw [if_pos h, if_pos h, List.getElem?_drop]
  · rw [if_neg h, if_neg h]

theorem length_extract (l : List α) (a b : Nat) (hb : b ≤ l.length) :
    (extract l a b).length = b - a := by
  unfold extract
  rw [List.length_take, List.length_drop]
  omega

theorem geti_mem_extract (l : List α) {a b k : Nat}
    (hak : a ≤ k) (hkb : k < b) (hb : b ≤ l.length) : geti l k ∈ extract l a b := by
  have hsome : (extract l a b)[k - a]? = some (geti l k) := by
    rw [extract_getElem?, if_pos (by omega)]
    have : a + (k - a) = k := by omega
    rw [this, List.getElem?_eq_getElem (by omega), geti_eq_getElem l k (by omega)]
  obtain ⟨hlt, hval⟩ := List.getElem?_eq_some_iff.mp hsome
  rw [← hval]
  exact List.getElem_mem hlt

theorem mem_extract_geti (l : List α) {a b : Nat} {x : α} (hb : b ≤ l.length)
    (hx : x ∈ extract l a b) : ∃ k, a ≤ k ∧ k < b ∧ x = geti l k := by
  obtain ⟨m, hm, hget⟩ := List.getElem_of_mem hx
  have hm' : m < b - a := by
    have := length_extract l a b hb
    omega
  refine ⟨a + m, by omega, by omega, ?_⟩
  have h1 : (extract l a b)[m]? = some x := by
    rw [List.getElem?_eq_getElem hm, hget]
  rw [extract_getElem?, if_pos hm'] at h1
  have h2 : a + m < l.length := by omega
  rw [List.getElem?_eq_getElem h2] at h1
  rw [geti_eq_getElem l (a + m) h2]
  injection h1 with h1
  exact h1.symm

theorem rangePerm_extract_perm {a b : Nat} {l l' : List α}
    (h : RangePerm a b l l') (hb : b ≤ l.length) (hab : a ≤ b) :
    (extract l' a b).Perm (extract l a b) := by
  have hlen : l'.length = l.length := h.1
  have hgeteq : ∀ k, k < a ∨ b ≤ k → k < l.length → l'[k]? = l[k]? := by
    intro k hk hkl
    rw [List.getElem?_eq_getElem hkl, List.getElem?_eq_getElem (by omega)]
    have := h.2.1 k hk
    rw [geti_eq_getElem l k hkl, geti_eq_getElem l' k (by omega)] at this
    rw [this]
  have hdecomp : ∀ (m : List α), b ≤ m.length →
      m = m.take a ++ (extract m a b ++ m.drop b) := by
    intro m hm
    unfold extract
    have h1 : (m.drop a).take (b - a) ++ (m.drop a).drop (b - a) = m.drop a :=
      List.take_append_drop (b - a) (m.drop a)
    have h2 : (m.drop a).drop (b - a) = m.drop b := by
      rw [List.drop_drop]
      have heq : a + (b - a) = b := by omega
      rw [heq]
    rw [← h2, h1, List.take_append_drop]
  have htake : l'.take a = l.take a := by
    apply List.ext_getElem?
    intro k
    rw [List.getElem?_take, List.getElem?_take]
    by_cases hk : k < a
    · rw [if_pos hk, if_pos hk]
      exact hgeteq k (Or.inl hk) (by omega)
    · rw [if_neg hk, if_neg hk]
  have hdrop : l'.drop b = l.drop b := by
    apply List.ext_getElem?
    intro k
    rw [List.getElem?_drop, List.getElem?_drop]
    by_cases hk : b + k < l.length
    · exact hgeteq (b + k) (Or.inr (by omega)) hk
    · rw [List.getElem?_eq_none (by omega), List.getElem?_eq_none (by omega)]
  have hperm := h.2.2
  rw [hdecomp l' (by omega), hdecomp l hb, htake, hdrop] at hperm
  rw [List.perm_append_left_iff, List.perm_append_right_iff] at hperm
  exact hperm

theorem loSentinel_of_rangePerm (key : α → Int) {a b : Nat} {l l' : List α}
    (h : RangePerm a b l l') (hb : b ≤ l.length) (hab : a ≤ b)
    (hs : LoSentinel key l a b) : LoSentinel key l' a b := by
  intro ha x hx
  have hx' : x ∈ extract l a b := (rangePerm_extract_perm h hb hab).mem_iff.mp hx
  have := hs ha x hx'
  rwa [h.2.1 (a - 1) (Or.inl (by omega))]

end SortToolbox

open GoSort

section SortProof

variable {α : Type} [Inhabited α]

/-! ## Comparator facts -/

theorem lessK_eq_true {key : α → Int} {x y : α} :
    lessK key x y = true ↔ key y < key x := by
  simp [lessK]

theorem lessK_eq_false {key : α → Int} {x y : α} :
    lessK key x y = false ↔ key x ≤ key y := by
  simp [lessK, not_lt]

/-! ## Insertion sort (`insertionSort_func`) -/

theorem insertionInner_spec (key : α → Int) (a i : Nat) :
    ∀ (v : Nat) (l : List α), v ≤ i → i < l.length →
    (∀ p, a < p → p < i + 1 → p ≠ v → key (geti l p) ≤ key (geti l (p - 1))) →
    (a < v → v < i → key (geti l (v + 1)) ≤ key (geti l (v - 1))) →
    SortedRange key (insertionInner (lessK key) a l v) a (i + 1) ∧
    RangePerm a (i + 1) l (insertionInner (lessK key) a l v) := by
  intro v
  induction v with
  | zero =>
    intro l hvi hil hpairs hbridge
    show SortedRange key l a (i + 1) ∧ RangePerm a (i + 1) l l
    refine ⟨?_, rangePerm_refl _ _ l⟩
    intro j haj hji1
    by_cases hjv : j = 0
    · omega
    · exact hpairs j haj hji1 hjv
  | succ w ih =>
    intro l hvi hil hpairs hbridge
    have heq : insertionInner (lessK key) a l (w + 1) =
        if a < w + 1 ∧ lessK key (geti l (w + 1)) (geti l w) = true
        then insertionInner (lessK key) a (swp l (w + 1) w) w else l := rfl
    rw [heq]
    by_cases hcond : a < w + 1 ∧ lessK key (geti l (w + 1)) (geti l w) = true
    · rw [if_pos hcond]
      have hlt : key (geti l w) < key (geti l (w + 1)) := lessK_eq_true.mp hcond.2
      have hw1 : w + 1 < l.length := by omega
      have hw : w < l.length := by omega
      have hgl : geti (swp l (w + 1) w) (w + 1) = geti l w :=
        geti_swp_left l (w + 1) w hw1 hw
      have hgr : geti (swp l (w + 1) w) w = geti l (w + 1) :=
        geti_swp_right l (w + 1) w hw1 hw
      have hother : ∀ k, k ≠ w + 1 → k ≠ w → geti (swp l (w + 1) w) k = geti l k :=
        fun k h1 h2 => geti_swp_other l (w + 1) w k h1 h2
      have hres := ih (swp l (w + 1) w) (by omega) (by rw [length_swp]; omega) ?pairs ?bridge
      case pairs =>
        intro p hap hpi1 hpw
        by_cases hp1 : p = w + 1
        · subst hp1
          have hsub : w + 1 - 1 = w := by omega
          rw [hsub, hgl, hgr]
          omega
        · by_cases hp2 : p = w + 2
          · subst hp2
            have hb := hbridge (by omega) (by omega)
            rw [hother (w + 2) (by omega) (by omega)]
            have : w + 2 - 1 = w + 1 := by omega
            rw [this, hgl]
            exact hb
          · rw [hother p hp1 (by omega), hother (p - 1) (by omega) (by omega)]
            exact hpairs p hap hpi1 (by omega)
      case bridge =>
        intro haw hwi
        rw [hother (w - 1) (by omega) (by omega), hgl]
        have := hpairs w (by omega) (by omega) (by omega)
        exact this
      refine ⟨hres.1, ?_⟩
      refine rangePerm_trans ?_ hres.2
      exact rangePerm_swp a (i + 1) l (w + 1) w (by omega) (by omega) (by omega)
        (by omega) (by omega)
    · rw [if_neg hcond]
      refine ⟨?_, rangePerm_refl _ _ l⟩
      intro j haj hji1
      by_cases hjv : j = w + 1
      · subst hjv
        rcases not_and_or.mp hcond with hna | hnl
        · omega
        · have hfalse : lessK key (geti l (w + 1)) (geti l w) = false :=
            Bool.eq_false_iff.mpr hnl
          have := lessK_eq_false.mp hfalse
          simpa using this
      · exact hpairs j haj hji1 hjv

theorem insertionOuter_spec (key : α → Int) (a b : Nat) :
    ∀ (fuel : Nat) (l : List α) (i : Nat),
    b ≤ fuel + i → a < i → b ≤ l.length → SortedRange key l a i →
    SortedRange key (insertionOuter (lessK key) a b fuel l i) a b ∧
    RangePerm a b l (insertionOuter (lessK key) a b fuel l i) := by
  intro fuel
  induction fuel with
  | zero =>
    intro l i hfuel hai hbl hsort
    show SortedRange key l a b ∧ RangePerm a b l l
    refine ⟨?_, rangePerm_refl _ _ l⟩
    intro j haj hjb
    exact hsort j haj (by omega)
  | succ fuel ih =>
    intro l i hfuel hai hbl hsort
    have heq : insertionOuter (lessK key) a b (fuel + 1) l i =
        if i < b then insertionOuter (lessK key) a b fuel
          (insertionInner (lessK key) a l i) (i + 1) else l := rfl
    rw [heq]
    by_cases hib : i < b
    · rw [if_pos hib]
      have hinner := insertionInner_spec key a i i l (le_refl i) (by omega)
        (fun p hap hpi1 hpi => hsort p hap (by omega))
        (fun _ hii => absurd hii (by omega))
      have houter := ih (insertionInner (lessK key) a l i) (i + 1) (by omega) (by omega)
        (by rw [hinner.2.1]; omega) hinner.1
      refine ⟨houter.1, ?_⟩
      refine rangePerm_trans ?_ houter.2
      exact rangePerm_mono hinner.2 (le_refl a) (by omega)
    · rw [if_neg hib]
      refine ⟨?_, rangePerm_refl _ _ l⟩
      intro j haj hjb
      exact hsort j haj (by omega)

/-- `insertionSort_func` sorts `l[a:b]` and permutes only that range. -/
theorem insertionSort_spec (key : α → Int) (l : List α) (a b : Nat)
    (hbl : b ≤ l.length) :
    SortedRange key (insertionSort (lessK key) l a b) a b ∧
    RangePerm a b l (insertionSort (lessK key) l a b) := by
  show SortedRange key (insertionOuter (lessK key) a b b l (a + 1)) a b ∧ _
  exact insertionOuter_spec key a b b l (a + 1) (by omega) (by omega) hbl
    (fun j haj hja1 => by omega)

/-! ## Heap sort (`heapSort_func`, `siftDown_func`) -/

theorem siftDown_descend (key : α → Int) (first n lo fuel root chosen : Nat)
    (l : List α)
    (IH : ∀ (root : Nat) (l : List α), first + n ≤ l.length → lo ≤ root →
      n - root ≤ fuel →
      (∀ p c, lo ≤ p → p ≠ root → (c = 2 * p + 1 ∨ c = 2 * p + 2) → c < n →
        key (geti l (first + p)) ≤ key (geti l (first + c))) →
      (∀ c, (c = 2 * root + 1 ∨ c = 2 * root + 2) → c < n →
        ∀ q, lo ≤ q → (root = 2 * q + 1 ∨ root = 2 * q + 2) →
        key (geti l (first + q)) ≤ key (geti l (first + c))) →
      (∀ p c, lo ≤ p → (c = 2 * p + 1 ∨ c = 2 * p + 2) → c < n →
        key (geti (siftDown (lessK key) fuel l root n first) (first + p)) ≤
          key (geti (siftDown (lessK key) fuel l root n first) (first + c))) ∧
      RangePerm first (first + n) l (siftDown (lessK key) fuel l root n first))
    (hlen : first + n ≤ l.length) (hlo : lo ≤ root) (hfuel : n - root ≤ fuel + 1)
    (hchild : chosen = 2 * root + 1 ∨ chosen = 2 * root + 2) (hchn : chosen < n)
    (hmin : ∀ c, (c = 2 * root + 1 ∨ c = 2 * root + 2) → c < n →
      key (geti l (first + chosen)) ≤ key (geti l (first + c)))
    (hswaplt : key (geti l (first + chosen)) < key (geti l (first + root)))
    (ha : ∀ p c, lo ≤ p → p ≠ root → (c = 2 * p + 1 ∨ c = 2 * p + 2) → c < n →
      key (geti l (first + p)) ≤ key (geti l (first + c)))
    (hb : ∀ c, (c = 2 * root + 1 ∨ c = 2 * root + 2) → c < n →
      ∀ q, lo ≤ q → (root = 2 * q + 1 ∨ root = 2 * q + 2) →
      key (geti l (first + q)) ≤ key (geti l (first + c))) :
    (∀ p c, lo ≤ p → (c = 2 * p + 1 ∨ c = 2 * p + 2) → c < n →
      key (geti (siftDown (lessK key) fuel
          (swp l (first + root) (first + chosen)) chosen n first) (first + p)) ≤
        key (geti (siftDown (lessK key) fuel
          (swp l (first + root) (first + chosen)) chosen n first) (first + c))) ∧
    RangePerm first (first + n) l
      (siftDown (lessK key) fuel (swp l (first + root) (first + chosen)) chosen n first) := by
  have hrootn : root < n := by omega
  have hbr : first + root < l.length := by omega
  have hbc : first + chosen < l.length := by omega
  have hgl : geti (swp l (first + root) (first + chosen)) (first + root) =
      geti l (first + chosen) := geti_swp_left l _ _ hbr hbc
  have hgr : geti (swp l (first + root) (first + chosen)) (first + chosen) =
      geti l (first + root) := geti_swp_right l _ _ hbr hbc
  have hoth : ∀ k, k ≠ first + root → k ≠ first + chosen →
      geti (swp l (first + root) (first + chosen)) k = geti l k :=
    fun k hk1 hk2 => geti_swp_other l _ _ k hk1 hk2
  have hres := IH chosen (swp l (first + root) (first + chosen))
    (by rw [length_swp]; omega) (by omega) (by omega) ?ha2 ?hb2
  case ha2 =>
    intro p c hp hpch hc hcn
    by_cases hpr : p = root
    · have hidx : first + p = first + root := by omega
      rw [hidx, hgl]
      by_cases hcch : c = chosen
      · have hidx2 : first + c = first + chosen := by omega
        rw [hidx2, hgr]
        exact le_of_lt hswaplt
      · rw [hoth (first + c) (by omega) (by omega)]
        exact hmin c (by omega) hcn
    · have hpne1 : first + p ≠ first + root := by omega
      have hpne2 : first + p ≠ first + chosen := by omega
      rw [hoth (first + p) hpne1 hpne2]
      by_cases hcroot : c = root
      · have hidx : first + c = first + root := by omega
        rw [hidx, hgl]
        exact hb chosen (by omega) hchn p hp (by omega)
      · by_cases hcch : c = chosen
        · omega
        · rw [hoth (first + c) (by omega) (by omega)]
          exact ha p c hp hpr hc hcn
  case hb2 =>
    intro c hc hcn q hq hqch
    have hidx : first + q = first + root := by omega
    rw [hidx, hgl]
    rw [hoth (first + c) (by omega) (by omega)]
    exact ha chosen c (by omega) (by omega) hc hcn
  refine ⟨hres.1, ?_⟩
  refine rangePerm_trans ?_ hres.2
  exact rangePerm_swp first (first + n) l (first + root) (first + chosen)
    (by omega) (by omega) (by omega) (by omega) (by omega)

theorem siftDown_spec (key : α → Int) (first n lo : Nat) :
    ∀ (fuel root : Nat) (l : List α),
    first + n ≤ l.length → lo ≤ root → n - root ≤ fuel →
    (∀ p c, lo ≤ p → p ≠ root → (c = 2 * p + 1 ∨ c = 2 * p + 2) → c < n →
      key (geti l (first + p)) ≤ key (geti l (first + c))) →
    (∀ c, (c = 2 * root + 1 ∨ c = 2 * root + 2) → c < n →
      ∀ q, lo ≤ q → (root = 2 * q + 1 ∨ root = 2 * q + 2) →
      key (geti l (first + q)) ≤ key (geti l (first + c))) →
    (∀ p c, lo ≤ p → (c = 2 * p + 1 ∨ c = 2 * p + 2) → c < n →
      key (geti (siftDown (lessK key) fuel l root n first) (first + p)) ≤
        key (geti (siftDown (lessK key) fuel l root n first) (first + c))) ∧
    RangePerm first (first + n) l (siftDown (lessK key) fuel l root n first) := by
  intro fuel
  induction fuel with
  | zero =>
    intro root l hlen hlo hfuel ha hb
    show (∀ p c, lo ≤ p → (c = 2 * p + 1 ∨ c = 2 * p + 2) → c < n →
        key (geti l (first + p)) ≤ key (geti l (first + c))) ∧
      RangePerm first (first + n) l l
    refine ⟨?_, rangePerm_refl _ _ l⟩
    intro p c hp hc hcn
    by_cases hpr : p = root
    · omega
    · exact ha p c hp hpr hc hcn
  | succ fuel ih =>
    intro root l hlen hlo hfuel ha hb
    have heq : siftDown (lessK key) (fuel + 1) l root n first =
        (if 2 * root + 1 ≥ n then l
         else
           if lessK key (geti l (first + root))
               (geti l (first + (if 2 * root + 1 + 1 < n ∧
                 lessK key (geti l (first + (2 * root + 1)))
                   (geti l (first + (2 * root + 1) + 1)) = true
                 then 2 * root + 1 + 1 else 2 * root + 1))) = false then l
           else siftDown (lessK key) fuel
             (swp l (first + root)
               (first + (if 2 * root + 1 + 1 < n ∧
                 lessK key (geti l (first + (2 * root + 1)))
                   (geti l (first + (2 * root + 1) + 1)) = true
                 then 2 * root + 1 + 1 else 2 * root + 1)))
             (if 2 * root + 1 + 1 < n ∧
                 lessK key (geti l (first + (2 * root + 1)))
                   (geti l (first + (2 * root + 1) + 1)) = true
                 then 2 * root + 1 + 1 else 2 * root + 1) n first) := rfl
    rw [heq]
    by_cases h1 : 2 * root + 1 ≥ n
    · rw [if_pos h1]
      refine ⟨?_, rangePerm_refl _ _ l⟩
      intro p c hp hc hcn
      by_cases hpr : p = root
      · omega
      · exact ha p c hp hpr hc hcn
    · rw [if_neg h1]
      by_cases hsel : 2 * root + 1 + 1 < n ∧
          lessK key (geti l (first + (2 * root + 1)))
            (geti l (first + (2 * root + 1) + 1)) = true
      · rw [if_pos hsel]
        have hminsib : key (geti l (first + (2 * root + 1) + 1)) <
            key (geti l (first + (2 * root + 1))) := lessK_eq_true.mp hsel.2
        have hmin : ∀ c, (c = 2 * root + 1 ∨ c = 2 * root + 2) → c < n →
            key (geti l (first + (2 * root + 1 + 1))) ≤ key (geti l (first + c)) := by
          intro c hc hcn
          rcases hc with rfl | rfl
          · exact le_of_lt hminsib
          · exact le_refl _
        by_cases hstop : lessK key (geti l (first + root))
            (geti l (first + (2 * root + 1 + 1))) = false
        · rw [if_pos hstop]
          have hrootle := lessK_eq_false.mp hstop
          refine ⟨?_, rangePerm_refl _ _ l⟩
          intro p c hp hc hcn
          by_cases hpr : p = root
          · have hidx : first + p = first + root := by omega
            rw [hidx]
            refine le_trans hrootle ?_
            exact hmin c (by omega) hcn
          · exact ha p c hp hpr hc hcn
        · rw [if_neg hstop]
          have hswaplt : key (geti l (first + (2 * root + 1 + 1))) <
              key (geti l (first + root)) :=
            lessK_eq_true.mp (Bool.not_eq_false _ |>.mp hstop)
          exact siftDown_descend key first n lo fuel root (2 * root + 1 + 1) l ih hlen
            hlo hfuel (by omega) (by omega) hmin hswaplt ha hb
      · rw [if_neg hsel]
        have hminsib : 2 * root + 1 + 1 < n →
            key (geti l (first + (2 * root + 1))) ≤
              key (geti l (first + (2 * root + 1) + 1)) := by
          intro hsib
          have hfalse : lessK key (geti l (first + (2 * root + 1)))
              (geti l (first + (2 * root + 1) + 1)) = false := by
            rcases not_and_or.mp hsel with hn | hn
            · omega
            · exact Bool.eq_false_iff.mpr hn
          exact lessK_eq_false.mp hfalse
        have hmin : ∀ c, (c = 2 * root + 1 ∨ c = 2 * root + 2) → c < n →
            key (geti l (first + (2 * root + 1))) ≤ key (geti l (first + c)) := by
          intro c hc hcn
          rcases hc with rfl | rfl
          · exact le_refl _
          · exact hminsib (by omega)
        by_cases hstop : lessK key (geti l (first + root))
            (geti l (first + (2 * root + 1))) = false
        · rw [if_pos hstop]
          have hrootle := lessK_eq_false.mp hstop
          refine ⟨?_, rangePerm_refl _ _ l⟩
          intro p c hp hc hcn
          by_cases hpr : p = root
          · have hidx : first + p = first + root := by omega
            rw [hidx]
            refine le_trans hrootle ?_
            exact hmin c (by omega) hcn
          · exact ha p c hp hpr hc hcn
        · rw [if_neg hstop]
          have hswaplt : key (geti l (first + (2 * root + 1))) <
              key (geti l (first + root)) :=
            lessK_eq_true.mp (Bool.not_eq_false _ |>.mp hstop)
          exact siftDown_descend key first n lo fuel root (2 * root + 1) l ih hlen
            hlo hfuel (by omega) (by omega) hmin hswaplt ha hb

theorem heapBuild_spec (key : α → Int) (n first : Nat) :
    ∀ (cnt : Nat) (l : List α), first + n ≤ l.length →
    (∀ p c, cnt ≤ p → (c = 2 * p + 1 ∨ c = 2 * p + 2) → c < n →
      key (geti l (first + p)) ≤ key (geti l (first + c))) →
    (∀ p c, (c = 2 * p + 1 ∨ c = 2 * p + 2) → c < n →
      key (geti (heapBuild (lessK key) n first cnt l) (first + p)) ≤
        key (geti (heapBuild (lessK key) n first cnt l) (first + c))) ∧
    RangePerm first (first + n) l (heapBuild (lessK key) n first cnt l) := by
  intro cnt
  induction cnt with
  | zero =>
    intro l hlen ha
    exact ⟨fun p c hc hcn => ha p c (Nat.zero_le p) hc hcn, rangePerm_refl _ _ l⟩
  | succ cnt ih =>
    intro l hlen ha
    have hsift := siftDown_spec key first n cnt n cnt l hlen (le_refl cnt) (by omega)
      (fun p c hp hpne hc hcn => ha p c (by omega) hc hcn)
      (fun c hc hcn q hq hqc => by omega)
    have hrec := ih (siftDown (lessK key) n l cnt n first)
      (by rw [hsift.2.1]; exact hlen) hsift.1
    exact ⟨hrec.1, rangePerm_trans hsift.2 hrec.2⟩

theorem heap_root_min (key : α → Int) (l : List α) (first n : Nat)
    (h : ∀ p c, (c = 2 * p + 1 ∨ c = 2 * p + 2) → c < n →
      key (geti l (first + p)) ≤ key (geti l (first + c))) :
    ∀ j, j < n → key (geti l first) ≤ key (geti l (first + j)) := by
  intro j
  induction j using Nat.strong_induction_on with
  | _ j ihj =>
    intro hj
    rcases Nat.eq_zero_or_pos j with hj0 | hjpos
    · subst hj0
      exact le_refl _
    · have hq : j = 2 * ((j - 1) / 2) + 1 ∨ j = 2 * ((j - 1) / 2) + 2 := by omega
      have h1 := ihj ((j - 1) / 2) (by omega) (by omega)
      have h2 := h ((j - 1) / 2) j hq hj
      exact le_trans h1 h2

theorem heapPop_spec (key : α → Int) (first n : Nat) :
    ∀ (cnt : Nat) (l : List α), cnt ≤ n → first + n ≤ l.length →
    (∀ p c, (c = 2 * p + 1 ∨ c = 2 * p + 2) → c < cnt →
      key (geti l (first + p)) ≤ key (geti l (first + c))) →
    SortedRange key l (first + cnt) (first + n) →
    (∀ p q, p < cnt → cnt ≤ q → q < n →
      key (geti l (first + q)) ≤ key (geti l (first + p))) →
    SortedRange key (heapPop (lessK key) first cnt l) first (first + n) ∧
    RangePerm first (first + n) l (heapPop (lessK key) first cnt l) := by
  intro cnt
  induction cnt with
  | zero =>
    intro l hcn hlen hheap hsorted hbound
    exact ⟨hsorted, rangePerm_refl _ _ l⟩
  | succ cnt ih =>
    intro l hcn hlen hheap hsorted hbound
    have hcntn : cnt < n := by omega
    have hb0 : first < l.length := by omega
    have hbc : first + cnt < l.length := by omega
    have hgl : geti (swp l first (first + cnt)) first = geti l (first + cnt) :=
      geti_swp_left l _ _ hb0 hbc
    have hgr : geti (swp l first (first + cnt)) (first + cnt) = geti l first :=
      geti_swp_right l _ _ hb0 hbc
    have hoth : ∀ k, k ≠ first → k ≠ first + cnt →
        geti (swp l first (first + cnt)) k = geti l k :=
      fun k h1 h2 => geti_swp_other l _ _ k h1 h2
    have hmin := heap_root_min key l first (cnt + 1) hheap
    have hsift := siftDown_spec key first cnt 0 (cnt + 1) 0
      (swp l first (first + cnt)) (by rw [length_swp]; omega) (le_refl 0) (by omega)
      ?prea ?preb
    case prea =>
      intro p c hp hpne hc hcn2
      rw [hoth (first + p) (by omega) (by omega), hoth (first + c) (by omega) (by omega)]
      exact hheap p c hc (by omega)
    case preb =>
      intro c hc hcn2 q hq hqc
      omega
    have hl2len : (siftDown (lessK key) (cnt + 1) (swp l first (first + cnt)) 0 cnt
        first).length = l.length := by
      rw [hsift.2.1, length_swp]
    have hmemval : ∀ p, p < cnt → ∃ j, j < cnt + 1 ∧
        geti (siftDown (lessK key) (cnt + 1) (swp l first (first + cnt)) 0 cnt first)
          (first + p) = geti l (first + j) := by
      intro p hp
      have hmem : geti (siftDown (lessK key) (cnt + 1) (swp l first (first + cnt)) 0 cnt
          first) (first + p) ∈ extract (siftDown (lessK key) (cnt + 1)
            (swp l first (first + cnt)) 0 cnt first) first (first + cnt) :=
        geti_mem_extract _ (by omega) (by omega) (by rw [hl2len]; omega)
      have hmem1 : geti (siftDown (lessK key) (cnt + 1) (swp l first (first + cnt)) 0 cnt
          first) (first + p) ∈ extract (swp l first (first + cnt)) first (first + cnt) :=
        (rangePerm_extract_perm hsift.2 (by rw [length_swp]; omega)
          (by omega)).mem_iff.mp hmem
      obtain ⟨k, hk1, hk2, hk3⟩ := mem_extract_geti _ (by rw [length_swp]; omega) hmem1
      by_cases hkf : k = first
      · refine ⟨cnt, by omega, ?_⟩
        rw [hk3, hkf, hgl]
      · refine ⟨k - first, by omega, ?_⟩
        rw [hk3, hoth k hkf (by omega)]
        have : first + (k - first) = k := by omega
        rw [this]
    have hrec := ih (siftDown (lessK key) (cnt + 1) (swp l first (first + cnt)) 0 cnt first)
      (by omega) (by rw [hl2len]; exact hlen) ?hheap2 ?hsorted2 ?hbound2
    case hheap2 =>
      intro p c hc hcn2
      exact hsift.1 p c (Nat.zero_le p) hc hcn2
    case hsorted2 =>
      intro j haj hjb
      have hframe := hsift.2.2.1
      have hj1 : geti (siftDown (lessK key) (cnt + 1) (swp l first (first + cnt)) 0 cnt
          first) j = geti (swp l first (first + cnt)) j := hframe j (Or.inr (by omega))
      have hj2 : geti (siftDown (lessK key) (cnt + 1) (swp l first (first + cnt)) 0 cnt
          first) (j - 1) = geti (swp l first (first + cnt)) (j - 1) :=
        hframe (j - 1) (Or.inr (by omega))
      rw [hj1, hj2]
      by_cases hjc : j = first + cnt + 1
      · have hid1 : j - 1 = first + cnt := by omega
        rw [hid1, hgr, hjc, hoth (first + cnt + 1) (by omega) (by omega)]
        have hid2 : first + cnt + 1 = first + (cnt + 1) := by omega
        rw [hid2]
        have := hbound 0 (cnt + 1) (by omega) (le_refl _) (by omega)
        simpa using this
      · rw [hoth j (by omega) (by omega), hoth (j - 1) (by omega) (by omega)]
        exact hsorted j (by omega) hjb
    case hbound2 =>
      intro p q hp hq hqn
      obtain ⟨j, hj, hjval⟩ := hmemval p hp
      rw [hjval]
      by_cases hqc : q = cnt
      · have hidx : first + q = first + cnt := by omega
        rw [hidx]
        have hfr : geti (siftDown (lessK key) (cnt + 1) (swp l first (first + cnt)) 0 cnt
            first) (first + cnt) = geti (swp l first (first + cnt)) (first + cnt) :=
          hsift.2.2.1 (first + cnt) (Or.inr (le_refl _))
        rw [hfr, hgr]
        have := hmin j hj
        simpa using this
      · have hfr : geti (siftDown (lessK key) (cnt + 1) (swp l first (first + cnt)) 0 cnt
            first) (first + q) = geti (swp l first (first + cnt)) (first + q) :=
          hsift.2.2.1 (first + q) (Or.inr (by omega))
        rw [hfr, hoth (first + q) (by omega) (by omega)]
        exact hbound j q hj (by omega) hqn
    have hpopeq : heapPop (lessK key) first (cnt + 1) l =
        heapPop (lessK key) first cnt
          (siftDown (lessK key) (cnt + 1) (swp l first (first + cnt)) 0 cnt first) := rfl
    rw [hpopeq]
    refine ⟨hrec.1, ?_⟩
    have h1 : RangePerm first (first + n) l (swp l first (first + cnt)) :=
      rangePerm_swp first (first + n) l first (first + cnt)
        (le_refl _) (by omega) (by omega) (by omega) (by omega)
    have h2 : RangePerm first (first + n) (swp l first (first + cnt))
        (siftDown (lessK key) (cnt + 1) (swp l first (first + cnt)) 0 cnt first) :=
      rangePerm_mono hsift.2 (le_refl _) (by omega)
    exact rangePerm_trans h1 (rangePerm_trans h2 hrec.2)

/-- `heapSort_func` sorts `l[a:b]` and permutes only that range. -/
theorem heapSort_spec (key : α → Int) (l : List α) (a b : Nat) (hab : a ≤ b)
    (hbl : b ≤ l.length) :
    SortedRange key (heapSort (lessK key) l a b) a b ∧
    RangePerm a b l (heapSort (lessK key) l a b) := by
  have hbuild := heapBuild_spec key (b - a) a ((b - a - 1) / 2 + 1) l (by omega)
    (fun p c hp hc hcn => by omega)
  have hpop := heapPop_spec key a (b - a) (b - a)
    (heapBuild (lessK key) (b - a) a ((b - a - 1) / 2 + 1) l) (le_refl _)
    (by rw [hbuild.2.1]; omega) (fun p c hc hcn => hbuild.1 p c hc hcn)
    (fun j haj hjb => by omega) (fun p q hp hq hqn => by omega)
  have hseq : heapSort (lessK key) l a b = heapPop (lessK key) a (b - a)
      (heapBuild (lessK key) (b - a) a ((b - a - 1) / 2 + 1) l) := rfl
  rw [hseq]
  constructor
  · intro j haj hjb
    exact hpop.1 j haj (by omega)
  · have hchain := rangePerm_trans hbuild.2 hpop.2
    refine ⟨hchain.1, ?_, hchain.2.2⟩
    intro k hk
    apply hchain.2.1
    by_cases hka : k < a
    · exact Or.inl hka
    · exact Or.inr (by omega)

/-! ## Scan loops of `partition_func` / `partitionEqual_func` -/

theorem scanLtUp_spec (key : α → Int) (l : List α) (a j : Nat) :
    ∀ (fuel i : Nat), j + 1 - i ≤ fuel → i ≤ j + 1 →
    i ≤ scanLtUp (lessK key) l a j fuel i ∧
    scanLtUp (lessK key) l a j fuel i ≤ j + 1 ∧
    (∀ k, i ≤ k → k < scanLtUp (lessK key) l a j fuel i →
      lessK key (geti l k) (geti l a) = true) ∧
    (scanLtUp (lessK key) l a j fuel i ≤ j →
      lessK key (geti l (scanLtUp (lessK key) l a j fuel i)) (geti l a) = false) := by
  intro fuel
  induction fuel with
  | zero =>
    intro i hfuel hi
    show i ≤ i ∧ i ≤ j + 1 ∧ (∀ k, i ≤ k → k < i → _) ∧ (i ≤ j → _)
    exact ⟨le_refl i, hi, fun k h1 h2 => by omega, fun h => by omega⟩
  | succ fuel ih =>
    intro i hfuel hi
    have heq : scanLtUp (lessK key) l a j (fuel + 1) i =
        if i ≤ j ∧ lessK key (geti l i) (geti l a) = true
        then scanLtUp (lessK key) l a j fuel (i + 1) else i := rfl
    rw [heq]
    by_cases hc : i ≤ j ∧ lessK key (geti l i) (geti l a) = true
    · rw [if_pos hc]
      have hrec := ih (i + 1) (by omega) (by omega)
      refine ⟨by omega, hrec.2.1, ?_, hrec.2.2.2⟩
      intro k hk1 hk2
      by_cases hki : k = i
      · subst hki
        exact hc.2
      · exact hrec.2.2.1 k (by omega) hk2
    · rw [if_neg hc]
      refine ⟨le_refl i, hi, fun k h1 h2 => by omega, ?_⟩
      intro hij
      rcases not_and_or.mp hc with h | h
      · omega
      · exact Bool.eq_false_iff.mpr h

theorem scanGeDown_spec (key : α → Int) (l : List α) (a i : Nat) (hi : 1 ≤ i) :
    ∀ (fuel j : Nat), j + 1 - i ≤ fuel → i - 1 ≤ j →
    scanGeDown (lessK key) l a i fuel j ≤ j ∧
    i - 1 ≤ scanGeDown (lessK key) l a i fuel j ∧
    (∀ k, scanGeDown (lessK key) l a i fuel j < k → k ≤ j →
      lessK key (geti l k) (geti l a) = false) ∧
    (i ≤ scanGeDown (lessK key) l a i fuel j →
      lessK key (geti l (scanGeDown (lessK key) l a i fuel j)) (geti l a) = true) := by
  intro fuel
  induction fuel with
  | zero =>
    intro j hfuel hj
    show j ≤ j ∧ i - 1 ≤ j ∧ (∀ k, j < k → k ≤ j → _) ∧ (i ≤ j → _)
    refine ⟨le_refl j, hj, fun k h1 h2 => by omega, fun h => by omega⟩
  | succ fuel ih =>
    intro j hfuel hj
    have heq : scanGeDown (lessK key) l a i (fuel + 1) j =
        if i ≤ j ∧ lessK key (geti l j) (geti l a) = false
        then scanGeDown (lessK key) l a i fuel (j - 1) else j := rfl
    rw [heq]
    by_cases hc : i ≤ j ∧ lessK key (geti l j) (geti l a) = false
    · rw [if_pos hc]
      have hrec := ih (j - 1) (by omega) (by omega)
      refine ⟨by omega, hrec.2.1, ?_, hrec.2.2.2⟩
      intro k hk1 hk2
      by_cases hkj : k = j
      · subst hkj
        exact hc.2
      · exact hrec.2.2.1 k hk1 (by omega)
    · rw [if_neg hc]
      refine ⟨le_refl j, hj, fun k h1 h2 => by omega, ?_⟩
      intro hij
      rcases not_and_or.mp hc with h | h
      · omega
      · exact Bool.not_eq_false _ |>.mp h

theorem scanEqUp_spec (key : α → Int) (l : List α) (a j : Nat) :
    ∀ (fuel i : Nat), j + 1 - i ≤ fuel → i ≤ j + 1 →
    i ≤ scanEqUp (lessK key) l a j fuel i ∧
    scanEqUp (lessK key) l a j fuel i ≤ j + 1 ∧
    (∀ k, i ≤ k → k < scanEqUp (lessK key) l a j fuel i →
      lessK key (geti l a) (geti l k) = false) ∧
    (scanEqUp (lessK key) l a j fuel i ≤ j →
      lessK key (geti l a) (geti l (scanEqUp (lessK key) l a j fuel i)) = true) := by
  intro fuel
  induction fuel with
  | zero =>
    intro i hfuel hi
    show i ≤ i ∧ i ≤ j + 1 ∧ (∀ k, i ≤ k → k < i → _) ∧ (i ≤ j → _)
    exact ⟨le_refl i, hi, fun k h1 h2 => by omega, fun h => by omega⟩
  | succ fuel ih =>
    intro i hfuel hi
    have heq : scanEqUp (lessK key) l a j (fuel + 1) i =
        if i ≤ j ∧ lessK key (geti l a) (geti l i) = false
        then scanEqUp (lessK key) l a j fuel (i + 1) else i := rfl
    rw [heq]
    by_cases hc : i ≤ j ∧ lessK key (geti l a) (geti l i) = false
    · rw [if_pos hc]
      have hrec := ih (i + 1) (by omega) (by omega)
      refine ⟨by omega, hrec.2.1, ?_, hrec.2.2.2⟩
      intro k hk1 hk2
      by_cases hki : k = i
      · subst hki
        exact hc.2
      · exact hrec.2.2.1 k (by omega) hk2
    · rw [if_neg hc]
      refine ⟨le_refl i, hi, fun k h1 h2 => by omega, ?_⟩
      intro hij
      rcases not_and_or.mp hc with h | h
      · omega
      · exact Bool.not_eq_false _ |>.mp h

theorem scanGtDown_spec (key : α → Int) (l : List α) (a i : Nat) (hi : 1 ≤ i) :
    ∀ (fuel j : Nat), j + 1 - i ≤ fuel → i - 1 ≤ j →
    scanGtDown (lessK key) l a i fuel j ≤ j ∧
    i - 1 ≤ scanGtDown (lessK key) l a i fuel j ∧
    (∀ k, scanGtDown (lessK key) l a i fuel j < k → k ≤ j →
      lessK key (geti l a) (geti l k) = true) ∧
    (i ≤ scanGtDown (lessK key) l a i fuel j →
      lessK key (geti l a) (geti l (scanGtDown (lessK key) l a i fuel j)) = false) := by
  intro fuel
  induction fuel with
  | zero =>
    intro j hfuel hj
    have h0 : scanGtDown (lessK key) l a i 0 j = j := rfl
    rw [h0]
    refine ⟨le_refl j, hj, fun k h1 h2 => by omega, fun h => by omega⟩
  | succ fuel ih =>
    intro j hfuel hj
    have heq : scanGtDown (lessK key) l a i (fuel + 1) j =
        if i ≤ j ∧ lessK key (geti l a) (geti l j) = true
        then scanGtDown (lessK key) l a i fuel (j - 1) else j := rfl
    rw [heq]
    by_cases hc : i ≤ j ∧ lessK key (geti l a) (geti l j) = true
    · rw [if_pos hc]
      have hrec := ih (j - 1) (by omega) (by omega)
      refine ⟨by omega, hrec.2.1, ?_, hrec.2.2.2⟩
      intro k hk1 hk2
      by_cases hkj : k = j
      · subst hkj
        exact hc.2
      · exact hrec.2.2.1 k hk1 (by omega)
    · rw [if_neg hc]
      refine ⟨le_refl j, hj, fun k h1 h2 => by omega, ?_⟩
      intro hij
      rcases not_and_or.mp hc with h | h
      · omega
      · exact Bool.eq_false_iff.mpr h

theorem partScan_spec (key : α → Int) (l : List α) (b : Nat) :
    ∀ (fuel i : Nat), b - i ≤ fuel → i ≤ b →
    i ≤ partScan (lessK key) l b fuel i ∧
    partScan (lessK key) l b fuel i ≤ b ∧
    (∀ k, i ≤ k → k < partScan (lessK key) l b fuel i →
      lessK key (geti l k) (geti l (k - 1)) = false) ∧
    (partScan (lessK key) l b fuel i < b →
      lessK key (geti l (partScan (lessK key) l b fuel i))
        (geti l (partScan (lessK key) l b fuel i - 1)) = true) := by
  intro fuel
  induction fuel with
  | zero =>
    intro i hfuel hib
    have h0 : partScan (lessK key) l b 0 i = i := rfl
    rw [h0]
    refine ⟨le_refl i, hib, fun k h1 h2 => by omega, fun h => by omega⟩
  | succ fuel ih =>
    intro i hfuel hib
    have heq : partScan (lessK key) l b (fuel + 1) i =
        if i < b ∧ lessK key (geti l i) (geti l (i - 1)) = false
        then partScan (lessK key) l b fuel (i + 1) else i := rfl
    rw [heq]
    by_cases hc : i < b ∧ lessK key (geti l i) (geti l (i - 1)) = false
    · rw [if_pos hc]
      have hrec := ih (i + 1) (by omega) (by omega)
      refine ⟨by omega, hrec.2.1, ?_, hrec.2.2.2⟩
      intro k hk1 hk2
      by_cases hki : k = i
      · subst hki
        exact hc.2
      · exact hrec.2.2.1 k (by omega) hk2
    · rw [if_neg hc]
      refine ⟨le_refl i, hib, fun k h1 h2 => by omega, ?_⟩
      intro hib2
      rcases not_and_or.mp hc with h | h
      · omega
      · exact Bool.not_eq_false _ |>.mp h

/-! ## `partition_func` -/

/-- Final step shared by both exits of `partition_func`: swapping the pivot
(resident at `a`) with position `jr` yields the two partitioned regions. -/
theorem partitionFinish (key : α → Int) (a b : Nat) (l2 : List α) (jr : Nat)
    (hlen : b ≤ l2.length) (hajr : a ≤ jr) (hjrb : jr < b)
    (h2 : ∀ k, a < k → k ≤ jr → lessK key (geti l2 k) (geti l2 a) = true)
    (h3 : ∀ k, jr < k → k < b → lessK key (geti l2 k) (geti l2 a) = false) :
    (∀ k, a ≤ k → k < jr → key (geti (swp l2 jr a) jr) < key (geti (swp l2 jr a) k)) ∧
    (∀ k, jr < k → k < b → key (geti (swp l2 jr a) k) ≤ key (geti (swp l2 jr a) jr)) ∧
    RangePerm a b l2 (swp l2 jr a) := by
  have hjl : jr < l2.length := by omega
  have hal : a < l2.length := by omega
  have hmid : geti (swp l2 jr a) jr = geti l2 a := geti_swp_left l2 jr a hjl hal
  refine ⟨?_, ?_, rangePerm_swp a b l2 jr a hajr hjrb (by omega) (by omega) hlen⟩
  · intro k hk1 hk2
    rw [hmid]
    by_cases hka : k = a
    · subst hka
      have hr : geti (swp l2 jr k) k = geti l2 jr := geti_swp_right l2 jr k hjl hal
      rw [hr]
      exact lessK_eq_true.mp (h2 jr (by omega) (le_refl jr))
    · have ho : geti (swp l2 jr a) k = geti l2 k := geti_swp_other l2 jr a k (by omega) hka
      rw [ho]
      exact lessK_eq_true.mp (h2 k (by omega) (by omega))
  · intro k hk1 hk2
    rw [hmid]
    have ho : geti (swp l2 jr a) k = geti l2 k :=
      geti_swp_other l2 jr a k (by omega) (by omega)
    rw [ho]
    exact lessK_eq_false.mp (h3 k hk1 hk2)

/-- One round of the `partition_func` cursor loop: the two scans either make
the cursors cross (closing the regions) or find an exchangeable pair whose
swap extends both regions. -/
theorem partitionRound (key : α → Int) (a b : Nat) (l : List α) (i j i' j' : Nat)
    (hlen : b ≤ l.length) (hi : a + 1 ≤ i) (hij : i ≤ j + 1) (hjb : j < b)
    (h2 : ∀ k, a < k → k < i → lessK key (geti l k) (geti l a) = true)
    (h3 : ∀ k, j < k → k < b → lessK key (geti l k) (geti l a) = false)
    (hI : i' = scanLtUp (lessK key) l a j (j + 1 - i) i)
    (hJ : j' = scanGeDown (lessK key) l a i' (j + 1 - i') j) :
    (i' > j' → j' + 1 = i' ∧ a ≤ j' ∧ j' < b ∧
      (∀ k, a < k → k ≤ j' → lessK key (geti l k) (geti l a) = true) ∧
      (∀ k, j' < k → k < b → lessK key (geti l k) (geti l a) = false)) ∧
    (i' ≤ j' → i' < j' ∧ i ≤ i' ∧ j' ≤ j ∧ a + 1 ≤ i' + 1 ∧ i' + 1 ≤ (j' - 1) + 1 ∧ j' - 1 < b ∧
      geti (swp l i' j') a = geti l a ∧
      (∀ k, a < k → k < i' + 1 →
        lessK key (geti (swp l i' j') k) (geti (swp l i' j') a) = true) ∧
      (∀ k, j' - 1 < k → k < b →
        lessK key (geti (swp l i' j') k) (geti (swp l i' j') a) = false) ∧
      RangePerm (a + 1) b l (swp l i' j')) := by
  have hsI := scanLtUp_spec key l a j (j + 1 - i) i (le_refl _) hij
  rw [← hI] at hsI
  have hi'1 : 1 ≤ i' := by omega
  have hsJ := scanGeDown_spec key l a i' hi'1 (j + 1 - i') j (le_refl _) (by omega)
  rw [← hJ] at hsJ
  constructor
  · intro hgt
    refine ⟨by omega, by omega, by omega, ?_, ?_⟩
    · intro k hk1 hk2
      by_cases hki : k < i
      · exact h2 k hk1 hki
      · exact hsI.2.2.1 k (by omega) (by omega)
    · intro k hk1 hk2
      by_cases hkj : k ≤ j
      · exact hsJ.2.2.1 k hk1 hkj
      · exact h3 k (by omega) hk2
  · intro hle
    have hne : i' ≠ j' := by
      intro heq
      have hf : lessK key (geti l i') (geti l a) = false := hsI.2.2.2 (by omega)
      have ht : lessK key (geti l j') (geti l a) = true := hsJ.2.2.2 hle
      rw [heq] at hf
      rw [ht] at hf
      exact Bool.noConfusion hf
    have hlt : i' < j' := by omega
    have hi'l : i' < l.length := by omega
    have hj'l : j' < l.length := by omega
    have hfa : geti (swp l i' j') a = geti l a :=
      geti_swp_other l i' j' a (by omega) (by omega)
    refine ⟨hlt, by omega, by omega, by omega, by omega, by omega, hfa, ?_, ?_,
      rangePerm_swp (a + 1) b l i' j' (by omega) (by omega) (by omega) (by omega) hlen⟩
    · intro k hk1 hk2
      rw [hfa]
      by_cases hki : k = i'
      · subst hki
        have hg : geti (swp l k j') k = geti l j' := geti_swp_left l k j' hi'l hj'l
        rw [hg]
        exact hsJ.2.2.2 hle
      · have hg : geti (swp l i' j') k = geti l k :=
          geti_swp_other l i' j' k hki (by omega)
        rw [hg]
        by_cases hklt : k < i
        · exact h2 k hk1 hklt
        · exact hsI.2.2.1 k (by omega) (by omega)
    · intro k hk1 hk2
      rw [hfa]
      by_cases hkj : k = j'
      · subst hkj
        have hg : geti (swp l i' k) k = geti l i' := geti_swp_right l i' k hi'l hj'l
        rw [hg]
        exact hsI.2.2.2 (by omega)
      · have hg : geti (swp l i' j') k = geti l k :=
          geti_swp_other l i' j' k (by omega) hkj
        rw [hg]
        by_cases hkle : k ≤ j
        · exact hsJ.2.2.1 k (by omega) hkle
        · exact h3 k (by omega) hk2

/-- Main cursor loop of `partition_func`: with the pivot resident at `a`,
it ends with cursors crossed, elements below the final `j` strictly less
(descending: larger key) than the pivot, elements above it not less. -/
theorem partitionLoop_spec (key : α → Int) (a b : Nat) :
    ∀ (fuel : Nat) (l : List α) (i j : Nat),
    j + 1 - i ≤ fuel → b ≤ l.length → a + 1 ≤ i → i ≤ j + 1 → j < b →
    (∀ k, a < k → k < i → lessK key (geti l k) (geti l a) = true) →
    (∀ k, j < k → k < b → lessK key (geti l k) (geti l a) = false) →
    a ≤ (partitionLoop (lessK key) a fuel l i j).2.2 ∧
    (partitionLoop (lessK key) a fuel l i j).2.2 < b ∧
    (∀ k, a < k → k ≤ (partitionLoop (lessK key) a fuel l i j).2.2 →
      lessK key (geti (partitionLoop (lessK key) a fuel l i j).1 k)
        (geti (partitionLoop (lessK key) a fuel l i j).1 a) = true) ∧
    (∀ k, (partitionLoop (lessK key) a fuel l i j).2.2 < k → k < b →
      lessK key (geti (partitionLoop (lessK key) a fuel l i j).1 k)
        (geti (partitionLoop (lessK key) a fuel l i j).1 a) = false) ∧
    RangePerm (a + 1) b l (partitionLoop (lessK key) a fuel l i j).1 := by
  intro fuel
  induction fuel with
  | zero =>
    intro l i j hfuel hlen hi hij hjb h2 h3
    have h0 : partitionLoop (lessK key) a 0 l i j = (l, i, j) := rfl
    rw [h0]
    show a ≤ j ∧ j < b ∧ (∀ k, a < k → k ≤ j → _) ∧ (∀ k, j < k → k < b → _) ∧ _
    exact ⟨by omega, hjb, fun k hk1 hk2 => h2 k hk1 (by omega), h3,
      rangePerm_refl (a + 1) b l⟩
  | succ fuel ih =>
    intro l i j hfuel hlen hi hij hjb h2 h3
    obtain ⟨i', hI⟩ : ∃ i', scanLtUp (lessK key) l a j (j + 1 - i) i = i' := ⟨_, rfl⟩
    obtain ⟨j', hJ⟩ : ∃ j', scanGeDown (lessK key) l a i' (j + 1 - i') j = j' := ⟨_, rfl⟩
    have heq : partitionLoop (lessK key) a (fuel + 1) l i j =
        if scanLtUp (lessK key) l a j (j + 1 - i) i >
            scanGeDown (lessK key) l a (scanLtUp (lessK key) l a j (j + 1 - i) i)
              (j + 1 - scanLtUp (lessK key) l a j (j + 1 - i) i) j
        then (l, scanLtUp (lessK key) l a j (j + 1 - i) i,
              scanGeDown (lessK key) l a (scanLtUp (lessK key) l a j (j + 1 - i) i)
                (j + 1 - scanLtUp (lessK key) l a j (j + 1 - i) i) j)
        else partitionLoop (lessK key) a fuel
              (swp l (scanLtUp (lessK key) l a j (j + 1 - i) i)
                (scanGeDown (lessK key) l a (scanLtUp (lessK key) l a j (j + 1 - i) i)
                  (j + 1 - scanLtUp (lessK key) l a j (j + 1 - i) i) j))
              (scanLtUp (lessK key) l a j (j + 1 - i) i + 1)
              (scanGeDown (lessK key) l a (scanLtUp (lessK key) l a j (j + 1 - i) i)
                (j + 1 - scanLtUp (lessK key) l a j (j + 1 - i) i) j - 1) := rfl
    rw [hI, hJ] at heq
    rw [heq]
    have hround := partitionRound key a b l i j i' j' hlen hi hij hjb h2 h3 hI.symm hJ.symm
    by_cases hc : i' > j'
    · rw [if_pos hc]
      obtain ⟨heq1, haj, hjb', hL, hR⟩ := hround.1 hc
      exact ⟨haj, hjb', hL, hR, rangePerm_refl (a + 1) b l⟩
    · rw [if_neg hc]
      obtain ⟨hlt, hii', hjj', h1', h2', h3', hfa, hL', hR', hperm⟩ := hround.2 (by omega)
      have hrec := ih (swp l i' j') (i' + 1) (j' - 1) (by omega)
        (by rw [length_swp]; exact hlen) h1' h2' h3' hL' hR'
      exact ⟨hrec.1, hrec.2.1, hrec.2.2.1, hrec.2.2.2.1,
        rangePerm_trans hperm hrec.2.2.2.2⟩

/-- Go `partition_func(data, a, b, pivot)`: the returned middle index sits in
`[a, b)`, the slice is a rearrangement of `[a, b)` only, every element left
of the middle has a key strictly greater than the middle's, and every
element right of it a key not greater. -/
theorem partition_spec (key : α → Int) (l : List α) (a b pivot : Nat)
    (hab : a < b) (hbl : b ≤ l.length) (hpa : a ≤ pivot) (hpb : pivot < b) :
    a ≤ (partition (lessK key) l a b pivot).2.1 ∧
    (partition (lessK key) l a b pivot).2.1 < b ∧
    RangePerm a b l (partition (lessK key) l a b pivot).1 ∧
    (∀ k, a ≤ k → k < (partition (lessK key) l a b pivot).2.1 →
      key (geti (partition (lessK key) l a b pivot).1
        (partition (lessK key) l a b pivot).2.1) <
      key (geti (partition (lessK key) l a b pivot).1 k)) ∧
    (∀ k, (partition (lessK key) l a b pivot).2.1 < k → k < b →
      key (geti (partition (lessK key) l a b pivot).1 k) ≤
      key (geti (partition (lessK key) l a b pivot).1
        (partition (lessK key) l a b pivot).2.1)) := by
  have hperm1 : RangePerm a b l (swp l a pivot) :=
    rangePerm_swp a b l a pivot (le_refl a) hab hpa hpb hbl
  have hlen1 : b ≤ (swp l a pivot).length := by rw [length_swp]; exact hbl
  obtain ⟨i', hI⟩ : ∃ i',
      scanLtUp (lessK key) (swp l a pivot) a (b - 1) (b - 1 + 1 - (a + 1)) (a + 1) = i' :=
    ⟨_, rfl⟩
  obtain ⟨j', hJ⟩ : ∃ j',
      scanGeDown (lessK key) (swp l a pivot) a i' (b - 1 + 1 - i') (b - 1) = j' :=
    ⟨_, rfl⟩
  have heq : partition (lessK key) l a b pivot =
      if scanLtUp (lessK key) (swp l a pivot) a (b - 1) (b - 1 + 1 - (a + 1)) (a + 1) >
          scanGeDown (lessK key) (swp l a pivot) a
            (scanLtUp (lessK key) (swp l a pivot) a (b - 1) (b - 1 + 1 - (a + 1)) (a + 1))
            (b - 1 + 1 -
              scanLtUp (lessK key) (swp l a pivot) a (b - 1) (b - 1 + 1 - (a + 1)) (a + 1))
            (b - 1)
      then (swp (swp l a pivot)
              (scanGeDown (lessK key) (swp l a pivot) a
                (scanLtUp (lessK key) (swp l a pivot) a (b - 1)
                  (b - 1 + 1 - (a + 1)) (a + 1))
                (b - 1 + 1 -
                  scanLtUp (lessK key) (swp l a pivot) a (b - 1)
                    (b - 1 + 1 - (a + 1)) (a + 1))
                (b - 1)) a,
            scanGeDown (lessK key) (swp l a pivot) a
              (scanLtUp (lessK key) (swp l a pivot) a (b - 1)
                (b - 1 + 1 - (a + 1)) (a + 1))
              (b - 1 + 1 -
                scanLtUp (lessK key) (swp l a pivot) a (b - 1)
                  (b - 1 + 1 - (a + 1)) (a + 1))
              (b - 1), true)
      else (swp (partitionLoop (lessK key) a b
              (swp (swp l a pivot)
                (scanLtUp (lessK key) (swp l a pivot) a (b - 1)
                  (b - 1 + 1 - (a + 1)) (a + 1))
                (scanGeDown (lessK key) (swp l a pivot) a
                  (scanLtUp (lessK key) (swp l a pivot) a (b - 1)
                    (b - 1 + 1 - (a + 1)) (a + 1))
                  (b - 1 + 1 -
                    scanLtUp (lessK key) (swp l a pivot) a (b - 1)
                      (b - 1 + 1 - (a + 1)) (a + 1))
                  (b - 1)))
              (scanLtUp (lessK key) (swp l a pivot) a (b - 1)
                (b - 1 + 1 - (a + 1)) (a + 1) + 1)
              (scanGeDown (lessK key) (swp l a pivot) a
                (scanLtUp (lessK key) (swp l a pivot) a (b - 1)
                  (b - 1 + 1 - (a + 1)) (a + 1))
                (b - 1 + 1 -
                  scanLtUp (lessK key) (swp l a pivot) a (b - 1)
                    (b - 1 + 1 - (a + 1)) (a + 1))
                (b - 1) - 1)).1
              (partitionLoop (lessK key) a b
                (swp (swp l a pivot)
                  (scanLtUp (lessK key) (swp l a pivot) a (b - 1)
                    (b - 1 + 1 - (a + 1)) (a + 1))
                  (scanGeDown (lessK key) (swp l a pivot) a
                    (scanLtUp (lessK key) (swp l a pivot) a (b - 1)
                      (b - 1 + 1 - (a + 1)) (a + 1))
                    (b - 1 + 1 -
                      scanLtUp (lessK key) (swp l a pivot) a (b - 1)
                        (b - 1 + 1 - (a + 1)) (a + 1))
                    (b - 1)))
                (scanLtUp (lessK key) (swp l a pivot) a (b - 1)
                  (b - 1 + 1 - (a + 1)) (a + 1) + 1)
                (scanGeDown (lessK key) (swp l a pivot) a
                  (scanLtUp (lessK key) (swp l a pivot) a (b - 1)
                    (b - 1 + 1 - (a + 1)) (a + 1))
                  (b - 1 + 1 -
                    scanLtUp (lessK key) (swp l a pivot) a (b - 1)
                      (b - 1 + 1 - (a + 1)) (a + 1))
                  (b - 1) - 1)).2.2 a,
            (partitionLoop (lessK key) a b
              (swp (swp l a pivot)
                (scanLtUp (lessK key) (swp l a pivot) a (b - 1)
                  (b - 1 + 1 - (a + 1)) (a + 1))
                (scanGeDown (lessK key) (swp l a pivot) a
                  (scanLtUp (lessK key) (swp l a pivot) a (b - 1)
                    (b - 1 + 1 - (a + 1)) (a + 1))
                  (b - 1 + 1 -
                    scanLtUp (lessK key) (swp l a pivot) a (b - 1)
                      (b - 1 + 1 - (a + 1)) (a + 1))
                  (b - 1)))
              (scanLtUp (lessK key) (swp l a pivot) a (b - 1)
                (b - 1 + 1 - (a + 1)) (a + 1) + 1)
              (scanGeDown (lessK key) (swp l a pivot) a
                (scanLtUp (lessK key) (swp l a pivot) a (b - 1)
                  (b - 1 + 1 - (a + 1)) (a + 1))
                (b - 1 + 1 -
                  scanLtUp (lessK key) (swp l a pivot) a (b - 1)
                    (b - 1 + 1 - (a + 1)) (a + 1))
                (b - 1) - 1)).2.2, false) := rfl
  rw [hI, hJ] at heq
  have hround := partitionRound key a b (swp l a pivot) (a + 1) (b - 1) i' j' hlen1
    (le_refl (a + 1)) (by omega) (by omega)
    (fun k hk1 hk2 => absurd hk2 (by omega))
    (fun k hk1 hk2 => absurd hk2 (by omega)) hI.symm hJ.symm
  rw [heq]
  by_cases hc : i' > j'
  · rw [if_pos hc]
    obtain ⟨heq1, haj, hjb', hL, hR⟩ := hround.1 hc
    have hfin := partitionFinish key a b (swp l a pivot) j' hlen1 haj hjb' hL hR
    exact ⟨haj, hjb', rangePerm_trans hperm1 hfin.2.2, hfin.1, hfin.2.1⟩
  · rw [if_neg hc]
    obtain ⟨hlt, hii', hjj', h1', h2', h3', hfa, hL', hR', hperm2⟩ := hround.2 (by omega)
    have hloop := partitionLoop_spec key a b b (swp (swp l a pivot) i' j')
      (i' + 1) (j' - 1) (by omega) (by rw [length_swp]; exact hlen1) h1' h2' h3' hL' hR'
    obtain ⟨haj, hjb', hL, hR, hperm3⟩ := hloop
    have hlenR : b ≤ (partitionLoop (lessK key) a b (swp (swp l a pivot) i' j')
        (i' + 1) (j' - 1)).1.length := by
      rw [hperm3.1, length_swp]
      exact hlen1
    have hfin := partitionFinish key a b
      (partitionLoop (lessK key) a b (swp (swp l a pivot) i' j') (i' + 1) (j' - 1)).1
      (partitionLoop (lessK key) a b (swp (swp l a pivot) i' j') (i' + 1) (j' - 1)).2.2
      hlenR haj hjb' hL hR
    have hpermAll : RangePerm a b l (swp
        (partitionLoop (lessK key) a b (swp (swp l a pivot) i' j') (i' + 1) (j' - 1)).1
        (partitionLoop (lessK key) a b (swp (swp l a pivot) i' j') (i' + 1) (j' - 1)).2.2
        a) := by
      refine rangePerm_trans hperm1 (rangePerm_trans (rangePerm_mono hperm2 (by omega)
        (le_refl b)) (rangePerm_trans (rangePerm_mono hperm3 (by omega) (le_refl b))
        hfin.2.2))
    exact ⟨haj, hjb', hpermAll, hfin.1, hfin.2.1⟩

/-! ## `partitionEqual_func` -/

/-- One round of the `partitionEqual_func` cursor loop. -/
theorem partitionEqualRound (key : α → Int) (a b : Nat) (l : List α) (i j i' j' : Nat)
    (hlen : b ≤ l.length) (hi : a + 1 ≤ i) (hij : i ≤ j + 1) (hjb : j < b)
    (h2 : ∀ k, a < k → k < i → lessK key (geti l a) (geti l k) = false)
    (h3 : ∀ k, j < k → k < b → lessK key (geti l a) (geti l k) = true)
    (hI : i' = scanEqUp (lessK key) l a j (j + 1 - i) i)
    (hJ : j' = scanGtDown (lessK key) l a i' (j + 1 - i') j) :
    (i' > j' → a + 1 ≤ i' ∧ i' ≤ b ∧
      (∀ k, a < k → k < i' → lessK key (geti l a) (geti l k) = false) ∧
      (∀ k, i' ≤ k → k < b → lessK key (geti l a) (geti l k) = true)) ∧
    (i' ≤ j' → i' < j' ∧ i ≤ i' ∧ j' ≤ j ∧ a + 1 ≤ i' + 1 ∧
      i' + 1 ≤ (j' - 1) + 1 ∧ j' - 1 < b ∧
      (∀ k, a < k → k < i' + 1 →
        lessK key (geti (swp l i' j') a) (geti (swp l i' j') k) = false) ∧
      (∀ k, j' - 1 < k → k < b →
        lessK key (geti (swp l i' j') a) (geti (swp l i' j') k) = true) ∧
      RangePerm (a + 1) b l (swp l i' j')) := by
  have hsI := scanEqUp_spec key l a j (j + 1 - i) i (le_refl _) hij
  rw [← hI] at hsI
  have hi'1 : 1 ≤ i' := by omega
  have hsJ := scanGtDown_spec key l a i' hi'1 (j + 1 - i') j (le_refl _) (by omega)
  rw [← hJ] at hsJ
  constructor
  · intro hgt
    refine ⟨by omega, by omega, ?_, ?_⟩
    · intro k hk1 hk2
      by_cases hki : k < i
      · exact h2 k hk1 hki
      · exact hsI.2.2.1 k (by omega) (by omega)
    · intro k hk1 hk2
      by_cases hkj : k ≤ j
      · exact hsJ.2.2.1 k (by omega) hkj
      · exact h3 k (by omega) hk2
  · intro hle
    have hne : i' ≠ j' := by
      intro heq
      have ht : lessK key (geti l a) (geti l i') = true := hsI.2.2.2 (by omega)
      have hf : lessK key (geti l a) (geti l j') = false := hsJ.2.2.2 hle
      rw [heq] at ht
      rw [ht] at hf
      exact Bool.noConfusion hf
    have hlt : i' < j' := by omega
    have hi'l : i' < l.length := by omega
    have hj'l : j' < l.length := by omega
    have hfa : geti (swp l i' j') a = geti l a :=
      geti_swp_other l i' j' a (by omega) (by omega)
    refine ⟨hlt, by omega, by omega, by omega, by omega, by omega, ?_, ?_,
      rangePerm_swp (a + 1) b l i' j' (by omega) (by omega) (by omega) (by omega) hlen⟩
    · intro k hk1 hk2
      rw [hfa]
      by_cases hki : k = i'
      · subst hki
        have hg : geti (swp l k j') k = geti l j' := geti_swp_left l k j' hi'l hj'l
        rw [hg]
        exact hsJ.2.2.2 hle
      · have hg : geti (swp l i' j') k = geti l k :=
          geti_swp_other l i' j' k hki (by omega)
        rw [hg]
        by_cases hklt : k < i
        · exact h2 k hk1 hklt
        · exact hsI.2.2.1 k (by omega) (by omega)
    · intro k hk1 hk2
      rw [hfa]
      by_cases hkj : k = j'
      · subst hkj
        have hg : geti (swp l i' k) k = geti l i' := geti_swp_right l i' k hi'l hj'l
        rw [hg]
        exact hsI.2.2.2 (by omega)
      · have hg : geti (swp l i' j') k = geti l k :=
          geti_swp_other l i' j' k (by omega) hkj
        rw [hg]
        by_cases hkle : k ≤ j
        · exact hsJ.2.2.1 k (by omega) hkle
        · exact h3 k (by omega) hk2

/-- Cursor loop of `partitionEqual_func`: ends with everything below the
final `i` not greater (in `less` terms) than the pivot resident at `a`, and
everything from `i` on strictly smaller-keyed. -/
theorem partitionEqualLoop_spec (key : α → Int) (a b : Nat) :
    ∀ (fuel : Nat) (l : List α) (i j : Nat),
    j + 1 - i ≤ fuel → b ≤ l.length → a + 1 ≤ i → i ≤ j + 1 → j < b →
    (∀ k, a < k → k < i → lessK key (geti l a) (geti l k) = false) →
    (∀ k, j < k → k < b → lessK key (geti l a) (geti l k) = true) →
    a + 1 ≤ (partitionEqualLoop (lessK key) a fuel l i j).2.1 ∧
    (partitionEqualLoop (lessK key) a fuel l i j).2.1 ≤ b ∧
    (∀ k, a < k → k < (partitionEqualLoop (lessK key) a fuel l i j).2.1 →
      lessK key (geti (partitionEqualLoop (lessK key) a fuel l i j).1 a)
        (geti (partitionEqualLoop (lessK key) a fuel l i j).1 k) = false) ∧
    (∀ k, (partitionEqualLoop (lessK key) a fuel l i j).2.1 ≤ k → k < b →
      lessK key (geti (partitionEqualLoop (lessK key) a fuel l i j).1 a)
        (geti (partitionEqualLoop (lessK key) a fuel l i j).1 k) = true) ∧
    RangePerm (a + 1) b l (partitionEqualLoop (lessK key) a fuel l i j).1 := by
  intro fuel
  induction fuel with
  | zero =>
    intro l i j hfuel hlen hi hij hjb h2 h3
    have h0 : partitionEqualLoop (lessK key) a 0 l i j = (l, i, j) := rfl
    rw [h0]
    show a + 1 ≤ i ∧ i ≤ b ∧ (∀ k, a < k → k < i → _) ∧ (∀ k, i ≤ k → k < b → _) ∧ _
    exact ⟨hi, by omega, h2, fun k hk1 hk2 => h3 k (by omega) hk2,
      rangePerm_refl (a + 1) b l⟩
  | succ fuel ih =>
    intro l i j hfuel hlen hi hij hjb h2 h3
    obtain ⟨i', hI⟩ : ∃ i', scanEqUp (lessK key) l a j (j + 1 - i) i = i' := ⟨_, rfl⟩
    obtain ⟨j', hJ⟩ : ∃ j', scanGtDown (lessK key) l a i' (j + 1 - i') j = j' := ⟨_, rfl⟩
    have heq : partitionEqualLoop (lessK key) a (fuel + 1) l i j =
        if scanEqUp (lessK key) l a j (j + 1 - i) i >
            scanGtDown (lessK key) l a (scanEqUp (lessK key) l a j (j + 1 - i) i)
              (j + 1 - scanEqUp (lessK key) l a j (j + 1 - i) i) j
        then (l, scanEqUp (lessK key) l a j (j + 1 - i) i,
              scanGtDown (lessK key) l a (scanEqUp (lessK key) l a j (j + 1 - i) i)
                (j + 1 - scanEqUp (lessK key) l a j (j + 1 - i) i) j)
        else partitionEqualLoop (lessK key) a fuel
              (swp l (scanEqUp (lessK key) l a j (j + 1 - i) i)
                (scanGtDown (lessK key) l a (scanEqUp (lessK key) l a j (j + 1 - i) i)
                  (j + 1 - scanEqUp (lessK key) l a j (j + 1 - i) i) j))
              (scanEqUp (lessK key) l a j (j + 1 - i) i + 1)
              (scanGtDown (lessK key) l a (scanEqUp (lessK key) l a j (j + 1 - i) i)
                (j + 1 - scanEqUp (lessK key) l a j (j + 1 - i) i) j - 1) := rfl
    rw [hI, hJ] at heq
    rw [heq]
    have hround := partitionEqualRound key a b l i j i' j' hlen hi hij hjb h2 h3
      hI.symm hJ.symm
    by_cases hc : i' > j'
    · rw [if_pos hc]
      obtain ⟨hai, hib, hL, hR⟩ := hround.1 hc
      exact ⟨hai, hib, hL, hR, rangePerm_refl (a + 1) b l⟩
    · rw [if_neg hc]
      obtain ⟨hlt, hii', hjj', h1', h2', h3', hL', hR', hperm⟩ := hround.2 (by omega)
      have hrec := ih (swp l i' j') (i' + 1) (j' - 1) (by omega)
        (by rw [length_swp]; exact hlen) h1' h2' h3' hL' hR'
      exact ⟨hrec.1, hrec.2.1, hrec.2.2.1, hrec.2.2.2.1,
        rangePerm_trans hperm hrec.2.2.2.2⟩

/-- Go `partitionEqual_func(data, a, b, pivot)`: the returned index `mid`
lies in `(a, b]`, the slice is a rearrangement of `[a, b)` only, elements
of `[a, mid)` have keys not below the pivot's and elements of `[mid, b)`
keys strictly below it. -/
theorem partitionEqual_spec (key : α → Int) (l : List α) (a b pivot : Nat)
    (hab : a < b) (hbl : b ≤ l.length) (hpa : a ≤ pivot) (hpb : pivot < b) :
    a + 1 ≤ (partitionEqual (lessK key) l a b pivot).2 ∧
    (partitionEqual (lessK key) l a b pivot).2 ≤ b ∧
    RangePerm a b l (partitionEqual (lessK key) l a b pivot).1 ∧
    (∀ k, a ≤ k → k < (partitionEqual (lessK key) l a b pivot).2 →
      key (geti l pivot) ≤ key (geti (partitionEqual (lessK key) l a b pivot).1 k)) ∧
    (∀ k, (partitionEqual (lessK key) l a b pivot).2 ≤ k → k < b →
      key (geti (partitionEqual (lessK key) l a b pivot).1 k) < key (geti l pivot)) := by
  have hperm1 : RangePerm a b l (swp l a pivot) :=
    rangePerm_swp a b l a pivot (le_refl a) hab hpa hpb hbl
  have hlen1 : b ≤ (swp l a pivot).length := by rw [length_swp]; exact hbl
  have hpiva : geti (swp l a pivot) a = geti l pivot :=
    geti_swp_left l a pivot (by omega) (by omega)
  have heq : partitionEqual (lessK key) l a b pivot =
      ((partitionEqualLoop (lessK key) a b (swp l a pivot) (a + 1) (b - 1)).1,
       (partitionEqualLoop (lessK key) a b (swp l a pivot) (a + 1) (b - 1)).2.1) := rfl
  rw [heq]
  have hloop := partitionEqualLoop_spec key a b b (swp l a pivot) (a + 1) (b - 1)
    (by omega) hlen1 (le_refl (a + 1)) (by omega) (by omega)
    (fun k hk1 hk2 => absurd hk2 (by omega))
    (fun k hk1 hk2 => absurd hk2 (by omega))
  obtain ⟨hai, hib, hL, hR, hperm2⟩ := hloop
  have hfr : geti (partitionEqualLoop (lessK key) a b (swp l a pivot) (a + 1) (b - 1)).1 a
      = geti l pivot := by
    rw [hperm2.2.1 a (Or.inl (by omega))]
    exact hpiva
  refine ⟨hai, hib, rangePerm_trans hperm1 (rangePerm_mono hperm2 (by omega) (le_refl b)),
    ?_, ?_⟩
  · intro k hk1 hk2
    by_cases hka : k = a
    · subst hka
      rw [hfr]
    · have := hL k (by omega) hk2
      rw [hfr] at this
      exact lessK_eq_false.mp this
  · intro k hk1 hk2
    have := hR k hk1 hk2
    rw [hfr] at this
    exact lessK_eq_true.mp this

/-! ## `reverseRange_func`, `breakPatterns_func`, `choosePivot_func` -/

theorem reverseRangeLoop_rangePerm (a b : Nat) :
    ∀ (fuel : Nat) (l : List α) (i j : Nat), a ≤ i → j < b → b ≤ l.length →
    RangePerm a b l (reverseRangeLoop fuel l i j) := by
  intro fuel
  induction fuel with
  | zero =>
    intro l i j hai hjb hlen
    exact rangePerm_refl a b l
  | succ fuel ih =>
    intro l i j hai hjb hlen
    have heq : reverseRangeLoop (fuel + 1) l i j =
        if i < j then reverseRangeLoop fuel (swp l i j) (i + 1) (j - 1) else l := rfl
    rw [heq]
    by_cases hc : i < j
    · rw [if_pos hc]
      have hswap : RangePerm a b l (swp l i j) :=
        rangePerm_swp a b l i j hai (by omega) (by omega) hjb hlen
      exact rangePerm_trans hswap
        (ih (swp l i j) (i + 1) (j - 1) (by omega) (by omega)
          (by rw [length_swp]; exact hlen))
    · rw [if_neg hc]
      exact rangePerm_refl a b l

theorem reverseRange_rangePerm (l : List α) (a b : Nat) (hab : a ≤ b)
    (hb : b ≤ l.length) (hb0 : 0 < b) :
    RangePerm a b l (reverseRange l a b) :=
  reverseRangeLoop_rangePerm a b b l a (b - 1) (le_refl a) (by omega) hb

theorem foldl_preserve {β σ : Type} (P : σ → Prop) (f : σ → β → σ) :
    ∀ (xs : List β) (st : σ), (∀ s x, x ∈ xs → P s → P (f s x)) → P st →
    P (xs.foldl f st) := by
  intro xs
  induction xs with
  | nil =>
    intro st hstep hP
    exact hP
  | cons x xs ih =>
    intro st hstep hP
    exact ih (f st x) (fun s y hy hPs => hstep s y (List.mem_cons_of_mem x hy) hPs)
      (hstep st x (List.mem_cons_self x xs) hP)

theorem nextPowerOfTwo_le (n : Nat) (hn : 1 ≤ n) : nextPowerOfTwo n ≤ 2 * n := by
  unfold nextPowerOfTwo
  rw [Nat.shiftLeft_eq, one_mul, pow_succ, mul_comm]
  have := Nat.log2_self_le (by omega : n ≠ 0)
  omega

theorem breakPatterns_rangePerm (l : List α) (a b : Nat) (hb : b ≤ l.length) :
    RangePerm a b l (breakPatterns l a b) := by
  by_cases h8 : b - a ≥ 8
  · have heq : breakPatterns l a b =
        ((List.range 3).foldl
          (fun (st : Nat × List α) (i : Nat) =>
            (xorshiftNext st.1,
             swp st.2 (a + ((b - a) / 4) * 2 - 1 - 1 + i)
               (a + (if xorshiftNext st.1 % nextPowerOfTwo (b - a) ≥ b - a
                     then xorshiftNext st.1 % nextPowerOfTwo (b - a) - (b - a)
                     else xorshiftNext st.1 % nextPowerOfTwo (b - a)))))
          (b - a, l)).2 := by
      unfold breakPatterns
      rw [if_pos h8]
    rw [heq]
    have hfold := foldl_preserve (fun (st : Nat × List α) => RangePerm a b l st.2)
      (fun (st : Nat × List α) (i : Nat) =>
        (xorshiftNext st.1,
         swp st.2 (a + ((b - a) / 4) * 2 - 1 - 1 + i)
           (a + (if xorshiftNext st.1 % nextPowerOfTwo (b - a) ≥ b - a
                 then xorshiftNext st.1 % nextPowerOfTwo (b - a) - (b - a)
                 else xorshiftNext st.1 % nextPowerOfTwo (b - a)))))
      (List.range 3) (b - a, l) ?_ (rangePerm_refl a b l)
    · exact hfold
    · intro s x hx hPs
      have hx3 : x < 3 := List.mem_range.mp hx
      have hmod : nextPowerOfTwo (b - a) ≤ 2 * (b - a) := nextPowerOfTwo_le _ (by omega)
      have hmodpos : 0 < nextPowerOfTwo (b - a) := by
        unfold nextPowerOfTwo
        rw [Nat.shiftLeft_eq, one_mul]
        exact Nat.pos_pow_of_pos _ (by omega)
      have hr : xorshiftNext s.1 % nextPowerOfTwo (b - a) < nextPowerOfTwo (b - a) :=
        Nat.mod_lt _ hmodpos
      have hother : (if xorshiftNext s.1 % nextPowerOfTwo (b - a) ≥ b - a
          then xorshiftNext s.1 % nextPowerOfTwo (b - a) - (b - a)
          else xorshiftNext s.1 % nextPowerOfTwo (b - a)) < b - a := by
        split_ifs with hcase <;> omega
      have hq : (b - a) / 4 ≥ 2 := by omega
      have hq2 : ((b - a) / 4) * 2 ≤ b - a - 4 := by omega
      refine rangePerm_trans hPs ?_
      refine rangePerm_swp a b s.2 (a + ((b - a) / 4) * 2 - 1 - 1 + x) (a + _)
        (by omega) (by omega) (by omega) (by omega) (by rw [hPs.1]; exact hb)
  · have heq : breakPatterns l a b = l := by
      unfold breakPatterns
      rw [if_neg h8]
    rw [heq]
    exact rangePerm_refl a b l

theorem order2_cases (less : α → α → Bool) (l : List α) (a b s : Nat) :
    ((order2 less l a b s).1 = a ∨ (order2 less l a b s).1 = b) ∧
    ((order2 less l a b s).2.1 = a ∨ (order2 less l a b s).2.1 = b) := by
  unfold order2
  split_ifs <;> simp

theorem median_cases (less : α → α → Bool) (l : List α) (a b c s : Nat) :
    (median less l a b c s).1 = a ∨ (median less l a b c s).1 = b ∨
    (median less l a b c s).1 = c := by
  have heq : (median less l a b c s).1 =
      (order2 less l (order2 less l a b s).1
        (order2 less l (order2 less l a b s).2.1 c (order2 less l a b s).2.2).1
        (order2 less l (order2 less l a b s).2.1 c (order2 less l a b s).2.2).2.2).2.1 :=
    rfl
  rw [heq]
  have hA := order2_cases less l a b s
  have hB := order2_cases less l (order2 less l a b s).2.1 c (order2 less l a b s).2.2
  have hC := order2_cases less l (order2 less l a b s).1
    (order2 less l (order2 less l a b s).2.1 c (order2 less l a b s).2.2).1
    (order2 less l (order2 less l a b s).2.1 c (order2 less l a b s).2.2).2.2
  rcases hA with ⟨hA1 | hA1, hA2 | hA2⟩ <;> rcases hB.1 with hB1 | hB1 <;>
    rcases hC.2 with hC2 | hC2 <;> omega

theorem medianAdjacent_cases (less : α → α → Bool) (l : List α) (i s : Nat) :
    (medianAdjacent less l i s).1 = i - 1 ∨ (medianAdjacent less l i s).1 = i ∨
    (medianAdjacent less l i s).1 = i + 1 :=
  median_cases less l (i - 1) i (i + 1) s

theorem choosePivot_bounds (less : α → α → Bool) (l : List α) (a b : Nat)
    (h8 : 8 ≤ b - a) :
    a ≤ (choosePivot less l a b).1 ∧ (choosePivot less l a b).1 < b := by
  have hsplit : ∀ (st : Nat × Nat),
      ((if st.2 = 0 then ((st.1, Hint.increasing) : Nat × Hint)
        else if st.2 = 12 then (st.1, Hint.decreasing)
        else (st.1, Hint.unknown))).1 = st.1 := by
    intro st
    split_ifs <;> rfl
  have hq : (b - a) / 4 ≥ 2 := by omega
  have hq3 : ((b - a) / 4) * 3 ≤ b - a - 2 := by omega
  by_cases h50 : b - a ≥ 50
  · have heq : (choosePivot less l a b).1 =
        (median less l
          (medianAdjacent less l (a + (b - a) / 4 * 1) 0).1
          (medianAdjacent less l (a + (b - a) / 4 * 2)
            (medianAdjacent less l (a + (b - a) / 4 * 1) 0).2).1
          (medianAdjacent less l (a + (b - a) / 4 * 3)
            (medianAdjacent less l (a + (b - a) / 4 * 2)
              (medianAdjacent less l (a + (b - a) / 4 * 1) 0).2).2).1
          (medianAdjacent less l (a + (b - a) / 4 * 3)
            (medianAdjacent less l (a + (b - a) / 4 * 2)
              (medianAdjacent less l (a + (b - a) / 4 * 1) 0).2).2).2).1 := by
      simp only [choosePivot]
      rw [if_pos (show b - a ≥ 8 from h8), if_pos (show b - a ≥ 50 from h50), hsplit]
    rw [heq]
    have h1 := medianAdjacent_cases less l (a + (b - a) / 4 * 1) 0
    have h2 := medianAdjacent_cases less l (a + (b - a) / 4 * 2)
      (medianAdjacent less l (a + (b - a) / 4 * 1) 0).2
    have h3 := medianAdjacent_cases less l (a + (b - a) / 4 * 3)
      (medianAdjacent less l (a + (b - a) / 4 * 2)
        (medianAdjacent less l (a + (b - a) / 4 * 1) 0).2).2
    have hm := median_cases less l
      (medianAdjacent less l (a + (b - a) / 4 * 1) 0).1
      (medianAdjacent less l (a + (b - a) / 4 * 2)
        (medianAdjacent less l (a + (b - a) / 4 * 1) 0).2).1
      (medianAdjacent less l (a + (b - a) / 4 * 3)
        (medianAdjacent less l (a + (b - a) / 4 * 2)
          (medianAdjacent less l (a + (b - a) / 4 * 1) 0).2).2).1
      (medianAdjacent less l (a + (b - a) / 4 * 3)
        (medianAdjacent less l (a + (b - a) / 4 * 2)
          (medianAdjacent less l (a + (b - a) / 4 * 1) 0).2).2).2
    rcases h1 with h1 | h1 | h1 <;> rcases h2 with h2 | h2 | h2 <;>
      rcases h3 with h3 | h3 | h3 <;> rcases hm with hm | hm | hm <;> omega
  · have heq : (choosePivot less l a b).1 =
        (median less l (a + (b - a) / 4 * 1) (a + (b - a) / 4 * 2)
          (a + (b - a) / 4 * 3) 0).1 := by
      simp only [choosePivot]
      rw [if_pos (show b - a ≥ 8 from h8), if_neg (show ¬b - a ≥ 50 from h50), hsplit]
    rw [heq]
    have hm := median_cases less l (a + (b - a) / 4 * 1) (a + (b - a) / 4 * 2)
      (a + (b - a) / 4 * 3) 0
    rcases hm with hm | hm | hm <;> omega

/-! ## `partialInsertionSort_func` -/

/-- A sorted range's keys decrease along indices (transitive closure of the
adjacent pairs). -/
theorem sortedRange_mono (key : α → Int) (l : List α) (a b : Nat)
    (h : SortedRange key l a b) :
    ∀ d k1 k2, a ≤ k1 → k1 ≤ k2 → k2 < b → k2 - k1 = d →
    key (geti l k2) ≤ key (geti l k1) := by
  intro d
  induction d with
  | zero =>
    intro k1 k2 h1 h12 h2 hd
    have : k1 = k2 := by omega
    rw [this]
  | succ d ih =>
    intro k1 k2 h1 h12 h2 hd
    have hstep : key (geti l k2) ≤ key (geti l (k2 - 1)) := h k2 (by omega) h2
    exact le_trans hstep (ih k1 (k2 - 1) h1 (by omega) (by omega) (by omega))

/-- Left-shift loop of `partialInsertionSort_func`: inserts the element at
`j0` into the sorted prefix `[a, j0)`.  The shift cannot cross below `a`:
either `a = 0` and the `j >= 1` guard stops it, or the sentinel bound
(`hup`) makes the comparison at `a` fail. -/
theorem partShiftLeft_spec (key : α → Int) (a : Nat) :
    ∀ (j0 : Nat) (l : List α), j0 < l.length → a ≤ j0 →
    (∀ k, a < k → k < j0 → key (geti l k) ≤ key (geti l (k - 1))) →
    (0 < a → ∀ k, a ≤ k → k ≤ j0 → key (geti l k) ≤ key (geti l (a - 1))) →
    SortedRange key (partShiftLeft (lessK key) l j0) a (j0 + 1) ∧
    RangePerm a (j0 + 1) l (partShiftLeft (lessK key) l j0) := by
  intro j0
  induction j0 with
  | zero =>
    intro l hlen ha hsorted hup
    have h0 : partShiftLeft (lessK key) l 0 = l := rfl
    rw [h0]
    exact ⟨fun k hk1 hk2 => by omega, rangePerm_refl a 1 l⟩
  | succ j ih =>
    intro l hlen ha hsorted hup
    have heq : partShiftLeft (lessK key) l (j + 1) =
        if lessK key (geti l (j + 1)) (geti l j) = false then l
        else partShiftLeft (lessK key) (swp l (j + 1) j) j := rfl
    rw [heq]
    by_cases hc : lessK key (geti l (j + 1)) (geti l j) = false
    · rw [if_pos hc]
      refine ⟨?_, rangePerm_refl a (j + 2) l⟩
      intro k hk1 hk2
      by_cases hkj : k = j + 1
      · subst hkj
        exact lessK_eq_false.mp hc
      · exact hsorted k hk1 (by omega)
    · rw [if_neg hc]
      have hlt : key (geti l j) < key (geti l (j + 1)) :=
        lessK_eq_true.mp (Bool.not_eq_false _ |>.mp hc)
      have haj : a ≤ j := by
        by_contra hja
        have haeq : a = j + 1 := by omega
        have hbound := hup (by omega) (j + 1) (by omega) (le_refl _)
        rw [haeq] at hbound
        simp only [Nat.add_sub_cancel] at hbound
        omega
      have hsorted' : ∀ k, a < k → k < j →
          key (geti (swp l (j + 1) j) k) ≤ key (geti (swp l (j + 1) j) (k - 1)) := by
        intro k hk1 hk2
        have h1 : geti (swp l (j + 1) j) k = geti l k :=
          geti_swp_other l (j + 1) j k (by omega) (by omega)
        have h2 : geti (swp l (j + 1) j) (k - 1) = geti l (k - 1) :=
          geti_swp_other l (j + 1) j (k - 1) (by omega) (by omega)
        rw [h1, h2]
        exact hsorted k hk1 (by omega)
      have hup' : 0 < a → ∀ k, a ≤ k → k ≤ j →
          key (geti (swp l (j + 1) j) k) ≤ key (geti (swp l (j + 1) j) (a - 1)) := by
        intro ha0 k hk1 hk2
        have hfr : geti (swp l (j + 1) j) (a - 1) = geti l (a - 1) :=
          geti_swp_other l (j + 1) j (a - 1) (by omega) (by omega)
        rw [hfr]
        by_cases hkj : k = j
        · rw [hkj]
          have hmv : geti (swp l (j + 1) j) j = geti l (j + 1) :=
            geti_swp_right l (j + 1) j hlen (by omega)
          rw [hmv]
          exact hup ha0 (j + 1) (by omega) (le_refl _)
        · have hot : geti (swp l (j + 1) j) k = geti l k :=
            geti_swp_other l (j + 1) j k (by omega) hkj
          rw [hot]
          exact hup ha0 k hk1 (by omega)
      have hrec := ih (swp l (j + 1) j) (by rw [length_swp]; omega) haj hsorted' hup'
      have hswapperm : RangePerm a (j + 2) l (swp l (j + 1) j) :=
        rangePerm_swp a (j + 2) l (j + 1) j (by omega) (by omega) haj (by omega) hlen
      refine ⟨?_, rangePerm_trans hswapperm
        (rangePerm_mono hrec.2 (le_refl a) (by omega))⟩
      intro k hk1 hk2
      by_cases hkj : k = j + 1
      · subst hkj
        have hidx : geti (partShiftLeft (lessK key) (swp l (j + 1) j) j) (j + 1 - 1) =
            geti (partShiftLeft (lessK key) (swp l (j + 1) j) j) j := rfl
        have hfr1 : geti (partShiftLeft (lessK key) (swp l (j + 1) j) j) (j + 1) =
            geti (swp l (j + 1) j) (j + 1) := hrec.2.2.1 (j + 1) (Or.inr (le_refl _))
        have hmv : geti (swp l (j + 1) j) (j + 1) = geti l j :=
          geti_swp_left l (j + 1) j hlen (by omega)
        rw [hidx, hfr1, hmv]
        have hmem : geti (partShiftLeft (lessK key) (swp l (j + 1) j) j) j ∈
            extract (partShiftLeft (lessK key) (swp l (j + 1) j) j) a (j + 1) := by
          refine geti_mem_extract _ haj (by omega) ?_
          rw [hrec.2.1, length_swp]
          omega
        have hmem' := (rangePerm_extract_perm hrec.2
          (by rw [length_swp]; omega) (by omega)).mem_iff.mp hmem
        obtain ⟨m, hm1, hm2, hm3⟩ := mem_extract_geti (swp l (j + 1) j)
          (by rw [length_swp]; omega) hmem'
        rw [hm3]
        by_cases hmj : m = j
        · rw [hmj]
          have hmv2 : geti (swp l (j + 1) j) j = geti l (j + 1) :=
            geti_swp_right l (j + 1) j hlen (by omega)
          rw [hmv2]
          exact le_of_lt hlt
        · have hot : geti (swp l (j + 1) j) m = geti l m :=
            geti_swp_other l (j + 1) j m (by omega) hmj
          rw [hot]
          exact sortedRange_mono key l a (j + 1) hsorted (j - m) m j hm1
            (by omega) (by omega) rfl
      · exact hrec.1 k hk1 (by omega)

/-- Right-shift loop of `partialInsertionSort_func`: it only touches
positions in `[lo, b)` when started at `j ≥ lo + 1`. -/
theorem partShiftRight_spec (key : α → Int) (lo b : Nat) :
    ∀ (fuel : Nat) (l : List α) (j : Nat), lo + 1 ≤ j → b ≤ l.length →
    RangePerm lo b l (partShiftRight (lessK key) b fuel l j) := by
  intro fuel
  induction fuel with
  | zero =>
    intro l j hj hlen
    exact rangePerm_refl lo b l
  | succ fuel ih =>
    intro l j hj hlen
    have heq : partShiftRight (lessK key) b (fuel + 1) l j =
        if j < b then
          if lessK key (geti l j) (geti l (j - 1)) = false then l
          else partShiftRight (lessK key) b fuel (swp l j (j - 1)) (j + 1)
        else l := rfl
    rw [heq]
    by_cases hjb : j < b
    · rw [if_pos hjb]
      by_cases hc : lessK key (geti l j) (geti l (j - 1)) = false
      · rw [if_pos hc]
        exact rangePerm_refl lo b l
      · rw [if_neg hc]
        have hswap : RangePerm lo b l (swp l j (j - 1)) :=
          rangePerm_swp lo b l j (j - 1) (by omega) hjb (by omega) (by omega) hlen
        exact rangePerm_trans hswap
          (ih (swp l j (j - 1)) (j + 1) (by omega) (by rw [length_swp]; exact hlen))
    · rw [if_neg hjb]
      exact rangePerm_refl lo b l

/-- Outer loop of `partialInsertionSort_func`: under the sentinel invariant,
a `true` result means the whole range ended up sorted, and the slice is only
rearranged inside `[a, b)`. -/
theorem partInsertionLoop_spec (key : α → Int) (a b : Nat) (hab : a < b) :
    ∀ (steps : Nat) (l : List α) (i : Nat),
    b ≤ l.length → a + 1 ≤ i → i ≤ b →
    SortedRange key l a i →
    LoSentinel key l a b →
    ((partInsertionLoop (lessK key) a b steps l i).2 = true →
      SortedRange key (partInsertionLoop (lessK key) a b steps l i).1 a b) ∧
    RangePerm a b l (partInsertionLoop (lessK key) a b steps l i).1 := by
  intro steps
  induction steps with
  | zero =>
    intro l i hlen hi hib hsorted hsent
    have h0 : partInsertionLoop (lessK key) a b 0 l i = (l, false) := rfl
    rw [h0]
    exact ⟨fun h => Bool.noConfusion h, rangePerm_refl a b l⟩
  | succ steps ih =>
    intro l i hlen hi hib hsorted hsent
    obtain ⟨i', hI⟩ : ∃ i', partScan (lessK key) l b (b - i) i = i' := ⟨_, rfl⟩
    have hscan := partScan_spec key l b (b - i) i (le_refl _) hib
    rw [hI] at hscan
    have heq : partInsertionLoop (lessK key) a b (steps + 1) l i =
        if partScan (lessK key) l b (b - i) i = b
        then (l, true)
        else if b - a < 50 then (l, false)
        else partInsertionLoop (lessK key) a b steps
          (if b - (partScan (lessK key) l b (b - i) i) ≥ 2 then
            partShiftRight (lessK key) b (b - (partScan (lessK key) l b (b - i) i + 1))
              (if (partScan (lessK key) l b (b - i) i) - a ≥ 2 then
                partShiftLeft (lessK key)
                  (swp l (partScan (lessK key) l b (b - i) i)
                    (partScan (lessK key) l b (b - i) i - 1))
                  (partScan (lessK key) l b (b - i) i - 1)
              else swp l (partScan (lessK key) l b (b - i) i)
                (partScan (lessK key) l b (b - i) i - 1))
              (partScan (lessK key) l b (b - i) i + 1)
           else
            (if (partScan (lessK key) l b (b - i) i) - a ≥ 2 then
              partShiftLeft (lessK key)
                (swp l (partScan (lessK key) l b (b - i) i)
                  (partScan (lessK key) l b (b - i) i - 1))
                (partScan (lessK key) l b (b - i) i - 1)
            else swp l (partScan (lessK key) l b (b - i) i)
              (partScan (lessK key) l b (b - i) i - 1)))
          (partScan (lessK key) l b (b - i) i) := rfl
    rw [hI] at heq
    rw [heq]
    have hpairs : SortedRange key l a i' := by
      intro k hk1 hk2
      by_cases hki : k < i
      · exact hsorted k hk1 hki
      · exact lessK_eq_false.mp (hscan.2.2.1 k (by omega) (by omega))
    by_cases hcb : i' = b
    · rw [if_pos hcb]
      refine ⟨fun _ => ?_, rangePerm_refl a b l⟩
      rw [← hcb]
      exact hpairs
    · rw [if_neg hcb]
      by_cases hshort : b - a < 50
      · rw [if_pos hshort]
        exact ⟨fun h => Bool.noConfusion h, rangePerm_refl a b l⟩
      · rw [if_neg hshort]
        have hib' : i' < b := by omega
        have hviol : key (geti l (i' - 1)) < key (geti l i') :=
          lessK_eq_true.mp (hscan.2.2.2 hib')
        have hswapperm : RangePerm a b l (swp l i' (i' - 1)) :=
          rangePerm_swp a b l i' (i' - 1) (by omega) hib' (by omega) (by omega) hlen
        obtain ⟨l2, hL2⟩ : ∃ l2, (if i' - a ≥ 2 then
            partShiftLeft (lessK key) (swp l i' (i' - 1)) (i' - 1)
          else swp l i' (i' - 1)) = l2 := ⟨_, rfl⟩
        have hl2 : SortedRange key l2 a i' ∧ RangePerm a b l l2 := by
          by_cases hcl : i' - a ≥ 2
          · rw [if_pos hcl] at hL2
            have hsl := partShiftLeft_spec key a (i' - 1) (swp l i' (i' - 1))
              (by rw [length_swp]; omega) (by omega)
              ?_ ?_
            · rw [← hL2]
              constructor
              · have hconv := hsl.1
                rw [show i' - 1 + 1 = i' by omega] at hconv
                exact hconv
              · exact rangePerm_trans hswapperm
                  (rangePerm_mono hsl.2 (le_refl a) (by omega))
            · intro k hk1 hk2
              have h1 : geti (swp l i' (i' - 1)) k = geti l k :=
                geti_swp_other l i' (i' - 1) k (by omega) (by omega)
              have h2 : geti (swp l i' (i' - 1)) (k - 1) = geti l (k - 1) :=
                geti_swp_other l i' (i' - 1) (k - 1) (by omega) (by omega)
              rw [h1, h2]
              exact hpairs k hk1 (by omega)
            · intro ha0 k hk1 hk2
              have hfr : geti (swp l i' (i' - 1)) (a - 1) = geti l (a - 1) :=
                geti_swp_other l i' (i' - 1) (a - 1) (by omega) (by omega)
              rw [hfr]
              by_cases hki : k = i' - 1
              · have hmv : geti (swp l i' (i' - 1)) (i' - 1) = geti l i' :=
                  geti_swp_right l i' (i' - 1) (by omega) (by omega)
                rw [hki, hmv]
                exact hsent ha0 (geti l i') (geti_mem_extract l (by omega) hib' hlen)
              · have hot : geti (swp l i' (i' - 1)) k = geti l k :=
                  geti_swp_other l i' (i' - 1) k (by omega) hki
                rw [hot]
                exact hsent ha0 (geti l k) (geti_mem_extract l (by omega) (by omega) hlen)
          · rw [if_neg hcl] at hL2
            rw [← hL2]
            have hieq : i' = a + 1 := by omega
            refine ⟨?_, hswapperm⟩
            intro k hk1 hk2
            omega
        obtain ⟨l3, hL3⟩ : ∃ l3, (if b - i' ≥ 2 then
            partShiftRight (lessK key) b (b - (i' + 1)) l2 (i' + 1)
          else l2) = l3 := ⟨_, rfl⟩
        have hl3 : SortedRange key l3 a i' ∧ RangePerm a b l l3 := by
          by_cases hcr : b - i' ≥ 2
          · rw [if_pos hcr] at hL3
            have hsr := partShiftRight_spec key i' b (b - (i' + 1)) l2 (i' + 1)
              (le_refl _) (by rw [hl2.2.1.symm] at hlen; exact hlen)
            rw [← hL3]
            constructor
            · intro k hk1 hk2
              have h1 : geti (partShiftRight (lessK key) b (b - (i' + 1)) l2 (i' + 1)) k
                  = geti l2 k := hsr.2.1 k (Or.inl (by omega))
              have h2 : geti (partShiftRight (lessK key) b (b - (i' + 1)) l2 (i' + 1))
                  (k - 1) = geti l2 (k - 1) := hsr.2.1 (k - 1) (Or.inl (by omega))
              rw [h1, h2]
              exact hl2.1 k hk1 hk2
            · exact rangePerm_trans hl2.2 (rangePerm_mono hsr (by omega) (le_refl b))
          · rw [if_neg hcr] at hL3
            rw [← hL3]
            exact hl2
        rw [hL2, hL3]
        have hrec := ih l3 i' (by rw [hl3.2.1]; exact hlen) (by omega) (by omega)
          hl3.1 (loSentinel_of_rangePerm key hl3.2 hlen (by omega) hsent)
        exact ⟨hrec.1, rangePerm_trans hl3.2 hrec.2⟩

/-- Go `partialInsertionSort_func(data, a, b)`: a `true` result means the
range is sorted; the slice is only rearranged inside `[a, b)`. -/
theorem partInsertionSort_spec (key : α → Int) (l : List α) (a b : Nat)
    (hab : a < b) (hbl : b ≤ l.length) (hsent : LoSentinel key l a b) :
    ((partInsertionSort (lessK key) l a b).2 = true →
      SortedRange key (partInsertionSort (lessK key) l a b).1 a b) ∧
    RangePerm a b l (partInsertionSort (lessK key) l a b).1 := by
  have heq : partInsertionSort (lessK key) l a b =
      partInsertionLoop (lessK key) a b 5 l (a + 1) := rfl
  rw [heq]
  exact partInsertionLoop_spec key a b hab 5 l (a + 1) hbl (le_refl _) (by omega)
    (fun k hk1 hk2 => by omega) hsent

/-! ## `pdqsort_func` -/

/-- The staged body is definitionally the loop body. -/
theorem pdqsortLoop_unfold (less : α → α → Bool) (fuel : Nat) (l : List α)
    (a b limit : Nat) (wb wp : Bool) :
    pdqsortLoop less (fuel + 1) l a b limit wb wp =
    pdqBody less (pdqsortLoop less fuel) l a b limit wb wp := rfl

theorem loSentinel_sub (key : α → Int) (l : List α) (a b b' : Nat)
    (hsub : b' ≤ b) (hbl : b ≤ l.length) (hs : LoSentinel key l a b) :
    LoSentinel key l a b' := by
  intro ha x hx
  obtain ⟨k, hk1, hk2, hk3⟩ := mem_extract_geti l (by omega : b' ≤ l.length) hx
  rw [hk3]
  exact hs ha (geti l k) (geti_mem_extract l hk1 (by omega) hbl)

/-- Gluing after `partitionEqual`: the left block is constant at the pivot
key, so sorting the right block sorts the whole range. -/
theorem pdq_glue_equal (key : α → Int) (a b mid : Nat) (pivKey : Int)
    (l0 lp l2 : List α)
    (hamid : a + 1 ≤ mid) (hmidb : mid ≤ b) (hb : b ≤ lp.length)
    (hperm0 : RangePerm a b l0 lp)
    (hLeft : ∀ k, a ≤ k → k < mid → key (geti lp k) = pivKey)
    (hRight : ∀ k, mid ≤ k → k < b → key (geti lp k) < pivKey)
    (hs2 : SortedRange key l2 mid b) (hp2 : RangePerm mid b lp l2) :
    SortedRange key l2 a b ∧ RangePerm a b l0 l2 := by
  constructor
  · intro k hk1 hk2
    by_cases hkm : k < mid
    · have h1 : geti l2 k = geti lp k := hp2.2.1 k (Or.inl hkm)
      have h2 : geti l2 (k - 1) = geti lp (k - 1) := hp2.2.1 (k - 1) (Or.inl (by omega))
      rw [h1, h2, hLeft k (by omega) hkm, hLeft (k - 1) (by omega) (by omega)]
    · by_cases hkm2 : k = mid
      · subst hkm2
        have h2 : geti l2 (k - 1) = geti lp (k - 1) := hp2.2.1 (k - 1) (Or.inl (by omega))
        have hmem : geti l2 k ∈ extract l2 k b :=
          geti_mem_extract l2 (le_refl k) hk2 (by rw [hp2.1]; exact hb)
        have hmem' := (rangePerm_extract_perm hp2 hb (by omega)).mem_iff.mp hmem
        obtain ⟨m, hm1, hm2, hm3⟩ := mem_extract_geti lp hb hmem'
        rw [hm3, h2, hLeft (k - 1) (by omega) (by omega)]
        exact le_of_lt (hRight m hm1 hm2)
      · exact hs2 k (by omega) hk2
  · exact rangePerm_trans hperm0 (rangePerm_mono hp2 (by omega) (le_refl b))

/-- Gluing after `partition` when the left half is sorted first. -/
theorem pdq_glue_left (key : α → Int) (a b mid : Nat) (l0 lp l1 l2 : List α)
    (hamid : a ≤ mid) (hmidb : mid < b) (hb : b ≤ lp.length)
    (hperm0 : RangePerm a b l0 lp)
    (hLeft : ∀ k, a ≤ k → k < mid → key (geti lp mid) < key (geti lp k))
    (hRight : ∀ k, mid < k → k < b → key (geti lp k) ≤ key (geti lp mid))
    (hs1 : SortedRange key l1 a mid) (hp1 : RangePerm a mid lp l1)
    (hs2 : SortedRange key l2 (mid + 1) b) (hp2 : RangePerm (mid + 1) b l1 l2) :
    SortedRange key l2 a b ∧ RangePerm a b l0 l2 := by
  have hlen1 : l1.length = lp.length := hp1.1
  have hmidval : geti l2 mid = geti lp mid := by
    rw [hp2.2.1 mid (Or.inl (by omega)), hp1.2.1 mid (Or.inr (le_refl mid))]
  constructor
  · intro k hk1 hk2
    by_cases hkm : k < mid
    · rw [hp2.2.1 k (Or.inl (by omega)), hp2.2.1 (k - 1) (Or.inl (by omega))]
      exact hs1 k hk1 hkm
    · by_cases hkm2 : k = mid
      · subst hkm2
        rw [hmidval]
        have hfr : geti l2 (k - 1) = geti l1 (k - 1) := hp2.2.1 (k - 1) (Or.inl (by omega))
        rw [hfr]
        have hmem : geti l1 (k - 1) ∈ extract l1 a k :=
          geti_mem_extract l1 (by omega) (by omega) (by rw [hlen1]; omega)
        have hmem' := (rangePerm_extract_perm hp1 (by omega) hamid).mem_iff.mp hmem
        obtain ⟨m, hm1, hm2, hm3⟩ := mem_extract_geti lp (by omega) hmem'
        rw [hm3]
        exact le_of_lt (hLeft m hm1 hm2)
      · by_cases hkm3 : k = mid + 1
        · subst hkm3
          have hidx : geti l2 (mid + 1 - 1) = geti l2 mid := rfl
          rw [hidx, hmidval]
          have hmem : geti l2 (mid + 1) ∈ extract l2 (mid + 1) b :=
            geti_mem_extract l2 (le_refl _) (by omega)
              (by rw [hp2.1, hlen1]; exact hb)
          have hmem' := (rangePerm_extract_perm hp2 (by rw [hlen1]; exact hb)
            (by omega)).mem_iff.mp hmem
          obtain ⟨m, hm1, hm2, hm3⟩ := mem_extract_geti l1 (by rw [hlen1]; exact hb) hmem'
          rw [hm3]
          have hfr2 : geti l1 m = geti lp m := hp1.2.1 m (Or.inr (by omega))
          rw [hfr2]
          exact hRight m (by omega) hm2
        · exact hs2 k (by omega) hk2
  · exact rangePerm_trans hperm0 (rangePerm_trans
      (rangePerm_mono hp1 (le_refl a) (by omega))
      (rangePerm_mono hp2 (by omega) (le_refl b)))

/-- Gluing after `partition` when the right half is sorted first. -/
theorem pdq_glue_right (key : α → Int) (a b mid : Nat) (l0 lp l1 l2 : List α)
    (hamid : a ≤ mid) (hmidb : mid < b) (hb : b ≤ lp.length)
    (hperm0 : RangePerm a b l0 lp)
    (hLeft : ∀ k, a ≤ k → k < mid → key (geti lp mid) < key (geti lp k))
    (hRight : ∀ k, mid < k → k < b → key (geti lp k) ≤ key (geti lp mid))
    (hs1 : SortedRange key l1 (mid + 1) b) (hp1 : RangePerm (mid + 1) b lp l1)
    (hs2 : SortedRange key l2 a mid) (hp2 : RangePerm a mid l1 l2) :
    SortedRange key l2 a b ∧ RangePerm a b l0 l2 := by
  have hlen1 : l1.length = lp.length := hp1.1
  have hmidval : geti l2 mid = geti lp mid := by
    rw [hp2.2.1 mid (Or.inr (le_refl mid)), hp1.2.1 mid (Or.inl (by omega))]
  constructor
  · intro k hk1 hk2
    by_cases hkm : k < mid
    · exact hs2 k hk1 hkm
    · by_cases hkm2 : k = mid
      · subst hkm2
        rw [hmidval]
        have hmem : geti l2 (k - 1) ∈ extract l2 a k :=
          geti_mem_extract l2 (by omega) (by omega)
            (by rw [hp2.1, hlen1]; omega)
        have hmem' := (rangePerm_extract_perm hp2 (by rw [hlen1]; omega)
          (by omega)).mem_iff.mp hmem
        obtain ⟨m, hm1, hm2, hm3⟩ := mem_extract_geti l1 (by rw [hlen1]; omega) hmem'
        have hfr2 : geti l1 m = geti lp m := hp1.2.1 m (Or.inl (by omega))
        rw [hm3, hfr2]
        exact le_of_lt (hLeft m hm1 hm2)
      · by_cases hkm3 : k = mid + 1
        · subst hkm3
          have hidx : geti l2 (mid + 1 - 1) = geti l2 mid := rfl
          rw [hidx, hmidval]
          have hfr : geti l2 (mid + 1) = geti l1 (mid + 1) :=
            hp2.2.1 (mid + 1) (Or.inr (by omega))
          rw [hfr]
          have hmem : geti l1 (mid + 1) ∈ extract l1 (mid + 1) b :=
            geti_mem_extract l1 (le_refl _) (by omega) (by rw [hlen1]; exact hb)
          have hmem' := (rangePerm_extract_perm hp1 hb (by omega)).mem_iff.mp hmem
          obtain ⟨m, hm1, hm2, hm3⟩ := mem_extract_geti lp hb hmem'
          rw [hm3]
          exact hRight m (by omega) hm2
        · have hfa : geti l2 k = geti l1 k := hp2.2.1 k (Or.inr (by omega))
          have hfb : geti l2 (k - 1) = geti l1 (k - 1) := hp2.2.1 (k - 1) (Or.inr (by omega))
          rw [hfa, hfb]
          exact hs1 k (by omega) hk2
  · exact rangePerm_trans hperm0 (rangePerm_trans
      (rangePerm_mono hp1 (by omega) (le_refl b))
      (rangePerm_mono hp2 (le_refl a) (by omega)))

/-- Correctness of `pdqStage4` (the partitioning tail of `pdqsort_func`),
assuming the abstracted recursive call `rec` is correct on strictly smaller
ranges. -/
theorem pdqStage4_spec (key : α → Int)
    (rec : List α → Nat → Nat → Nat → Bool → Bool → List α)
    (l : List α) (a b limit pivot : Nat) (wb wp : Bool)
    (hrec : ∀ (l' : List α) (a' b' limit' : Nat) (wb' wp' : Bool),
      b' - a' < b - a → b' ≤ l'.length → LoSentinel key l' a' b' →
      SortedRange key (rec l' a' b' limit' wb' wp') a' b' ∧
      RangePerm a' b' l' (rec l' a' b' limit' wb' wp'))
    (hab : a < b) (hbl : b ≤ l.length) (hpa : a ≤ pivot) (hpb : pivot < b)
    (hsent : LoSentinel key l a b) :
    SortedRange key (pdqStage4 (lessK key) rec l a b limit pivot wb wp) a b ∧
    RangePerm a b l (pdqStage4 (lessK key) rec l a b limit pivot wb wp) := by
  by_cases hc : 0 < a ∧ lessK key (geti l (a - 1)) (geti l pivot) = false
  · obtain ⟨lp, hlp⟩ : ∃ x, (partitionEqual (lessK key) l a b pivot).1 = x := ⟨_, rfl⟩
    obtain ⟨mid, hmid⟩ : ∃ x, (partitionEqual (lessK key) l a b pivot).2 = x := ⟨_, rfl⟩
    have heq0 : pdqStage4 (lessK key) rec l a b limit pivot wb wp =
        rec lp mid b limit wb wp := by
      rw [← hlp, ← hmid]
      unfold pdqStage4
      rw [if_pos hc]
    rw [heq0]
    have hpe := partitionEqual_spec key l a b pivot hab hbl hpa hpb
    rw [hlp, hmid] at hpe
    obtain ⟨hmid1, hmid2, hperm, hL, hR⟩ := hpe
    have hlplen : b ≤ lp.length := by rw [hperm.1]; exact hbl
    have hub : ∀ x ∈ extract l a b, key x ≤ key (geti l pivot) := by
      intro x hx
      exact le_trans (hsent hc.1 x hx) (lessK_eq_false.mp hc.2)
    have hLeft : ∀ k, a ≤ k → k < mid → key (geti lp k) = key (geti l pivot) := by
      intro k hk1 hk2
      refine le_antisymm ?_ (hL k hk1 hk2)
      have hmm : geti lp k ∈ extract lp a b :=
        geti_mem_extract lp hk1 (by omega) hlplen
      exact hub _ ((rangePerm_extract_perm hperm hbl (by omega)).mem_iff.mp hmm)
    have hsent2 : LoSentinel key lp mid b := by
      intro h0 x hx
      obtain ⟨k, hk1, hk2, hk3⟩ := mem_extract_geti lp hlplen hx
      rw [hk3]
      have hmv : key (geti lp (mid - 1)) = key (geti l pivot) :=
        hLeft (mid - 1) (by omega) (by omega)
      rw [hmv]
      exact le_of_lt (hR k (by omega) hk2)
    have hrec2 := hrec lp mid b limit wb wp (by omega) hlplen hsent2
    exact pdq_glue_equal key a b mid (key (geti l pivot)) l lp
      (rec lp mid b limit wb wp) hmid1 hmid2 hlplen hperm hLeft hR
      hrec2.1 hrec2.2
  · obtain ⟨lp, hlp⟩ : ∃ x, (partition (lessK key) l a b pivot).1 = x := ⟨_, rfl⟩
    obtain ⟨mid, hmid⟩ : ∃ x, (partition (lessK key) l a b pivot).2.1 = x := ⟨_, rfl⟩
    have heq0 : pdqStage4 (lessK key) rec l a b limit pivot wb wp =
        (if mid - a < b - mid then
          rec (rec lp a mid limit true true) (mid + 1) b limit
            (decide (min (mid - a) (b - mid) ≥ (b - a) / 8))
            (partition (lessK key) l a b pivot).2.2
        else
          rec (rec lp (mid + 1) b limit true true) a mid limit
            (decide (min (mid - a) (b - mid) ≥ (b - a) / 8))
            (partition (lessK key) l a b pivot).2.2) := by
      rw [← hlp, ← hmid]
      unfold pdqStage4
      rw [if_neg hc]
    rw [heq0]
    have hpr := partition_spec key l a b pivot hab hbl hpa hpb
    rw [hlp, hmid] at hpr
    obtain ⟨hm1, hm2, hperm, hL, hR⟩ := hpr
    have hlplen : b ≤ lp.length := by rw [hperm.1]; exact hbl
    have hsentP : LoSentinel key lp a b :=
      loSentinel_of_rangePerm key hperm hbl (by omega) hsent
    by_cases hside : mid - a < b - mid
    · rw [if_pos hside]
      have hsent1 : LoSentinel key lp a mid :=
        loSentinel_sub key lp a b mid (by omega) hlplen hsentP
      have hrec1 := hrec lp a mid limit true true (by omega) (by omega) hsent1
      have hl1len : b ≤ (rec lp a mid limit true true).length := by
        rw [hrec1.2.1]
        exact hlplen
      have hsent2 : LoSentinel key (rec lp a mid limit true true) (mid + 1) b := by
        intro h0 x hx
        obtain ⟨k, hk1, hk2, hk3⟩ := mem_extract_geti _ hl1len hx
        rw [hk3]
        have hidx : geti (rec lp a mid limit true true) (mid + 1 - 1) =
            geti (rec lp a mid limit true true) mid := rfl
        have hfrm : geti (rec lp a mid limit true true) mid = geti lp mid :=
          hrec1.2.2.1 mid (Or.inr (le_refl mid))
        have hfrk : geti (rec lp a mid limit true true) k = geti lp k :=
          hrec1.2.2.1 k (Or.inr (by omega))
        rw [hidx, hfrm, hfrk]
        exact hR k (by omega) hk2
      have hrec2 := hrec (rec lp a mid limit true true) (mid + 1) b limit
        (decide (min (mid - a) (b - mid) ≥ (b - a) / 8))
        (partition (lessK key) l a b pivot).2.2 (by omega) hl1len hsent2
      exact pdq_glue_left key a b mid l lp (rec lp a mid limit true true) _
        hm1 hm2 hlplen hperm hL hR hrec1.1 hrec1.2 hrec2.1 hrec2.2
    · rw [if_neg hside]
      have hsent1 : LoSentinel key lp (mid + 1) b := by
        intro h0 x hx
        obtain ⟨k, hk1, hk2, hk3⟩ := mem_extract_geti lp hlplen hx
        rw [hk3]
        have hidx : geti lp (mid + 1 - 1) = geti lp mid := rfl
        rw [hidx]
        exact hR k (by omega) hk2
      have hrec1 := hrec lp (mid + 1) b limit true true (by omega) hlplen hsent1
      have hl1len : b ≤ (rec lp (mid + 1) b limit true true).length := by
        rw [hrec1.2.1]
        exact hlplen
      have hsent2 : LoSentinel key (rec lp (mid + 1) b limit true true) a mid := by
        intro h0 x hx
        obtain ⟨k, hk1, hk2, hk3⟩ := mem_extract_geti _ (by omega : mid ≤ _) hx
        rw [hk3]
        have hfrk : geti (rec lp (mid + 1) b limit true true) k = geti lp k :=
          hrec1.2.2.1 k (Or.inl (by omega))
        have hfra : geti (rec lp (mid + 1) b limit true true) (a - 1) =
            geti lp (a - 1) := hrec1.2.2.1 (a - 1) (Or.inl (by omega))
        rw [hfrk, hfra]
        exact hsentP h0 (geti lp k) (geti_mem_extract lp hk1 (by omega) hlplen)
      have hrec2 := hrec (rec lp (mid + 1) b limit true true) a mid limit
        (decide (min (mid - a) (b - mid) ≥ (b - a) / 8))
        (partition (lessK key) l a b pivot).2.2 (by omega) (by omega) hsent2
      exact pdq_glue_right key a b mid l lp (rec lp (mid + 1) b limit true true) _
        hm1 hm2 hlplen hperm hL hR hrec1.1 hrec1.2 hrec2.1 hrec2.2

/-- Correctness of `pdqStage3` (the `partialInsertionSort` attempt). -/
theorem pdqStage3_spec (key : α → Int)
    (rec : List α → Nat → Nat → Nat → Bool → Bool → List α)
    (l : List α) (a b limit pivot : Nat) (hint : Hint) (wb wp : Bool)
    (hrec : ∀ (l' : List α) (a' b' limit' : Nat) (wb' wp' : Bool),
      b' - a' < b - a → b' ≤ l'.length → LoSentinel key l' a' b' →
      SortedRange key (rec l' a' b' limit' wb' wp') a' b' ∧
      RangePerm a' b' l' (rec l' a' b' limit' wb' wp'))
    (hab : a < b) (hbl : b ≤ l.length) (hpa : a ≤ pivot) (hpb : pivot < b)
    (hsent : LoSentinel key l a b) :
    SortedRange key (pdqStage3 (lessK key) rec l a b limit pivot hint wb wp) a b ∧
    RangePerm a b l (pdqStage3 (lessK key) rec l a b limit pivot hint wb wp) := by
  by_cases hpc : wb = true ∧ wp = true ∧ hint = Hint.increasing
  · have heq : pdqStage3 (lessK key) rec l a b limit pivot hint wb wp =
        if (partInsertionSort (lessK key) l a b).2 = true
        then (partInsertionSort (lessK key) l a b).1
        else pdqStage4 (lessK key) rec (partInsertionSort (lessK key) l a b).1
          a b limit pivot wb wp := by
      unfold pdqStage3
      rw [if_pos hpc]
    have hpis := partInsertionSort_spec key l a b hab hbl hsent
    by_cases hres : (partInsertionSort (lessK key) l a b).2 = true
    · rw [heq, if_pos hres]
      exact ⟨hpis.1 hres, hpis.2⟩
    · rw [heq, if_neg hres]
      have hlen2 : b ≤ (partInsertionSort (lessK key) l a b).1.length := by
        rw [hpis.2.1]
        exact hbl
      have hsent2 : LoSentinel key (partInsertionSort (lessK key) l a b).1 a b :=
        loSentinel_of_rangePerm key hpis.2 hbl (by omega) hsent
      have hs4 := pdqStage4_spec key rec (partInsertionSort (lessK key) l a b).1
        a b limit pivot wb wp hrec hab hlen2 hpa hpb hsent2
      exact ⟨hs4.1, rangePerm_trans hpis.2 hs4.2⟩
  · have heq : pdqStage3 (lessK key) rec l a b limit pivot hint wb wp =
        pdqStage4 (lessK key) rec l a b limit pivot wb wp := by
      unfold pdqStage3
      rw [if_neg hpc]
      rfl
    rw [heq]
    exact pdqStage4_spec key rec l a b limit pivot wb wp hrec hab hbl hpa hpb hsent

/-- Correctness of `pdqStage2` (pivot choice and reversal of decreasing
runs). -/
theorem pdqStage2_spec (key : α → Int)
    (rec : List α → Nat → Nat → Nat → Bool → Bool → List α)
    (l : List α) (a b limit : Nat) (wb wp : Bool)
    (hrec : ∀ (l' : List α) (a' b' limit' : Nat) (wb' wp' : Bool),
      b' - a' < b - a → b' ≤ l'.length → LoSentinel key l' a' b' →
      SortedRange key (rec l' a' b' limit' wb' wp') a' b' ∧
      RangePerm a' b' l' (rec l' a' b' limit' wb' wp'))
    (h12 : 12 < b - a) (hbl : b ≤ l.length) (hsent : LoSentinel key l a b) :
    SortedRange key (pdqStage2 (lessK key) rec l a b limit wb wp) a b ∧
    RangePerm a b l (pdqStage2 (lessK key) rec l a b limit wb wp) := by
  have hpb := choosePivot_bounds (lessK key) l a b (by omega)
  by_cases hdec : (choosePivot (lessK key) l a b).2 = Hint.decreasing
  · have heq : pdqStage2 (lessK key) rec l a b limit wb wp =
        pdqStage3 (lessK key) rec (reverseRange l a b) a b limit
          ((b - 1) - ((choosePivot (lessK key) l a b).1 - a)) Hint.increasing wb wp := by
      simp only [pdqStage2]
      rw [if_pos hdec]
    rw [heq]
    have hrev : RangePerm a b l (reverseRange l a b) :=
      reverseRange_rangePerm l a b (by omega) hbl (by omega)
    have hlen2 : b ≤ (reverseRange l a b).length := by
      rw [hrev.1]
      exact hbl
    have hsent2 : LoSentinel key (reverseRange l a b) a b :=
      loSentinel_of_rangePerm key hrev hbl (by omega) hsent
    have hs3 := pdqStage3_spec key rec (reverseRange l a b) a b limit
      ((b - 1) - ((choosePivot (lessK key) l a b).1 - a)) Hint.increasing wb wp
      hrec (by omega) hlen2 (by omega) (by omega) hsent2
    exact ⟨hs3.1, rangePerm_trans hrev hs3.2⟩
  · have heq : pdqStage2 (lessK key) rec l a b limit wb wp =
        pdqStage3 (lessK key) rec l a b limit (choosePivot (lessK key) l a b).1
          (choosePivot (lessK key) l a b).2 wb wp := by
      simp only [pdqStage2]
      rw [if_neg hdec]
    rw [heq]
    exact pdqStage3_spec key rec l a b limit (choosePivot (lessK key) l a b).1
      (choosePivot (lessK key) l a b).2 wb wp hrec (by omega) hbl hpb.1 hpb.2 hsent

/-- Correctness of the full `pdqsort_func` body, assuming `rec` is correct
on strictly smaller ranges. -/
theorem pdqBody_spec (key : α → Int)
    (rec : List α → Nat → Nat → Nat → Bool → Bool → List α)
    (l : List α) (a b limit : Nat) (wb wp : Bool)
    (hrec : ∀ (l' : List α) (a' b' limit' : Nat) (wb' wp' : Bool),
      b' - a' < b - a → b' ≤ l'.length → LoSentinel key l' a' b' →
      SortedRange key (rec l' a' b' limit' wb' wp') a' b' ∧
      RangePerm a' b' l' (rec l' a' b' limit' wb' wp'))
    (hbl : b ≤ l.length) (hsent : LoSentinel key l a b) :
    SortedRange key (pdqBody (lessK key) rec l a b limit wb wp) a b ∧
    RangePerm a b l (pdqBody (lessK key) rec l a b limit wb wp) := by
  by_cases h12 : b - a ≤ 12
  · have heq : pdqBody (lessK key) rec l a b limit wb wp =
        insertionSort (lessK key) l a b := by
      unfold pdqBody
      rw [if_pos h12]
    rw [heq]
    exact insertionSort_spec key l a b hbl
  · by_cases hlim : limit = 0
    · have heq : pdqBody (lessK key) rec l a b limit wb wp =
          heapSort (lessK key) l a b := by
        unfold pdqBody
        rw [if_neg h12, if_pos hlim]
      rw [heq]
      exact heapSort_spec key l a b (by omega) hbl
    · by_cases hwb : wb = false
      · have heq : pdqBody (lessK key) rec l a b limit wb wp =
            pdqStage2 (lessK key) rec (breakPatterns l a b) a b (limit - 1) wb wp := by
          unfold pdqBody
          rw [if_neg h12, if_neg hlim, if_pos hwb]
        rw [heq]
        have hbp : RangePerm a b l (breakPatterns l a b) :=
          breakPatterns_rangePerm l a b hbl
        have hlen2 : b ≤ (breakPatterns l a b).length := by
          rw [hbp.1]
          exact hbl
        have hsent2 : LoSentinel key (breakPatterns l a b) a b :=
          loSentinel_of_rangePerm key hbp hbl (by omega) hsent
        have hs2 := pdqStage2_spec key rec (breakPatterns l a b) a b (limit - 1)
          wb wp hrec (by omega) hlen2 hsent2
        exact ⟨hs2.1, rangePerm_trans hbp hs2.2⟩
      · have heq : pdqBody (lessK key) rec l a b limit wb wp =
            pdqStage2 (lessK key) rec l a b limit wb wp := by
          unfold pdqBody
          rw [if_neg h12, if_neg hlim, if_neg hwb]
        rw [heq]
        exact pdqStage2_spec key rec l a b limit wb wp hrec (by omega) hbl hsent

/-- Correctness of the fuelled `pdqsort_func`: enough fuel sorts the range
`[a, b)` and rearranges nothing outside it. -/
theorem pdqsortLoop_spec (key : α → Int) :
    ∀ (fuel : Nat) (l : List α) (a b limit : Nat) (wb wp : Bool),
    b - a ≤ fuel → b ≤ l.length → LoSentinel key l a b →
    SortedRange key (pdqsortLoop (lessK key) fuel l a b limit wb wp) a b ∧
    RangePerm a b l (pdqsortLoop (lessK key) fuel l a b limit wb wp) := by
  intro fuel
  induction fuel with
  | zero =>
    intro l a b limit wb wp hfuel hbl hsent
    have h0 : pdqsortLoop (lessK key) 0 l a b limit wb wp = l := rfl
    rw [h0]
    exact ⟨fun k hk1 hk2 => by omega, rangePerm_refl a b l⟩
  | succ fuel ih =>
    intro l a b limit wb wp hfuel hbl hsent
    rw [pdqsortLoop_unfold]
    refine pdqBody_spec key (pdqsortLoop (lessK key) fuel) l a b limit wb wp ?_ hbl hsent
    intro l' a' b' limit' wb' wp' hlt hbl' hsent'
    exact ih l' a' b' limit' wb' wp' (by omega) hbl' hsent'

/-- Go `sort.Slice(x, less)` with a key-comparison `less`: the result is a
permutation of the input sorted by descending key. -/
theorem sortSlice_spec (key : α → Int) (l : List α) :
    SortedRange key (sortSlice (lessK key) l) 0 l.length ∧
    (sortSlice (lessK key) l).Perm l := by
  have hs := pdqsortLoop_spec key (l.length + 1) l 0 l.length (bitsLen l.length)
    true true (by omega) (le_refl _) (fun h => absurd h (by omega))
  exact ⟨hs.1, hs.2.2.2⟩

end SortProof

/-! ## Assembly of the parallel processor's result map (claim C1) -/

theorem lookup_rangeMap_none (f : Nat → Document) :
    ∀ (ns : List Nat) (k : Nat), k ∉ ns →
    (ns.map (fun i => (i, f i))).lookup k = none := by
  intro ns
  induction ns with
  | nil =>
    intro k hk
    rfl
  | cons j t ih =>
    intro k hk
    have heq : ((j, f j) :: t.map (fun i => (i, f i))).lookup k =
        (match (k == j : Bool) with
         | true => some (f j)
         | false => (t.map (fun i => (i, f i))).lookup k) := rfl
    have hbeq : (k == j) = false := by
      refine beq_eq_false_iff_ne.mpr ?_
      intro h
      exact hk (h ▸ List.mem_cons_self j t)
    rw [List.map_cons, heq, hbeq]
    exact ih k (fun hmem => hk (List.mem_cons_of_mem j hmem))

/-- On any index list the map lookup finds the first inserted value. -/
theorem lookup_rangeMap_mem (f : Nat → Document) :
    ∀ (ns : List Nat) (k : Nat), k ∈ ns →
    (ns.map (fun i => (i, f i))).lookup k = some (f k) := by
  intro ns
  induction ns with
  | nil =>
    intro k hk
    exact absurd hk (List.not_mem_nil k)
  | cons j t ih =>
    intro k hk
    have heq : ((j, f j) :: t.map (fun i => (i, f i))).lookup k =
        (match (k == j : Bool) with
         | true => some (f j)
         | false => (t.map (fun i => (i, f i))).lookup k) := rfl
    by_cases hjk : k = j
    · have hbeq : (k == j) = true := beq_iff_eq.mpr hjk
      rw [List.map_cons, heq, hbeq, hjk]
    · have hkt : k ∈ t := by
        rcases List.mem_cons.mp hk with h | h
        · exact absurd h hjk
        · exact h
      have hbeq : (k == j) = false := beq_eq_false_iff_ne.mpr hjk
      rw [List.map_cons, heq, hbeq]
      exact ih k hkt

/-- The `processedMap` fold over all indices is the association list of all
`(i, f i)` in index order (each insertion hits a fresh key). -/
theorem processedMap_eq (f : Nat → Document) :
    ∀ (N : Nat), (List.range N).foldl (fun m idx => natMapInsert m idx (f idx)) [] =
      (List.range N).map (fun i => (i, f i)) := by
  intro N
  induction N with
  | zero => rfl
  | succ N ih =>
    rw [List.range_succ, List.foldl_append, List.map_append, ih]
    show natMapInsert ((List.range N).map (fun i => (i, f i))) N (f N) =
      (List.range N).map (fun i => (i, f i)) ++ [N].map (fun i => (i, f i))
    unfold natMapInsert
    rw [lookup_rangeMap_none f (List.range N) N (by simp)]
    simp

theorem rangeMap_geti (g : Document → Document) :
    ∀ (l : List Document),
    (List.range l.length).map (fun i => g (geti l i)) = l.map g := by
  intro l
  induction l with
  | nil => rfl
  | cons x t ih =>
    rw [show (x :: t).length = t.length + 1 from rfl, List.range_succ_eq_map,
      List.map_cons, List.map_map]
    have hcomp : ((fun i => g (geti (x :: t) i)) ∘ Nat.succ) = fun i => g (geti t i) := rfl
    rw [hcomp, ih]
    rfl

/-- The parallel processor without cancellation succeeds and returns the
processed documents in input order. -/
theorem processDocumentsParallel_ok (docs : List Document) :
    processDocumentsParallel docs false = Except.ok (docs.map processDocument) := by
  have heq : processDocumentsParallel docs false =
      runParallel docs false (List.range docs.length) := rfl
  rw [heq]
  by_cases hN : docs.length = 0
  · have hnil : docs = [] := List.length_eq_zero.mp hN
    subst hnil
    rfl
  · have heq2 : runParallel docs false (List.range docs.length) =
        (if ((List.range docs.length).foldl
              (fun m idx => natMapInsert m idx (processDocument (geti docs idx)))
              []).length ≠ docs.length
         then Except.error ProcError.incomplete
         else Except.ok ((List.range docs.length).map
           (fun i => ((((List.range docs.length).foldl
              (fun m idx => natMapInsert m idx (processDocument (geti docs idx)))
              []).lookup i).getD default)))) := by
      unfold runParallel
      rw [if_neg hN]
      rfl
    rw [heq2, processedMap_eq (fun idx => processDocument (geti docs idx))]
    have hlen : ((List.range docs.length).map
        (fun i => (i, processDocument (geti docs i)))).length = docs.length := by
      rw [List.length_map, List.length_range]
    rw [if_neg (by omega)]
    have hmapeq : (List.range docs.length).map
        (fun i => ((((List.range docs.length).map
          (fun i => (i, processDocument (geti docs i)))).lookup i).getD default)) =
        (List.range docs.length).map (fun i => processDocument (geti docs i)) := by
      refine List.map_congr_left ?_
      intro i hi
      rw [lookup_rangeMap_mem (fun i => processDocument (geti docs i))
        (List.range docs.length) i hi]
      rfl
    rw [hmapeq, rangeMap_geti processDocument docs]

/-- `sort.Slice` with the item comparator produces a descending-`Sort`
permutation of the input items. -/
theorem sortSlice_items (its : List FirstLevelItem) :
    SortedDesc (GoSort.sortSlice itemLess its) ∧
    (GoSort.sortSlice itemLess its).Perm its := by
  have hless : itemLess = lessK FirstLevelItem.sort := rfl
  rw [hless]
  have hs := sortSlice_spec FirstLevelItem.sort its
  refine ⟨?_, hs.2⟩
  unfold SortedDesc
  rw [List.chain'_iff_get]
  intro i hi
  have hlen : (GoSort.sortSlice (lessK FirstLevelItem.sort) its).length = its.length :=
    hs.2.length_eq
  have hi1 : i + 1 < its.length := by omega
  have hpair := hs.1 (i + 1) (by omega) hi1
  have hg1 : geti (GoSort.sortSlice (lessK FirstLevelItem.sort) its) (i + 1) =
      (GoSort.sortSlice (lessK FirstLevelItem.sort) its).get ⟨i + 1, by omega⟩ := by
    rw [geti_eq_getElem _ _ (by omega), List.get_eq_getElem]
  have hg2 : geti (GoSort.sortSlice (lessK FirstLevelItem.sort) its) (i + 1 - 1) =
      (GoSort.sortSlice (lessK FirstLevelItem.sort) its).get ⟨i, by omega⟩ := by
    rw [geti_eq_getElem _ _ (by omega), List.get_eq_getElem]
    rfl
  rw [hg1, hg2] at hpair
  exact hpair

/-! ## Claim C1: order and sortedness hold, stability does not -/

/-- Counterexample to claim C1 as stated: `sort.Slice` is Go's pdqsort,
which is **not stable**.  On a 13-item document (13 exceeds the 12-element
insertion-sort cutoff, so the call partitions) whose two `Sort = 7` items
sit at input positions 0 (`"i0"`) and 1 (`"i1"`), a successful
uncancelled call returns them reordered: `"i1"` before `"i0"`.  Every
other part of the claim holds on this input — one document in, one
processed document out, items in descending `Sort` order. -/
theorem claim1_counterexample :
    (stabDoc.items.getD []).map (fun it => (it.id, it.sort)) =
      [("i0", 7), ("i1", 7), ("i2", 11), ("i3", 5), ("i4", 9), ("i5", 1), ("i6", 12),
       ("i7", 4), ("i8", 8), ("i9", 3), ("i10", 10), ("i11", 6), ("i12", 13)] ∧
    projResult (processDocumentsParallel [stabDoc] false) =
      some [[("i12", 13), ("i6", 12), ("i2", 11), ("i10", 10), ("i4", 9), ("i8", 8),
             ("i1", 7), ("i0", 7), ("i11", 6), ("i3", 5), ("i7", 4), ("i9", 3),
             ("i5", 1)]] :=
  ⟨rfl, rfl⟩

/-- Claim C1 (amended) — for every input list of N documents (including
N = 0), a successful call of the parallel processor (no cancellation)
returns exactly N documents with output position i holding the processed
form of input position i; within each output document the items are a
permutation of that document's input items sorted by descending `Sort`
key.  (The stability clause of the original claim is dropped: `sort.Slice`
is pdqsort, which does not preserve the relative order of equal keys —
see the counterexample.) -/
theorem claim1_amended (docs : List Document) :
    processDocumentsParallel docs false = Except.ok (docs.map processDocument) ∧
    (docs.map processDocument).length = docs.length ∧
    (∀ i, i < docs.length →
      geti (docs.map processDocument) i = processDocument (geti docs i)) ∧
    (∀ d ∈ docs, ∀ its, d.items = some its →
      (processDocument d).items = some (GoSort.sortSlice itemLess its) ∧
      SortedDesc (GoSort.sortSlice itemLess its) ∧
      (GoSort.sortSlice itemLess its).Perm its) := by
  refine ⟨processDocumentsParallel_ok docs, List.length_map docs processDocument,
    ?_, ?_⟩
  · intro i hi
    rw [geti_eq_getElem _ _ (by rw [List.length_map]; exact hi), List.getElem_map,
      geti_eq_getElem _ _ hi]
  · intro d hd its hits
    refine ⟨?_, sortSlice_items its⟩
    show (d.items.map (fun l => GoSort.sortSlice itemLess l)) = _
    rw [hits]
    rfl

/-- Witness for C1 (amended): instantiated on the one-document list used by
the counterexample; the call succeeds with the processed document. -/
theorem claim1_amended_witness :
    processDocumentsParallel [stabDoc] false =
      Except.ok ([stabDoc].map processDocument) ∧
    ([stabDoc].map processDocument).length = 1 :=
  ⟨(claim1_amended [stabDoc]).1, (claim1_amended [stabDoc]).2.1⟩

end InvoltaTest
